import Mathlib

/-!
Recursive variable-size batched triangular solve (`ztrsm_vbatched_core`).

A shallow embedding of `src/magmablas/ztrsm_vbatched_core.cpp`.

* `magma_get_ztrsm_vbatched_nb` is the split-size ladder.
* `trsm_shape` is the eight-way shape selection.
* `trsm_level` is the body of one activation of
  `magmablas_ztrsm_vbatched_max_nocheck`: either the stopping condition fires and the
  small solver is launched, or the `switch` picks one of eight cases, each of which is
  "recursive call, batched GEMM, recursive call".
* `magmablas_ztrsm_vbatched_max_nocheck` unfolds the recursion (with fuel, since the C
  recursion is not structurally bounded) into the ordered list of kernel launches.
* `run` gives the launches their meaning on a memory of matrices, for one problem of the
  batch whose size is the batch-wide maximum; `run_problem` does so for a problem of the
  batch with sizes of its own.
* `trsm_depth` is the depth of the recursion tree.

A shallow embedding of `src/src/sgeqrs_gpu.cpp` follows: `sgeqrs_info` is the chain of
argument checks and `magma_sgeqrs_gpu` the routine as the list of the calls it issues.

The type-code macros of `src/sparse/include/magmasparse_mmio.h` are embedded last: a
`MM_typecode` is its four characters, each `mm_set_*` the assignment of its macro and
each `mm_is_*` the comparison of its macro.

`magma_int_t` values and the `int` locals `m1`, `m2`, `n1`, `n2` are embedded as `Int`
(sizes and offsets are taken to be in range); in `magma_sgeqrs_gpu` the workspace size
of line 105 is reduced to the 32 bits of an `int` (`int32`) and its conversion to
`float` is rounded to 24 bits (`int_to_float`); the scalar type `magmaDoubleComplex` is
embedded as an arbitrary field `K` with a conjugation (exact arithmetic), in which the
quotient `MAGMA_Z_DIV` is undefined for a zero divisor.
-/

namespace Magma

/-! ## Enumerations -/

/-- The `magma_side_t` values. `MagmaBothSides` stands for a value outside the domain
`MagmaLeft`/`MagmaRight` accepted by the solver. -/
inductive magma_side_t where
  | MagmaLeft
  | MagmaRight
  | MagmaBothSides
  deriving DecidableEq, Repr

/-- The `magma_uplo_t` values. `MagmaFull` stands for a value outside the domain
`MagmaUpper`/`MagmaLower` accepted by the solver. -/
inductive magma_uplo_t where
  | MagmaUpper
  | MagmaLower
  | MagmaFull
  deriving DecidableEq, Repr

/-- The `magma_trans_t` values. `MagmaInvalidTrans` stands for a value outside the
domain `MagmaNoTrans`/`MagmaTrans`/`MagmaConjTrans` accepted by the solver. -/
inductive magma_trans_t where
  | MagmaNoTrans
  | MagmaTrans
  | MagmaConjTrans
  | MagmaInvalidTrans
  deriving DecidableEq, Repr

/-- The `magma_diag_t` values. -/
inductive magma_diag_t where
  | MagmaNonUnit
  | MagmaUnit
  deriving DecidableEq, Repr

open magma_side_t magma_uplo_t magma_trans_t magma_diag_t

/-! ## Split size -/

/-- The function `magma_get_ztrsm_vbatched_nb` (lines 18-32). -/
def magma_get_ztrsm_vbatched_nb (max_n : Int) : Int :=
  if      max_n > 2048 then 2048
  else if max_n > 1024 then 1024
  else if max_n >  512 then 512
  else if max_n >  256 then 256
  else if max_n >  128 then 128
  else if max_n >   64 then 64
  else if max_n >   32 then 32
  else if max_n >   16 then 16
  else if max_n >    8 then 8
  else if max_n >    4 then 4
  else if max_n >    2 then 2
  else 1

/-- The ladder of split sizes named by the specification, largest first. -/
def nb_ladder : List Int := [2048, 1024, 512, 256, 128, 64, 32, 16, 8, 4, 2]

/-! ## Shape selection -/

/-- The shape selection of `magmablas_ztrsm_vbatched_max_nocheck` (lines 53-61):
`shape` starts at `0` and the chain of tests has no final `else`. -/
def trsm_shape (side : magma_side_t) (uplo : magma_uplo_t) (transA : magma_trans_t) : Int :=
  if      side = MagmaLeft  ∧ transA = MagmaNoTrans ∧ uplo = MagmaLower then 0
  else if side = MagmaLeft  ∧ transA = MagmaNoTrans ∧ uplo = MagmaUpper then 1
  else if side = MagmaLeft  ∧ transA ≠ MagmaNoTrans ∧ uplo = MagmaLower then 2
  else if side = MagmaLeft  ∧ transA ≠ MagmaNoTrans ∧ uplo = MagmaUpper then 3
  else if side = MagmaRight ∧ transA = MagmaNoTrans ∧ uplo = MagmaLower then 4
  else if side = MagmaRight ∧ transA = MagmaNoTrans ∧ uplo = MagmaUpper then 5
  else if side = MagmaRight ∧ transA ≠ MagmaNoTrans ∧ uplo = MagmaLower then 6
  else if side = MagmaRight ∧ transA ≠ MagmaNoTrans ∧ uplo = MagmaUpper then 7
  else 0

/-! ## Launch records -/

/-- The parameter list shared by `magmablas_ztrsm_vbatched_max_nocheck` and
`magmablas_ztrsm_small_vbatched`. Pointer arrays and the queue are handles. -/
structure TrsmArgs (K : Type) where
  side : magma_side_t
  uplo : magma_uplo_t
  transA : magma_trans_t
  diag : magma_diag_t
  m : List Int
  n : List Int
  alpha : K
  dA_array : Nat
  Ai : Int
  Aj : Int
  ldda : List Int
  dB_array : Nat
  Bi : Int
  Bj : Int
  lddb : List Int
  max_m : Int
  max_n : Int
  spec_m : Int
  spec_n : Int
  batchCount : Int
  queue : Nat

/-- The parameter list of `magmablas_zgemm_vbatched_core` in the order of the call
sites. The scalar `alpha` is optional because one of the values passed,
`c_neg_ialpha`, is a quotient. -/
structure GemmArgs (K : Type) where
  transA : magma_trans_t
  transB : magma_trans_t
  m : List Int
  n : List Int
  k : List Int
  alpha : Option K
  dA_array : Nat
  ldda : List Int
  dB_array : Nat
  lddb : List Int
  beta : K
  dC_array : Nat
  lddc : List Int
  max_m : Int
  max_n : Int
  max_k : Int
  Ai : Int
  Aj : Int
  Bi : Int
  Bj : Int
  Ci : Int
  Cj : Int
  spec_m : Int
  spec_n : Int
  spec_k : Int
  batchCount : Int
  queue : Nat

/-- One kernel launch enqueued by the solver. -/
inductive Launch (K : Type) where
  | small (a : TrsmArgs K)
  | gemm (g : GemmArgs K)

/-- What one activation of the solver does: launch the small solver, or perform
"recursive call, GEMM, recursive call", or (the `default` branch) nothing. -/
inductive Step (K : Type) where
  | base (a : TrsmArgs K)
  | split (first : TrsmArgs K) (update : GemmArgs K) (second : TrsmArgs K)
  | noop

/-- A block of a stored matrix: the offsets of its first entry and its numbers of rows
and columns. -/
structure MatBlock where
  row : Int
  col : Int
  rows : Int
  cols : Int
  deriving DecidableEq, Repr

section Solver

variable {K : Type} [Field K] [DecidableEq K]

/-- The quotient `MAGMA_Z_DIV(a, b)` in exact arithmetic: undefined when `b = 0`. -/
def MAGMA_Z_DIV (a b : K) : Option K :=
  if b = 0 then none else some (a / b)

/-- The body of `magmablas_ztrsm_vbatched_max_nocheck` (lines 48-366), with the two
recursive calls of each case returned as argument lists. `stop_nb` is
`magma_get_ztrsm_batched_stop_nb`, which is defined outside this file. -/
def trsm_level (stop_nb : magma_side_t → Int → Int → Int) (a : TrsmArgs K) : Step K :=
  let c_one : K := 1
  let c_negone : K := -1
  let c_neg_ialpha : Option K := MAGMA_Z_DIV c_negone a.alpha
  let max_nrowA : Int := if a.side = MagmaLeft then a.max_m else a.max_n
  let shape : Int := trsm_shape a.side a.uplo a.transA
  let batrsm_stop_nb : Int := stop_nb a.side a.max_m a.max_n
  if max_nrowA ≤ batrsm_stop_nb then
    Step.base a
  else if shape = 0 then
    let m2 := magma_get_ztrsm_vbatched_nb a.max_m
    let m1 := a.max_m - m2
    Step.split
      { a with max_m := m1, spec_m := m1, spec_n := 0 }
      { transA := MagmaNoTrans, transB := MagmaNoTrans,
        m := a.m, n := a.n, k := a.m,
        alpha := some c_negone, dA_array := a.dA_array, ldda := a.ldda,
        dB_array := a.dB_array, lddb := a.lddb,
        beta := a.alpha, dC_array := a.dB_array, lddc := a.lddb,
        max_m := m2, max_n := a.max_n, max_k := m1,
        Ai := a.Ai + m1, Aj := a.Aj, Bi := a.Bi, Bj := a.Bj, Ci := a.Bi + m1, Cj := a.Bj,
        spec_m := m2, spec_n := 0, spec_k := m1,
        batchCount := a.batchCount, queue := a.queue }
      { a with alpha := c_one, Ai := a.Ai + m1, Aj := a.Aj + m1, Bi := a.Bi + m1,
               max_m := m2, spec_m := m2, spec_n := 0 }
  else if shape = 1 then
    let m1 := magma_get_ztrsm_vbatched_nb a.max_m
    let m2 := a.max_m - m1
    Step.split
      { a with Ai := a.Ai + m1, Aj := a.Aj + m1, Bi := a.Bi + m1,
               max_m := m2, spec_m := m2, spec_n := 0 }
      { transA := MagmaNoTrans, transB := MagmaNoTrans,
        m := a.m, n := a.n, k := a.m,
        alpha := c_neg_ialpha, dA_array := a.dA_array, ldda := a.ldda,
        dB_array := a.dB_array, lddb := a.lddb,
        beta := c_one, dC_array := a.dB_array, lddc := a.lddb,
        max_m := m1, max_n := a.max_n, max_k := m2,
        Ai := a.Ai, Aj := a.Aj + m1, Bi := a.Bi + m1, Bj := a.Bj, Ci := a.Bi, Cj := a.Bj,
        spec_m := m1, spec_n := 0, spec_k := m2,
        batchCount := a.batchCount, queue := a.queue }
      { a with max_m := m1, spec_m := m1, spec_n := 0 }
  else if shape = 2 then
    let m2 := magma_get_ztrsm_vbatched_nb a.max_m
    let m1 := a.max_m - m2
    Step.split
      { a with Ai := a.Ai + m1, Aj := a.Aj + m1, Bi := a.Bi + m1,
               max_m := m2, spec_m := m2, spec_n := 0 }
      { transA := a.transA, transB := MagmaNoTrans,
        m := a.m, n := a.n, k := a.m,
        alpha := c_neg_ialpha, dA_array := a.dA_array, ldda := a.ldda,
        dB_array := a.dB_array, lddb := a.lddb,
        beta := c_one, dC_array := a.dB_array, lddc := a.lddb,
        max_m := m1, max_n := a.max_n, max_k := m2,
        Ai := a.Ai + m1, Aj := a.Aj, Bi := a.Bi + m1, Bj := a.Bj, Ci := a.Bi, Cj := a.Bj,
        spec_m := m1, spec_n := 0, spec_k := m2,
        batchCount := a.batchCount, queue := a.queue }
      { a with max_m := m1, spec_m := m1, spec_n := 0 }
  else if shape = 3 then
    let m1 := magma_get_ztrsm_vbatched_nb a.max_m
    let m2 := a.max_m - m1
    Step.split
      { a with max_m := m1, spec_m := m1, spec_n := 0 }
      { transA := a.transA, transB := MagmaNoTrans,
        m := a.m, n := a.n, k := a.m,
        alpha := some c_negone, dA_array := a.dA_array, ldda := a.ldda,
        dB_array := a.dB_array, lddb := a.lddb,
        beta := a.alpha, dC_array := a.dB_array, lddc := a.lddb,
        max_m := m2, max_n := a.max_n, max_k := m1,
        Ai := a.Ai, Aj := a.Aj + m1, Bi := a.Bi, Bj := a.Bj, Ci := a.Bi + m1, Cj := a.Bj,
        spec_m := m2, spec_n := 0, spec_k := m1,
        batchCount := a.batchCount, queue := a.queue }
      { a with alpha := c_one, Ai := a.Ai + m1, Aj := a.Aj + m1, Bi := a.Bi + m1,
               max_m := m2, spec_m := m2, spec_n := 0 }
  else if shape = 4 then
    let n2 := magma_get_ztrsm_vbatched_nb a.max_n
    let n1 := a.max_n - n2
    Step.split
      { a with Ai := a.Ai + n1, Aj := a.Aj + n1, Bj := a.Bj + n1,
               max_n := n2, spec_m := 0, spec_n := n2 }
      { transA := MagmaNoTrans, transB := a.transA,
        m := a.m, n := a.n, k := a.n,
        alpha := c_neg_ialpha, dA_array := a.dB_array, ldda := a.lddb,
        dB_array := a.dA_array, lddb := a.ldda,
        beta := c_one, dC_array := a.dB_array, lddc := a.lddb,
        max_m := a.max_m, max_n := n1, max_k := n2,
        Ai := a.Bi, Aj := a.Bj + n1, Bi := a.Ai + n1, Bj := a.Aj, Ci := a.Bi, Cj := a.Bj,
        spec_m := 0, spec_n := n1, spec_k := n2,
        batchCount := a.batchCount, queue := a.queue }
      { a with max_n := n1, spec_m := 0, spec_n := n1 }
  else if shape = 5 then
    let n1 := magma_get_ztrsm_vbatched_nb a.max_n
    let n2 := a.max_n - n1
    Step.split
      { a with max_n := n1, spec_m := 0, spec_n := n1 }
      { transA := MagmaNoTrans, transB := a.transA,
        m := a.m, n := a.n, k := a.n,
        alpha := some c_negone, dA_array := a.dB_array, ldda := a.lddb,
        dB_array := a.dA_array, lddb := a.ldda,
        beta := a.alpha, dC_array := a.dB_array, lddc := a.lddb,
        max_m := a.max_m, max_n := n2, max_k := n1,
        Ai := a.Bi, Aj := a.Bj, Bi := a.Ai, Bj := a.Aj + n1, Ci := a.Bi, Cj := a.Bj + n1,
        spec_m := 0, spec_n := n2, spec_k := n1,
        batchCount := a.batchCount, queue := a.queue }
      { a with alpha := c_one, Ai := a.Ai + n1, Aj := a.Aj + n1, Bj := a.Bj + n1,
               max_n := n2, spec_m := 0, spec_n := n2 }
  else if shape = 6 then
    let n1 := magma_get_ztrsm_vbatched_nb a.max_n
    let n2 := a.max_n - n1
    Step.split
      { a with max_n := n1, spec_m := 0, spec_n := n1 }
      { transA := MagmaNoTrans, transB := a.transA,
        m := a.m, n := a.n, k := a.n,
        alpha := some c_negone, dA_array := a.dB_array, ldda := a.lddb,
        dB_array := a.dA_array, lddb := a.ldda,
        beta := a.alpha, dC_array := a.dB_array, lddc := a.lddb,
        max_m := a.max_m, max_n := n2, max_k := n1,
        Ai := a.Bi, Aj := a.Bj, Bi := a.Ai + n1, Bj := a.Aj, Ci := a.Bi, Cj := a.Bj + n1,
        spec_m := 0, spec_n := n2, spec_k := n1,
        batchCount := a.batchCount, queue := a.queue }
      { a with alpha := c_one, Ai := a.Ai + n1, Aj := a.Aj + n1, Bj := a.Bj + n1,
               max_n := n2, spec_m := 0, spec_n := n2 }
  else if shape = 7 then
    let n2 := magma_get_ztrsm_vbatched_nb a.max_n
    let n1 := a.max_n - n2
    Step.split
      { a with Ai := a.Ai + n1, Aj := a.Aj + n1, Bj := a.Bj + n1,
               max_n := n2, spec_m := 0, spec_n := n2 }
      { transA := MagmaNoTrans, transB := a.transA,
        m := a.m, n := a.n, k := a.n,
        alpha := c_neg_ialpha, dA_array := a.dB_array, ldda := a.lddb,
        dB_array := a.dA_array, lddb := a.ldda,
        beta := c_one, dC_array := a.dB_array, lddc := a.lddb,
        max_m := a.max_m, max_n := n1, max_k := n2,
        Ai := a.Bi, Aj := a.Bj + n1, Bi := a.Ai, Bj := a.Aj + n1, Ci := a.Bi, Cj := a.Bj,
        spec_m := 0, spec_n := n1, spec_k := n2,
        batchCount := a.batchCount, queue := a.queue }
      { a with max_n := n1, spec_m := 0, spec_n := n1 }
  else
    Step.noop

/-- The function `magmablas_ztrsm_vbatched_max_nocheck` (lines 34-369) as the ordered
list of launches it enqueues. The recursion of the source is unfolded `fuel` levels
deep; `none` means the fuel ran out. -/
def magmablas_ztrsm_vbatched_max_nocheck (stop_nb : magma_side_t → Int → Int → Int) :
    Nat → TrsmArgs K → Option (List (Launch K))
  | 0, _ => none
  | fuel + 1, a =>
    match trsm_level stop_nb a with
    | Step.base s => some [Launch.small s]
    | Step.split first update second =>
      match magmablas_ztrsm_vbatched_max_nocheck stop_nb fuel first with
      | none => none
      | some t1 =>
        match magmablas_ztrsm_vbatched_max_nocheck stop_nb fuel second with
        | none => none
        | some t2 => some (t1 ++ Launch.gemm update :: t2)
    | Step.noop => some []

/-- The dimension that governs the recursion, `max_nrowA` in the source (line 52). -/
def max_nrowA (a : TrsmArgs K) : Int :=
  if a.side = MagmaLeft then a.max_m else a.max_n

/-- The offset of the `B` block along the dimension that governs the recursion. -/
def rec_offset (a : TrsmArgs K) : Int :=
  if a.side = MagmaLeft then a.Bi else a.Bj

/-- Whether a launch is a small-solver launch whose index range along the recursion
dimension contains `x`. -/
def visits (x : Int) : Launch K → Bool
  | Launch.small s => decide (rec_offset s ≤ x ∧ x < rec_offset s + max_nrowA s)
  | Launch.gemm _ => false

/-! ## Meaning of the launches -/

/-- Memory: the matrix behind each pointer-array handle, as entries indexed by
(row, column), for one problem of the batch. -/
abbrev Mem (K : Type) := Nat → Int → Int → K

/-- The sub-matrix starting at row `r0`, column `c0`. -/
def blk (X : Int → Int → K) (r0 c0 : Int) (i j : Int) : K := X (r0 + i) (c0 + j)

variable [StarRing K]

/-- The entry `(i, j)` of `op(X)`. A value that is neither `MagmaNoTrans` nor
`MagmaTrans` is read as the conjugate transpose. -/
def op (t : magma_trans_t) (X : Int → Int → K) (i j : Int) : K :=
  match t with
  | MagmaNoTrans => X i j
  | MagmaTrans => X j i
  | MagmaConjTrans => star (X j i)
  | MagmaInvalidTrans => star (X j i)

/-- The triangular matrix a solve reads out of a square block: the `uplo` triangle, and
a diagonal of ones when `diag` is `MagmaUnit`. -/
def tri (uplo : magma_uplo_t) (diag : magma_diag_t) (X : Int → Int → K) (i j : Int) : K :=
  if i = j then (if diag = MagmaUnit then 1 else X i j)
  else if (uplo = MagmaLower ∧ j < i) ∨ (uplo = MagmaUpper ∧ i < j) then X i j
  else 0

/-- The memory after `C := al·op(A)·op(B) + beta·C` on the `max_m × max_n` block of `dC`
at `(Ci, Cj)`, the inner dimension being `max_k`. -/
def gemm_update (al : K) (g : GemmArgs K) (mem : Mem K) : Mem K :=
  fun p r c =>
    if p = g.dC_array ∧ g.Ci ≤ r ∧ r < g.Ci + g.max_m ∧ g.Cj ≤ c ∧ c < g.Cj + g.max_n then
      al * (∑ l in Finset.Ico (0 : Int) g.max_k,
              op g.transA (blk (mem g.dA_array) g.Ai g.Aj) (r - g.Ci) l
            * op g.transB (blk (mem g.dB_array) g.Bi g.Bj) l (c - g.Cj))
        + g.beta * mem p r c
    else mem p r c

/-- Modelled from the spec: `magmablas_zgemm_vbatched_core`, which is declared outside the
sources at hand, with the contract "compute C := alpha·op(A)·op(B) + beta·C over a batch
of independently sized, independently offset matrices", here for a problem whose
dimensions are the batch-wide `max_m`, `max_n`, `max_k`. The result is undefined when
the scalar `alpha` is. -/
def magmablas_zgemm_vbatched_core (g : GemmArgs K) (mem : Mem K) : Option (Mem K) :=
  match g.alpha with
  | none => none
  | some al => some (gemm_update al g mem)

/-- Execute a list of launches in order. `small` is `magmablas_ztrsm_small_vbatched`,
which is defined outside this file. -/
def run (small : TrsmArgs K → Mem K → Mem K) : List (Launch K) → Mem K → Option (Mem K)
  | [], mem => some mem
  | Launch.small a :: t, mem => run small t (small a mem)
  | Launch.gemm g :: t, mem =>
    match magmablas_zgemm_vbatched_core g mem with
    | none => none
    | some mem1 => run small t mem1

/-- Nothing changes outside the `km × kn` block of `dB` at `(Bi, Bj)`. -/
def frame_ok (dB : Nat) (Bi Bj km kn : Int) (mem mem1 : Mem K) : Prop :=
  ∀ p r c, ¬ (p = dB ∧ Bi ≤ r ∧ r < Bi + km ∧ Bj ≤ c ∧ c < Bj + kn) → mem1 p r c = mem p r c

/-- The `km × kn` block of `dB` at `(Bi, Bj)` holds `X` with `T·X = alpha·B`, where `B`
is the content of the block before. -/
def left_eqs (T : Int → Int → K) (alpha : K) (dB : Nat) (Bi Bj km kn : Int)
    (mem mem1 : Mem K) : Prop :=
  ∀ i j, 0 ≤ i → i < km → 0 ≤ j → j < kn →
    ∑ l in Finset.Ico (0 : Int) km, T i l * mem1 dB (Bi + l) (Bj + j)
      = alpha * mem dB (Bi + i) (Bj + j)

/-- The `km × kn` block of `dB` at `(Bi, Bj)` holds `X` with `X·T = alpha·B`, where `B`
is the content of the block before. -/
def right_eqs (T : Int → Int → K) (alpha : K) (dB : Nat) (Bi Bj km kn : Int)
    (mem mem1 : Mem K) : Prop :=
  ∀ i j, 0 ≤ i → i < km → 0 ≤ j → j < kn →
    ∑ l in Finset.Ico (0 : Int) kn, mem1 dB (Bi + i) (Bj + l) * T l j
      = alpha * mem dB (Bi + i) (Bj + j)

/-- The triangular-solve relation between the memory before and after a solve with
arguments `a`, for a problem of size `max_m × max_n`: outside the `B` block nothing
changes, and the block holds `X` with `op(A)·X = alpha·B` (left) or `X·op(A) = alpha·B`
(right), `A` being the triangular matrix read at `(Ai, Aj)`. -/
def trsm_solved (a : TrsmArgs K) (mem mem1 : Mem K) : Prop :=
  frame_ok a.dB_array a.Bi a.Bj a.max_m a.max_n mem mem1 ∧
  (a.side = MagmaLeft →
    left_eqs (op a.transA (tri a.uplo a.diag (blk (mem a.dA_array) a.Ai a.Aj)))
      a.alpha a.dB_array a.Bi a.Bj a.max_m a.max_n mem mem1) ∧
  (a.side = MagmaRight →
    right_eqs (op a.transA (tri a.uplo a.diag (blk (mem a.dA_array) a.Ai a.Aj)))
      a.alpha a.dB_array a.Bi a.Bj a.max_m a.max_n mem mem1)

/-- The diagonal of the triangular block read by a solve is invertible. -/
def diag_invertible (a : TrsmArgs K) (mem : Mem K) : Prop :=
  a.diag = MagmaNonUnit → ∀ i, 0 ≤ i → i < max_nrowA a → mem a.dA_array (a.Ai + i) (a.Aj + i) ≠ 0

/-- The contract of the small solver `magmablas_ztrsm_small_vbatched`: for valid side and
uplo, whenever the stopping condition holds, `A` and `B` are distinct buffers and the
diagonal is invertible, it solves the system in place. -/
def small_contract (stop_nb : magma_side_t → Int → Int → Int)
    (small : TrsmArgs K → Mem K → Mem K) : Prop :=
  ∀ (a : TrsmArgs K) (mem : Mem K),
    (a.side = MagmaLeft ∨ a.side = MagmaRight) →
    (a.uplo = MagmaLower ∨ a.uplo = MagmaUpper) →
    max_nrowA a ≤ stop_nb a.side a.max_m a.max_n →
    a.dA_array ≠ a.dB_array →
    diag_invertible a mem →
    trsm_solved a mem (small a mem)

/-- The scalars of the whole recursion are defined: either `alpha ≠ 0`, or the shape is
one of 0, 3, 5, 6, whose update is launched with `c_negone` and not with the quotient
`c_neg_ialpha`. -/
def alpha_defined (a : TrsmArgs K) : Prop :=
  a.alpha ≠ 0 ∨
    trsm_shape a.side a.uplo a.transA = 0 ∨ trsm_shape a.side a.uplo a.transA = 3 ∨
    trsm_shape a.side a.uplo a.transA = 5 ∨ trsm_shape a.side a.uplo a.transA = 6

/-! ## A concrete instance -/

/-- A threshold policy that always answers `1`. -/
def stop_one : magma_side_t → Int → Int → Int := fun _ _ _ => 1

/-- A direct solver for blocks whose triangular matrix is `1 × 1`: it scales the `B` block
by `alpha` and divides it by the diagonal entry. It is a small solver for the threshold
policy `stop_one`. -/
def small_one (a : TrsmArgs K) (mem : Mem K) : Mem K :=
  fun p r c =>
    if p = a.dB_array ∧ a.Bi ≤ r ∧ r < a.Bi + a.max_m ∧ a.Bj ≤ c ∧ c < a.Bj + a.max_n then
      a.alpha * mem p r c / op a.transA (tri a.uplo a.diag (blk (mem a.dA_array) a.Ai a.Aj)) 0 0
    else mem p r c

/-- A sample argument list over the rationals: one `3 × 2` problem, `A` behind handle `0`
and `B` behind handle `1`. -/
def sample_args (side : magma_side_t) (uplo : magma_uplo_t) (transA : magma_trans_t)
    (diag : magma_diag_t) (alpha : Rat) : TrsmArgs Rat :=
  { side := side, uplo := uplo, transA := transA, diag := diag,
    m := [3], n := [2], alpha := alpha,
    dA_array := 0, Ai := 0, Aj := 0, ldda := [3],
    dB_array := 1, Bi := 0, Bj := 0, lddb := [3],
    max_m := 3, max_n := 2, spec_m := 0, spec_n := 0,
    batchCount := 1, queue := 0 }

/-- A sample memory: `A` has `2` on its diagonal and `1` elsewhere, `B` is all ones. -/
def sample_mem : Mem Rat :=
  fun p r c => if p = 0 ∧ r = c then 2 else 1

/-- The sample call for side left, lower, conjugate-transposed, with `alpha = 2`. -/
def sample_conj : TrsmArgs Rat :=
  sample_args MagmaLeft MagmaLower MagmaConjTrans MagmaNonUnit 2

/-- The first recursive call of `sample_conj` under `stop_one`: the trailing `2 × 2`
block. -/
def sample_conj_first : TrsmArgs Rat :=
  { sample_conj with Ai := 1, Aj := 1, Bi := 1, max_m := 2, spec_m := 2, spec_n := 0 }

/-- The GEMM update of `sample_conj` under `stop_one`. -/
def sample_conj_update : GemmArgs Rat :=
  { transA := MagmaConjTrans, transB := MagmaNoTrans, m := [3], n := [2], k := [3],
    alpha := MAGMA_Z_DIV (-1) 2, dA_array := 0, ldda := [3], dB_array := 1, lddb := [3],
    beta := 1, dC_array := 1, lddc := [3], max_m := 1, max_n := 2, max_k := 2,
    Ai := 1, Aj := 0, Bi := 1, Bj := 0, Ci := 0, Cj := 0,
    spec_m := 1, spec_n := 0, spec_k := 2, batchCount := 1, queue := 0 }

/-- The second recursive call of `sample_conj` under `stop_one`: the leading `1 × 1`
block. -/
def sample_conj_second : TrsmArgs Rat :=
  { sample_conj with max_m := 1, spec_m := 1, spec_n := 0 }

/-- The sample call for side right, upper, not transposed (shape 5), with `alpha = 2`. -/
def sample_rnu : TrsmArgs Rat :=
  sample_args MagmaRight MagmaUpper MagmaNoTrans MagmaNonUnit 2

/-- The first recursive call of `sample_rnu` under `stop_one`: the leading column. -/
def sample_rnu_first : TrsmArgs Rat :=
  { sample_rnu with max_n := 1, spec_m := 0, spec_n := 1 }

/-- The GEMM update of `sample_rnu` under `stop_one`. -/
def sample_rnu_update : GemmArgs Rat :=
  { transA := MagmaNoTrans, transB := MagmaNoTrans, m := [3], n := [2], k := [2],
    alpha := some (-1), dA_array := 1, ldda := [3], dB_array := 0, lddb := [3],
    beta := 2, dC_array := 1, lddc := [3], max_m := 3, max_n := 1, max_k := 1,
    Ai := 0, Aj := 0, Bi := 0, Bj := 1, Ci := 0, Cj := 1,
    spec_m := 0, spec_n := 1, spec_k := 1, batchCount := 1, queue := 0 }

/-- The second recursive call of `sample_rnu` under `stop_one`: the trailing column. -/
def sample_rnu_second : TrsmArgs Rat :=
  { sample_rnu with alpha := 1, Ai := 1, Aj := 1, Bj := 1, max_n := 1,
                    spec_m := 0, spec_n := 1 }

/-- What a recursive call or a base-case launch `s` shares with the call `a` it descends
from: the mode flags, the pointer arrays with their leading dimensions, the size
arrays, `batchCount` and the queue. -/
def trsm_frame (a s : TrsmArgs K) : Prop :=
  s.side = a.side ∧ s.uplo = a.uplo ∧ s.transA = a.transA ∧ s.diag = a.diag ∧
  s.m = a.m ∧ s.n = a.n ∧ s.dA_array = a.dA_array ∧ s.ldda = a.ldda ∧
  s.dB_array = a.dB_array ∧ s.lddb = a.lddb ∧
  s.batchCount = a.batchCount ∧ s.queue = a.queue

/-- What a GEMM launch `g` shares with the call `a` it descends from: the size arrays
(`k` being `m` or `n`), the two pointer arrays with their leading dimensions as the
operands `A` and `B` in one of the two orders, the array of `B` as `C`, `batchCount`
and the queue. -/
def gemm_frame (a : TrsmArgs K) (g : GemmArgs K) : Prop :=
  g.m = a.m ∧ g.n = a.n ∧ g.dC_array = a.dB_array ∧ g.lddc = a.lddb ∧
  g.batchCount = a.batchCount ∧ g.queue = a.queue ∧
  ((g.k = a.m ∧ g.dA_array = a.dA_array ∧ g.ldda = a.ldda ∧
      g.dB_array = a.dB_array ∧ g.lddb = a.lddb) ∨
   (g.k = a.n ∧ g.dA_array = a.dB_array ∧ g.ldda = a.lddb ∧
      g.dB_array = a.dA_array ∧ g.lddb = a.ldda))

/-- The frame condition of a launch of either kind. -/
def launch_frame (a : TrsmArgs K) : Launch K → Prop
  | Launch.small s => trsm_frame a s
  | Launch.gemm g => gemm_frame a g

/-- An argument list with the pointer arrays, the leading dimensions, the size arrays,
`batchCount` and the queue blanked out. -/
def strip_trsm (a : TrsmArgs K) : TrsmArgs K :=
  { a with m := [], n := [], dA_array := 0, ldda := [], dB_array := 0, lddb := [],
           batchCount := 0, queue := 0 }

/-- A GEMM argument list with the pointer arrays, the leading dimensions, the size
arrays, `batchCount` and the queue blanked out. -/
def strip_gemm (g : GemmArgs K) : GemmArgs K :=
  { g with m := [], n := [], k := [], dA_array := 0, ldda := [], dB_array := 0,
           lddb := [], dC_array := 0, lddc := [], batchCount := 0, queue := 0 }

/-- A launch with the per-batch data blanked out: the primitive, its offsets, batch-wide
dimensions, spec values, transpose flags and scalars remain. -/
def strip_launch : Launch K → Launch K
  | Launch.small s => Launch.small (strip_trsm s)
  | Launch.gemm g => Launch.gemm (strip_gemm g)

/-- A step with the per-batch data blanked out. -/
def strip_step : Step K → Step K
  | Step.base s => Step.base (strip_trsm s)
  | Step.split a1 g a2 => Step.split (strip_trsm a1) (strip_gemm g) (strip_trsm a2)
  | Step.noop => Step.noop

/-- The size of the leading sub-block of a split: the distance from the caller's offset
to the sub-call that starts further along the recursion dimension. -/
def leading_size (a a1 a2 : TrsmArgs K) : Int :=
  max (rec_offset a1) (rec_offset a2) - rec_offset a

/-- The size of the trailing sub-block of a split. -/
def trailing_size (a a1 a2 : TrsmArgs K) : Int :=
  max_nrowA a - leading_size a a1 a2

/-- The body of `case 0` of the `switch` (lines 80-115): the three calls made for
shape 0. -/
def case_zero (a : TrsmArgs K) : Step K :=
  let c_one : K := 1
  let c_negone : K := -1
  let m2 := magma_get_ztrsm_vbatched_nb a.max_m
  let m1 := a.max_m - m2
  Step.split
    { a with max_m := m1, spec_m := m1, spec_n := 0 }
    { transA := MagmaNoTrans, transB := MagmaNoTrans,
      m := a.m, n := a.n, k := a.m,
      alpha := some c_negone, dA_array := a.dA_array, ldda := a.ldda,
      dB_array := a.dB_array, lddb := a.lddb,
      beta := a.alpha, dC_array := a.dB_array, lddc := a.lddb,
      max_m := m2, max_n := a.max_n, max_k := m1,
      Ai := a.Ai + m1, Aj := a.Aj, Bi := a.Bi, Bj := a.Bj, Ci := a.Bi + m1, Cj := a.Bj,
      spec_m := m2, spec_n := 0, spec_k := m1,
      batchCount := a.batchCount, queue := a.queue }
    { a with alpha := c_one, Ai := a.Ai + m1, Aj := a.Aj + m1, Bi := a.Bi + m1,
             max_m := m2, spec_m := m2, spec_n := 0 }

/-- A batch of three problems of sizes `1 × 2`, `3 × 2` and `2 × 1` behind other handles,
with the mode flags, scalar, offsets and batch-wide dimensions of `sample_conj`. -/
def sample_batch : TrsmArgs Rat :=
  { sample_conj with m := [1, 3, 2], n := [2, 2, 1], dA_array := 4, ldda := [1, 3, 2],
                     dB_array := 5, lddb := [1, 3, 2], batchCount := 3, queue := 1 }

/-- The depth of the recursion tree of `magmablas_ztrsm_vbatched_max_nocheck`: zero for a
call that launches the small solver, one more than the deeper of the two recursive calls
otherwise. The recursion is unfolded `fuel` levels deep; `none` means the fuel ran out. -/
def trsm_depth (stop_nb : magma_side_t → Int → Int → Int) : Nat → TrsmArgs K → Option Nat
  | 0, _ => none
  | fuel + 1, a =>
    match trsm_level stop_nb a with
    | Step.base _ => some 0
    | Step.split first _ second =>
      match trsm_depth stop_nb fuel first with
      | none => none
      | some d1 =>
        match trsm_depth stop_nb fuel second with
        | none => none
        | some d2 => some (max d1 d2 + 1)
    | Step.noop => some 0

/-- The sample call for side left, lower, not transposed, for one `d × 2` problem. -/
def sample_size (d : Int) : TrsmArgs Rat :=
  { sample_args MagmaLeft MagmaLower MagmaNoTrans MagmaNonUnit 1 with
    m := [d], ldda := [d], lddb := [d], max_m := d }

/-- The size of problem `i` in a size array (zero beyond the end of the array). -/
def size_at (l : List Int) (i : Nat) : Int := l.getD i 0

/-- A batch-wide block size `k` cut down to the `rest` rows or columns a problem has
left (to nothing when `rest` is negative). -/
def clip (k rest : Int) : Int := max 0 (min k rest)

/-- Modelled from the spec: the block a solver launch works on for problem `i` of the
batch. The primitives are declared outside the sources at hand; by the spec they
restrict each problem to its own `m[i]`, `n[i]`, so the batch-wide `max_m × max_n` block
of `B` at `(Bi, Bj)` is cut down to the rows below `m[i]` and the columns below `n[i]`. -/
def restrict_trsm (i : Nat) (a : TrsmArgs K) : TrsmArgs K :=
  { a with max_m := clip a.max_m (size_at a.m i - a.Bi),
           max_n := clip a.max_n (size_at a.n i - a.Bj) }

/-- Modelled from the spec: the blocks a GEMM launch works on for problem `i` of the
batch. The block of `C` at `(Ci, Cj)` is cut down to the rows below `m[i]` and the
columns below `n[i]`, and the inner dimension to what lies below `k[i]` from the offset
of the operands along it. -/
def restrict_gemm (i : Nat) (g : GemmArgs K) : GemmArgs K :=
  { g with max_m := clip g.max_m (size_at g.m i - g.Ci),
           max_n := clip g.max_n (size_at g.n i - g.Cj),
           max_k := clip g.max_k (size_at g.k i -
             max (if g.transA = MagmaNoTrans then g.Aj else g.Ai)
                 (if g.transB = MagmaNoTrans then g.Bi else g.Bj)) }

/-- Execute a list of launches on problem `i` of the batch, whose matrices are `mem`.
`small i` is what `magmablas_ztrsm_small_vbatched`, which is defined outside this file,
does to problem `i`; the GEMM works on the blocks of problem `i`. -/
def run_problem (small : Nat → TrsmArgs K → Mem K → Mem K) (i : Nat) :
    List (Launch K) → Mem K → Option (Mem K)
  | [], mem => some mem
  | Launch.small a :: t, mem => run_problem small i t (small i a mem)
  | Launch.gemm g :: t, mem =>
    match magmablas_zgemm_vbatched_core (restrict_gemm i g) mem with
    | none => none
    | some mem1 => run_problem small i t mem1

/-- The contract of the small solver on a batch of problems of different sizes: for valid
side and uplo, whenever the stopping condition holds, `A` and `B` are distinct buffers
and the diagonal of problem `i` is invertible, it solves problem `i` in place on the
block restricted to the size of that problem. -/
def small_contract_var (stop_nb : magma_side_t → Int → Int → Int)
    (small : Nat → TrsmArgs K → Mem K → Mem K) : Prop :=
  ∀ (i : Nat) (a : TrsmArgs K) (mem : Mem K),
    (a.side = MagmaLeft ∨ a.side = MagmaRight) →
    (a.uplo = MagmaLower ∨ a.uplo = MagmaUpper) →
    max_nrowA a ≤ stop_nb a.side a.max_m a.max_n →
    a.dA_array ≠ a.dB_array →
    diag_invertible (restrict_trsm i a) mem →
    trsm_solved (restrict_trsm i a) mem (small i a mem)

/-- The offsets of `A` and `B` agree along the recursion dimension, as in a call with all
offsets zero: the triangular block starts on the diagonal of `A`, at the row (left) or
column (right) where the block of `B` starts. -/
def aligned (a : TrsmArgs K) : Prop :=
  a.Ai = a.Aj ∧ (a.side = MagmaLeft → a.Bi = a.Ai) ∧ (a.side = MagmaRight → a.Bj = a.Ai)

/-- The call that solves problem `i` of the batch alone: `batchCount = 1`, the size
arrays hold the sizes of problem `i` only, and these are the batch-wide maxima. -/
def single_problem (i : Nat) (a : TrsmArgs K) : TrsmArgs K :=
  { a with m := [size_at a.m i], n := [size_at a.n i],
           max_m := size_at a.m i, max_n := size_at a.n i, batchCount := 1 }

/-- The solver `small_one` on the block of problem `i`. -/
def small_one_var (i : Nat) (a : TrsmArgs K) (mem : Mem K) : Mem K :=
  small_one (restrict_trsm i a) mem

/-- The call `s` addresses a diagonal block of the `A` of the call `a` and the matching
block of its `B`: the offsets of `A` are advanced by one amount `k = s.Ai - a.Ai` in the
row and in the column, the offsets of `B` by `k` along the recursion dimension only, and
the block lies within the block of `a`. -/
def diag_block (a s : TrsmArgs K) : Prop :=
  s.Aj - a.Aj = s.Ai - a.Ai ∧
  (a.side = MagmaLeft → s.Bi = a.Bi + (s.Ai - a.Ai) ∧ s.Bj = a.Bj) ∧
  (a.side = MagmaRight → s.Bi = a.Bi ∧ s.Bj = a.Bj + (s.Ai - a.Ai)) ∧
  0 ≤ s.Ai - a.Ai ∧ s.Ai - a.Ai + max_nrowA s ≤ max_nrowA a

/-- The condition `diag_block` on the small-solver launches of a list. -/
def launch_diag_block (a : TrsmArgs K) : Launch K → Prop
  | Launch.small s => diag_block a s
  | Launch.gemm _ => True

/-- The block of the array of `A` that the GEMM update of a call `a` reads, as it is
stored: for side left it is the operand `A` of the GEMM, for side right the operand `B`
(the call sites pass `dA_array` there); `op(A)` has `max_m × max_k` entries and `op(B)`
has `max_k × max_n`, the stored block being the transpose when the flag is not
`MagmaNoTrans`. -/
def gemm_A_block (a : TrsmArgs K) (g : GemmArgs K) : MatBlock :=
  if a.side = MagmaLeft then
    if g.transA = MagmaNoTrans then ⟨g.Ai, g.Aj, g.max_m, g.max_k⟩
    else ⟨g.Ai, g.Aj, g.max_k, g.max_m⟩
  else
    if g.transB = MagmaNoTrans then ⟨g.Bi, g.Bj, g.max_k, g.max_n⟩
    else ⟨g.Bi, g.Bj, g.max_n, g.max_k⟩

/-- The scalars of a launch are among `alpha`, `1` and `-1`: a solve with `alpha` or `1`,
an update with `-1` and with `beta` equal to `alpha` or `1`. -/
def launch_scalars_plain (alpha : K) : Launch K → Prop
  | Launch.small s => s.alpha = alpha ∨ s.alpha = 1
  | Launch.gemm g => g.alpha = some (-1) ∧ (g.beta = alpha ∨ g.beta = 1)

/-- The scalars of a launch in the shapes that divide: a solve with `alpha`, an update
with the quotient `MAGMA_Z_DIV(c_negone, alpha)` and `beta = 1`. -/
def launch_scalars_quotient (alpha : K) : Launch K → Prop
  | Launch.small s => s.alpha = alpha
  | Launch.gemm g => g.alpha = MAGMA_Z_DIV (-1) alpha ∧ g.beta = 1

/-- Whether a launch is a small-solver launch. -/
def is_small : Launch K → Bool
  | Launch.small _ => true
  | Launch.gemm _ => false

/-- Whether a launch is a GEMM launch. -/
def is_gemm : Launch K → Bool
  | Launch.small _ => false
  | Launch.gemm _ => true

end Solver

/-! ## The least-squares solve `magma_sgeqrs_gpu` -/

/-- The integer arguments of `magma_sgeqrs_gpu`, which the source receives by pointer.
Each field is the value of an `int`. The product of line 105 is reduced to the 32 bits
of an `int` (`int32`); the block indices and the offsets handed to the calls are taken
to be in range. -/
structure SgeqrsArgs where
  m : Int
  n : Int
  nrhs : Int
  lda : Int
  ldc : Int
  lwork : Int
  deriving DecidableEq, Repr

/-- The buffers `a`, `c`, `work` and `td` of `magma_sgeqrs_gpu`. -/
inductive SgeqrsBuf where
  | a
  | c
  | work
  | td
  deriving DecidableEq, Repr

/-- An address passed to a call: a buffer and an offset in elements. -/
structure SgeqrsAddr where
  buf : SgeqrsBuf
  off : Int
  deriving DecidableEq, Repr

/-- The calls `magma_sgeqrs_gpu` issues, each with its arguments in the order of the
source; character flags and the copy direction are left out, the constants `-1.f`,
`0.f`, `1.f` are integers and `sizeof(float)` is `4`. -/
inductive SgeqrsCall where
  | magma_sormqr_gpu (m n k lda ldc lwork nb : Int)
  | strsm_ (m n alpha : Int) (A : SgeqrsAddr) (lda : Int) (B : SgeqrsAddr) (ldb : Int)
  | cublasSetMatrix (rows cols elemSize : Int) (A : SgeqrsAddr) (lda : Int) (B : SgeqrsAddr)
      (ldb : Int)
  | cublasSgemv (m n alpha : Int) (A : SgeqrsAddr) (lda : Int) (x : SgeqrsAddr) (incx : Int)
      (beta : Int) (y : SgeqrsAddr) (incy : Int)
  | cublasSgemm (m n k alpha : Int) (A : SgeqrsAddr) (lda : Int) (B : SgeqrsAddr) (ldb : Int)
      (beta : Int) (C : SgeqrsAddr) (ldc : Int)
  | cublasScopy (n : Int) (x : SgeqrsAddr) (incx : Int) (y : SgeqrsAddr) (incy : Int)
  | cudaMemcpy2D (dst : SgeqrsAddr) (dpitch : Int) (src : SgeqrsAddr) (spitch : Int)
      (width height : Int)
  deriving DecidableEq, Repr

/-- One iteration of the block loop (lines 160-180): the block start `i`, the width `ib`
and the calls issued. The local `rows` is assigned and not used there. -/
structure SgeqrsIter where
  i : Int
  ib : Int
  calls : List SgeqrsCall
  deriving DecidableEq, Repr

/-- What `magma_sgeqrs_gpu` leaves behind: `*info`, the value of the `float` the routine
itself stored last in `work[0]` (`none` once calls that use `work` as their workspace
have run), and the calls issued in order. The routine touches `c` through these calls
only. -/
structure SgeqrsOut where
  info : Int
  work0 : Option Int
  calls : List SgeqrsCall
  deriving DecidableEq, Repr

/-- The address `a_ref(a_1, a_2)` (line 92). -/
def a_ref (x : SgeqrsArgs) (a_1 a_2 : Int) : SgeqrsAddr :=
  ⟨SgeqrsBuf.a, a_2 * x.lda + a_1⟩

/-- The address `d_ref(a_1)` (line 94). -/
def d_ref (lddwork nb a_1 : Int) : SgeqrsAddr :=
  ⟨SgeqrsBuf.td, (lddwork + a_1) * nb⟩

/-- The address `dwork + i`, with `dwork = td + 2*lddwork*nb` (line 137). -/
def dwork (lddwork nb i : Int) : SgeqrsAddr :=
  ⟨SgeqrsBuf.td, 2 * lddwork * nb + i⟩

/-- The value an `int` of 32 bits holds for the arithmetic result `z`: the integer
congruent to `z` modulo `2^32` that lies in `[-2^31, 2^31)`. A result in range is kept,
a result out of range wraps around. -/
def int32 (z : Int) : Int := (z + 2147483648) % 4294967296 - 2147483648

/-- The value of `(float) z` for an `int` value `z`: `z` rounded to the 24 significant
bits of a `float`, to the nearest representable value and to the even one on a tie.
`ulp` is the spacing of the `float` values at the magnitude of `z`. -/
def int_to_float (z : Int) : Int :=
  let a := if z < 0 then -z else z
  let ulp : Int :=
    if      a < 16777216   then 1
    else if a < 33554432   then 2
    else if a < 67108864   then 4
    else if a < 134217728  then 8
    else if a < 268435456  then 16
    else if a < 536870912  then 32
    else if a < 1073741824 then 64
    else 128
  let q := a / ulp
  let r := a % ulp
  let q1 := if 2 * r < ulp then q
            else if ulp < 2 * r then q + 1
            else if q % 2 = 0 then q
            else q + 1
  if z < 0 then -(q1 * ulp) else q1 * ulp

/-- The product `(m - n + nb + 2*nrhs) * nb` of line 105 over the integers, which the
documentation of `LWORK` names as the optimal workspace size. -/
def sgeqrs_lwkopt_exact (nb : Int) (x : SgeqrsArgs) : Int :=
  (x.m - x.n + nb + 2 * x.nrhs) * nb

/-- The value `lwkopt` (line 105): the product computed in an `int`. Reducing after
every operation or once at the end gives the same value. -/
def sgeqrs_lwkopt (nb : Int) (x : SgeqrsArgs) : Int :=
  int32 ((x.m - x.n + nb + 2 * x.nrhs) * nb)

/-- The value of `*info` after the argument checks (lines 102, 107-119). -/
def sgeqrs_info (nb : Int) (x : SgeqrsArgs) : Int :=
  let lwkopt := sgeqrs_lwkopt nb x
  let lquery := x.lwork = -1
  if x.m < 0 then -1
  else if x.n < 0 ∨ x.m < x.n then -2
  else if x.nrhs < 0 then -3
  else if x.lda < max 1 x.m then -5
  else if x.ldc < max 1 x.m then -8
  else if x.lwork < lwkopt ∧ ¬ lquery then -10
  else 0

/-- The loop `for (i = start; i >= 0; i -= nb)` (lines 160-180), from the value `i` on,
as the list of its iterations; `none` means the fuel ran out. -/
def sgeqrs_loop (x : SgeqrsArgs) (nb k lddwork : Int) : Nat → Int → Option (List SgeqrsIter)
  | 0, _ => none
  | fuel + 1, i =>
    if 0 ≤ i then
      let ib := min (k - i) nb
      let body : List SgeqrsCall :=
        if i + ib < x.n then
          if x.nrhs = 1 then
            [SgeqrsCall.cublasSgemv ib ib 1 (d_ref lddwork nb i) ib ⟨SgeqrsBuf.c, i⟩ 1 0
               (dwork lddwork nb i) 1,
             SgeqrsCall.cublasSgemv i ib (-1) (a_ref x 0 i) x.lda (dwork lddwork nb i) 1 1
               ⟨SgeqrsBuf.c, 0⟩ 1]
          else
            [SgeqrsCall.cublasSgemm ib x.nrhs ib 1 (d_ref lddwork nb i) ib ⟨SgeqrsBuf.c, i⟩ x.ldc 0
               (dwork lddwork nb i) x.ldc,
             SgeqrsCall.cublasSgemm i x.nrhs ib (-1) (a_ref x 0 i) x.lda (dwork lddwork nb i)
               x.ldc 1 ⟨SgeqrsBuf.c, 0⟩ x.ldc]
        else []
      match sgeqrs_loop x nb k lddwork fuel (i - nb) with
      | none => none
      | some rest => some (⟨i, ib, body⟩ :: rest)
    else some []

/-- The routine `magma_sgeqrs_gpu` (lines 21-191). `get_nb` is `magma_get_sgeqrf_nb`
and `sormqr_info` is the value `magma_sormqr_gpu` leaves in `*info`; both are defined
outside the sources at hand. The result is `none` when the loop runs out of fuel or when
the block size is zero, which the division of line 139 does not allow. -/
def magma_sgeqrs_gpu (get_nb : Int → Int) (sormqr_info : Int) (fuel : Nat) (x : SgeqrsArgs) :
    Option SgeqrsOut :=
  let nb := get_nb x.m
  let lwkopt := sgeqrs_lwkopt nb x
  let lquery := x.lwork = -1
  let info := sgeqrs_info nb x
  let work0 := int_to_float lwkopt
  if info ≠ 0 then some ⟨info, some work0, []⟩
  else if lquery then some ⟨info, some work0, []⟩
  else
    let k := min x.m x.n
    if k = 0 then some ⟨info, some 1, []⟩
    else if nb = 0 then none
    else
      let lddwork := k
      let i := (k - 1).tdiv nb * nb
      let ib := x.n - i
      let rows := x.m - i
      let head : List SgeqrsCall :=
        [SgeqrsCall.magma_sormqr_gpu x.m x.nrhs x.n x.lda x.ldc x.lwork nb,
         SgeqrsCall.strsm_ ib x.nrhs 1 ⟨SgeqrsBuf.work, 0⟩ rows ⟨SgeqrsBuf.work, rows * ib⟩
           rows,
         SgeqrsCall.cublasSetMatrix rows x.nrhs 4 ⟨SgeqrsBuf.work, rows * ib⟩ rows
           (dwork lddwork nb i) x.ldc,
         if x.nrhs = 1 then
           SgeqrsCall.cublasSgemv i ib (-1) (a_ref x 0 i) x.lda (dwork lddwork nb i) 1 1
             ⟨SgeqrsBuf.c, 0⟩ 1
         else
           SgeqrsCall.cublasSgemm i x.nrhs ib (-1) (a_ref x 0 i) x.lda (dwork lddwork nb i)
             x.ldc 1 ⟨SgeqrsBuf.c, 0⟩ x.ldc]
      let start := i - nb
      let last : SgeqrsCall :=
        if x.nrhs = 1 then
          SgeqrsCall.cublasScopy x.n (dwork lddwork nb 0) 1 ⟨SgeqrsBuf.c, 0⟩ 1
        else
          SgeqrsCall.cudaMemcpy2D ⟨SgeqrsBuf.c, 0⟩ (x.ldc * 4) (dwork lddwork nb 0) (x.ldc * 4)
            (x.n * 4) x.nrhs
      match (if nb < k then sgeqrs_loop x nb k lddwork fuel start else some []) with
      | none => none
      | some its =>
        some ⟨sormqr_info, none, head ++ (its.map SgeqrsIter.calls).flatten ++ [last]⟩

/-- A block-size function that always answers `32`. -/
def nb_32 : Int → Int := fun _ => 32

/-- A valid workspace query for a `4 × 3` system with two right-hand sides. -/
def sample_query : SgeqrsArgs :=
  { m := 4, n := 3, nrhs := 2, lda := 4, ldc := 4, lwork := -1 }

/-- An argument list inside the documented domain with the documented minimum
`LWORK = max(1, NRHS)`. -/
def sample_min_lwork : SgeqrsArgs :=
  { m := 2, n := 1, nrhs := 1, lda := 2, ldc := 2, lwork := 1 }

/-- An empty problem with `LDA = LDC = M = 0`. -/
def sample_empty : SgeqrsArgs :=
  { m := 0, n := 0, nrhs := 0, lda := 0, ldc := 0, lwork := 1 }

/-- A full solve of a `5 × 5` system with one right-hand side. -/
def sample_solve : SgeqrsArgs :=
  { m := 5, n := 5, nrhs := 1, lda := 5, ldc := 5, lwork := 100 }

/-- The domain the Arguments section of the routine documents (lines 43-77): `M >= 0`,
`M >= N >= 0`, `NRHS >= 0`, `LDA >= M`, `LDC >= M`, `LWORK >= max(1,NRHS)`. -/
def sgeqrs_documented (x : SgeqrsArgs) : Prop :=
  0 ≤ x.m ∧ 0 ≤ x.n ∧ x.n ≤ x.m ∧ 0 ≤ x.nrhs ∧ x.m ≤ x.lda ∧ x.m ≤ x.ldc ∧
  max 1 x.nrhs ≤ x.lwork

instance (x : SgeqrsArgs) : Decidable (sgeqrs_documented x) := by
  unfold sgeqrs_documented
  infer_instance

/-- A full solve cut short by `n = 0`: a `4 × 0` system with one right-hand side and a
workspace of 2000 entries. -/
def sample_quick : SgeqrsArgs :=
  { m := 4, n := 0, nrhs := 1, lda := 4, ldc := 4, lwork := 2000 }

/-- A block-size function that always answers `2`. -/
def nb_2 : Int → Int := fun _ => 2

/-- A `100000000 × 0` system with one right-hand side and `LWORK = 0`, below the
documented minimum `max(1, NRHS)`. With block size 32 the product of line 105 is
3200001088, beyond the range of an `int`. -/
def sample_overflow : SgeqrsArgs :=
  { m := 100000000, n := 0, nrhs := 1, lda := 100000000, ldc := 100000000, lwork := 0 }

/-- A workspace query for a `16777217 × 0` system without right-hand side. With block
size 32 the optimal size is 536871968, which needs 25 significant bits. -/
def sample_big_query : SgeqrsArgs :=
  { m := 16777217, n := 0, nrhs := 0, lda := 16777217, ldc := 16777217, lwork := -1 }

/-! ## Matrix Market type codes (`magmasparse_mmio.h`) -/

/-- The type `MM_typecode` (line 20): four characters, indexed from zero. -/
abbrev MM_typecode := Fin 4 → Char

/-- The macro `mm_is_matrix` (line 37). -/
def mm_is_matrix (typecode : MM_typecode) : Bool := typecode 0 == 'M'

/-- The macro `mm_is_sparse` (line 39). -/
def mm_is_sparse (typecode : MM_typecode) : Bool := typecode 1 == 'C'

/-- The macro `mm_is_coordinate` (line 40). -/
def mm_is_coordinate (typecode : MM_typecode) : Bool := typecode 1 == 'C'

/-- The macro `mm_is_dense` (line 41). -/
def mm_is_dense (typecode : MM_typecode) : Bool := typecode 1 == 'A'

/-- The macro `mm_is_array` (line 42). -/
def mm_is_array (typecode : MM_typecode) : Bool := typecode 1 == 'A'

/-- The macro `mm_is_complex` (line 44). -/
def mm_is_complex (typecode : MM_typecode) : Bool := typecode 2 == 'C'

/-- The macro `mm_is_real` (line 45). -/
def mm_is_real (typecode : MM_typecode) : Bool := typecode 2 == 'R'

/-- The macro `mm_is_pattern` (line 46). -/
def mm_is_pattern (typecode : MM_typecode) : Bool := typecode 2 == 'P'

/-- The macro `mm_is_integer` (line 47). -/
def mm_is_integer (typecode : MM_typecode) : Bool := typecode 2 == 'I'

/-- The macro `mm_is_symmetric` (line 49). -/
def mm_is_symmetric (typecode : MM_typecode) : Bool := typecode 3 == 'S'

/-- The macro `mm_is_general` (line 50). -/
def mm_is_general (typecode : MM_typecode) : Bool := typecode 3 == 'G'

/-- The macro `mm_is_skew` (line 51). -/
def mm_is_skew (typecode : MM_typecode) : Bool := typecode 3 == 'K'

/-- The macro `mm_is_hermitian` (line 52). -/
def mm_is_hermitian (typecode : MM_typecode) : Bool := typecode 3 == 'H'

/-- The macro `mm_set_matrix` (line 59); the type code it writes through the pointer is
returned. -/
def mm_set_matrix (typecode : MM_typecode) : MM_typecode := Function.update typecode 0 'M'

/-- The macro `mm_set_coordinate` (line 60). -/
def mm_set_coordinate (typecode : MM_typecode) : MM_typecode := Function.update typecode 1 'C'

/-- The macro `mm_set_array` (line 61). -/
def mm_set_array (typecode : MM_typecode) : MM_typecode := Function.update typecode 1 'A'

/-- The macro `mm_set_dense` (line 62). -/
def mm_set_dense (typecode : MM_typecode) : MM_typecode := mm_set_array typecode

/-- The macro `mm_set_sparse` (line 63). -/
def mm_set_sparse (typecode : MM_typecode) : MM_typecode := mm_set_coordinate typecode

/-- The macro `mm_set_complex` (line 65). -/
def mm_set_complex (typecode : MM_typecode) : MM_typecode := Function.update typecode 2 'C'

/-- The macro `mm_set_real` (line 66). -/
def mm_set_real (typecode : MM_typecode) : MM_typecode := Function.update typecode 2 'R'

/-- The macro `mm_set_pattern` (line 67). -/
def mm_set_pattern (typecode : MM_typecode) : MM_typecode := Function.update typecode 2 'P'

/-- The macro `mm_set_integer` (line 68). -/
def mm_set_integer (typecode : MM_typecode) : MM_typecode := Function.update typecode 2 'I'

/-- The macro `mm_set_symmetric` (line 71). -/
def mm_set_symmetric (typecode : MM_typecode) : MM_typecode := Function.update typecode 3 'S'

/-- The macro `mm_set_general` (line 72). -/
def mm_set_general (typecode : MM_typecode) : MM_typecode := Function.update typecode 3 'G'

/-- The macro `mm_set_skew` (line 73). -/
def mm_set_skew (typecode : MM_typecode) : MM_typecode := Function.update typecode 3 'K'

/-- The macro `mm_set_hermitian` (line 74). -/
def mm_set_hermitian (typecode : MM_typecode) : MM_typecode := Function.update typecode 3 'H'

/-- The macro `mm_clear_typecode` (lines 76-77). -/
def mm_clear_typecode (typecode : MM_typecode) : MM_typecode :=
  Function.update (Function.update (Function.update (Function.update typecode 2 ' ') 1 ' ')
    0 ' ') 3 'G'

/-- The macro `mm_initialize_typecode` (line 79). -/
def mm_initialize_typecode (typecode : MM_typecode) : MM_typecode := mm_clear_typecode typecode

/-- The answers of the queries on position 1, in the order sparse, coordinate, dense,
array. -/
def mm_queries_1 (t : MM_typecode) : List Bool :=
  [mm_is_sparse t, mm_is_coordinate t, mm_is_dense t, mm_is_array t]

/-- The answers of the queries on position 2, in the order complex, real, pattern,
integer. -/
def mm_queries_2 (t : MM_typecode) : List Bool :=
  [mm_is_complex t, mm_is_real t, mm_is_pattern t, mm_is_integer t]

/-- The answers of the queries on position 3, in the order symmetric, general, skew,
hermitian. -/
def mm_queries_3 (t : MM_typecode) : List Bool :=
  [mm_is_symmetric t, mm_is_general t, mm_is_skew t, mm_is_hermitian t]

/-- A setter writes the character `ch` at position `pos` and leaves the three other
positions as they are. -/
def mm_writes (f : MM_typecode → MM_typecode) (pos : Fin 4) (ch : Char) : Prop :=
  ∀ t : MM_typecode, f t pos = ch ∧ ∀ i : Fin 4, i ≠ pos → f t i = t i

/-! ## Properties of the split size and of the shape selection -/

section Basic

theorem nb_pos (d : Int) : 1 ≤ magma_get_ztrsm_vbatched_nb d := by
  unfold magma_get_ztrsm_vbatched_nb
  omega

theorem nb_lt (d : Int) (h : 2 ≤ d) : magma_get_ztrsm_vbatched_nb d < d := by
  unfold magma_get_ztrsm_vbatched_nb
  omega

theorem mem_nb_ladder (v : Int) (hv : v ∈ nb_ladder) :
    v = 2048 ∨ v = 1024 ∨ v = 512 ∨ v = 256 ∨ v = 128 ∨ v = 64 ∨
      v = 32 ∨ v = 16 ∨ v = 8 ∨ v = 4 ∨ v = 2 := by
  simpa [nb_ladder] using hv

/-- C8: `magma_get_ztrsm_vbatched_nb` returns `1` when `max_dim ≤ 2`, in which case no
value of the ladder 2048, 1024, ..., 2 is strictly less than `max_dim`; otherwise it
returns the largest value of the ladder that is strictly less than `max_dim`. -/
theorem nb_largest_ladder_below (max_dim : Int) :
    (max_dim ≤ 2 →
        magma_get_ztrsm_vbatched_nb max_dim = 1 ∧ ∀ v ∈ nb_ladder, ¬ v < max_dim) ∧
    (2 < max_dim →
        magma_get_ztrsm_vbatched_nb max_dim ∈ nb_ladder ∧
        magma_get_ztrsm_vbatched_nb max_dim < max_dim ∧
        ∀ v ∈ nb_ladder, v < max_dim → v ≤ magma_get_ztrsm_vbatched_nb max_dim) := by
  refine ⟨fun h => ⟨?_, ?_⟩, fun h => ⟨?_, ?_, ?_⟩⟩
  · unfold magma_get_ztrsm_vbatched_nb
    omega
  · intro v hv
    have := mem_nb_ladder v hv
    omega
  · have hcases : magma_get_ztrsm_vbatched_nb max_dim = 2048 ∨
        magma_get_ztrsm_vbatched_nb max_dim = 1024 ∨
        magma_get_ztrsm_vbatched_nb max_dim = 512 ∨
        magma_get_ztrsm_vbatched_nb max_dim = 256 ∨
        magma_get_ztrsm_vbatched_nb max_dim = 128 ∨
        magma_get_ztrsm_vbatched_nb max_dim = 64 ∨
        magma_get_ztrsm_vbatched_nb max_dim = 32 ∨
        magma_get_ztrsm_vbatched_nb max_dim = 16 ∨
        magma_get_ztrsm_vbatched_nb max_dim = 8 ∨
        magma_get_ztrsm_vbatched_nb max_dim = 4 ∨
        magma_get_ztrsm_vbatched_nb max_dim = 2 := by
      unfold magma_get_ztrsm_vbatched_nb
      omega
    simp only [nb_ladder, List.mem_cons, List.mem_singleton, List.not_mem_nil, or_false]
    exact hcases
  · exact nb_lt _ (by omega)
  · intro v hv hlt
    have := mem_nb_ladder v hv
    unfold magma_get_ztrsm_vbatched_nb
    omega

/-- C9: for `max_dim ≥ 2` the split point `s = magma_get_ztrsm_vbatched_nb max_dim`
satisfies `0 < s < max_dim`, so both sub-block sizes `s` and `max_dim - s` are positive
and strictly smaller than `max_dim`. -/
theorem nb_split_bounds (max_dim : Int) (h : 2 ≤ max_dim) :
    0 < magma_get_ztrsm_vbatched_nb max_dim ∧
    magma_get_ztrsm_vbatched_nb max_dim < max_dim ∧
    0 < max_dim - magma_get_ztrsm_vbatched_nb max_dim ∧
    max_dim - magma_get_ztrsm_vbatched_nb max_dim < max_dim := by
  have h1 := nb_pos max_dim
  have h2 := nb_lt max_dim h
  omega

/-- The split bounds at `max_dim = 257`. -/
theorem nb_split_bounds_witness :
    0 < magma_get_ztrsm_vbatched_nb 257 ∧
    magma_get_ztrsm_vbatched_nb 257 < 257 ∧
    0 < 257 - magma_get_ztrsm_vbatched_nb 257 ∧
    257 - magma_get_ztrsm_vbatched_nb 257 < 257 :=
  nb_split_bounds 257 (by decide)

/-- C2: the shape selection maps (L,lower,N) to 0, (L,upper,N) to 1, (L,lower,T/C) to 2,
(L,upper,T/C) to 3, (R,lower,N) to 4, (R,upper,N) to 5, (R,lower,T/C) to 6 and
(R,upper,T/C) to 7; every value lies in 0..7; two valid inputs get the same shape exactly
when they agree on side, uplo and on being `MagmaNoTrans` or not; and the shape computed
for an argument list does not change when only `diag` is changed. -/
theorem trsm_shape_table :
    (trsm_shape MagmaLeft MagmaLower MagmaNoTrans = 0 ∧
     trsm_shape MagmaLeft MagmaUpper MagmaNoTrans = 1 ∧
     trsm_shape MagmaLeft MagmaLower MagmaTrans = 2 ∧
     trsm_shape MagmaLeft MagmaLower MagmaConjTrans = 2 ∧
     trsm_shape MagmaLeft MagmaUpper MagmaTrans = 3 ∧
     trsm_shape MagmaLeft MagmaUpper MagmaConjTrans = 3 ∧
     trsm_shape MagmaRight MagmaLower MagmaNoTrans = 4 ∧
     trsm_shape MagmaRight MagmaUpper MagmaNoTrans = 5 ∧
     trsm_shape MagmaRight MagmaLower MagmaTrans = 6 ∧
     trsm_shape MagmaRight MagmaLower MagmaConjTrans = 6 ∧
     trsm_shape MagmaRight MagmaUpper MagmaTrans = 7 ∧
     trsm_shape MagmaRight MagmaUpper MagmaConjTrans = 7) ∧
    (∀ side uplo transA, 0 ≤ trsm_shape side uplo transA ∧ trsm_shape side uplo transA ≤ 7) ∧
    (∀ s u t s1 u1 t1,
      (s = MagmaLeft ∨ s = MagmaRight) → (u = MagmaLower ∨ u = MagmaUpper) →
      (s1 = MagmaLeft ∨ s1 = MagmaRight) → (u1 = MagmaLower ∨ u1 = MagmaUpper) →
      (trsm_shape s u t = trsm_shape s1 u1 t1 ↔
        s = s1 ∧ u = u1 ∧ (t = MagmaNoTrans ↔ t1 = MagmaNoTrans))) ∧
    (∀ (a : TrsmArgs Rat) (d : magma_diag_t),
      trsm_shape ({ a with diag := d }).side ({ a with diag := d }).uplo
          ({ a with diag := d }).transA
        = trsm_shape a.side a.uplo a.transA) := by
  refine ⟨by decide, ?_, ?_, fun a d => rfl⟩
  · intro side uplo transA
    cases side <;> cases uplo <;> cases transA <;> decide
  · intro s u t s1 u1 t1 hs hu hs1 hu1
    rcases hs with rfl | rfl <;> rcases hu with rfl | rfl <;>
      rcases hs1 with rfl | rfl <;> rcases hu1 with rfl | rfl <;>
      cases t <;> cases t1 <;> decide

end Basic


/-! ## One activation of the solver -/

section Level

variable {K : Type} [Field K] [DecidableEq K]

theorem level_base (stop_nb : magma_side_t → Int → Int → Int) (a : TrsmArgs K)
    (h : max_nrowA a ≤ stop_nb a.side a.max_m a.max_n) :
    trsm_level stop_nb a = Step.base a := by
  unfold max_nrowA at h
  simp only [trsm_level, h, if_true]

theorem level_not_base (stop_nb : magma_side_t → Int → Int → Int) (a s : TrsmArgs K)
    (h : ¬ max_nrowA a ≤ stop_nb a.side a.max_m a.max_n) :
    trsm_level stop_nb a ≠ Step.base s := by
  unfold max_nrowA at h
  simp only [trsm_level, h, if_false]
  split_ifs <;> simp

theorem level_split_not_base (stop_nb : magma_side_t → Int → Int → Int)
    (a a1 a2 : TrsmArgs K) (g : GemmArgs K)
    (hlev : trsm_level stop_nb a = Step.split a1 g a2) :
    ¬ max_nrowA a ≤ stop_nb a.side a.max_m a.max_n := by
  intro h
  rw [level_base stop_nb a h] at hlev
  cases hlev

theorem level_split_exists (stop_nb : magma_side_t → Int → Int → Int) (a : TrsmArgs K)
    (hs : a.side = MagmaLeft ∨ a.side = MagmaRight)
    (hu : a.uplo = MagmaLower ∨ a.uplo = MagmaUpper)
    (h : ¬ max_nrowA a ≤ stop_nb a.side a.max_m a.max_n) :
    ∃ a1 g a2, trsm_level stop_nb a = Step.split a1 g a2 := by
  obtain ⟨side, uplo, transA, diag, m, n, alpha, dA, Ai, Aj, ldda, dB, Bi, Bj, lddb,
    max_m, max_n, spec_m, spec_n, batchCount, queue⟩ := a
  simp only at hs hu
  unfold max_nrowA at h
  simp only at h
  rcases hs with rfl | rfl <;> rcases hu with rfl | rfl <;> cases transA <;>
    (simp only [trsm_level, trsm_shape]
     simp at h
     simp [not_le.mpr h])

theorem level_split_props (stop_nb : magma_side_t → Int → Int → Int)
    (a a1 a2 : TrsmArgs K) (g : GemmArgs K)
    (hs : a.side = MagmaLeft ∨ a.side = MagmaRight)
    (hu : a.uplo = MagmaLower ∨ a.uplo = MagmaUpper)
    (hlev : trsm_level stop_nb a = Step.split a1 g a2) :
    a1.side = a.side ∧ a2.side = a.side ∧ a1.uplo = a.uplo ∧ a2.uplo = a.uplo ∧
    a1.transA = a.transA ∧ a2.transA = a.transA ∧
    (a.side = MagmaLeft → g.transA = a.transA ∧ g.transB = MagmaNoTrans) ∧
    (a.side = MagmaRight → g.transA = MagmaNoTrans ∧ g.transB = a.transA) ∧
    max_nrowA a1 + max_nrowA a2 = max_nrowA a ∧
    (max_nrowA a1 = magma_get_ztrsm_vbatched_nb (max_nrowA a) ∨
      max_nrowA a2 = magma_get_ztrsm_vbatched_nb (max_nrowA a)) ∧
    ((rec_offset a1 = rec_offset a ∧ rec_offset a2 = rec_offset a + max_nrowA a1) ∨
      (rec_offset a2 = rec_offset a ∧ rec_offset a1 = rec_offset a + max_nrowA a2)) := by
  obtain ⟨side, uplo, transA, diag, m, n, alpha, dA, Ai, Aj, ldda, dB, Bi, Bj, lddb,
    max_m, max_n, spec_m, spec_n, batchCount, queue⟩ := a
  simp only at hs hu
  rcases hs with rfl | rfl <;> rcases hu with rfl | rfl <;> cases transA <;>
    (simp [trsm_level, trsm_shape] at hlev
     split_ifs at hlev
     cases hlev
     simp [max_nrowA, rec_offset])

/-- Under a threshold of at least one, both recursive calls of a level get a governing
dimension between `1` and the parent's minus one. -/
theorem level_split_dims (stop_nb : magma_side_t → Int → Int → Int)
    (hstop : ∀ s m n, 1 ≤ stop_nb s m n)
    (a a1 a2 : TrsmArgs K) (g : GemmArgs K)
    (hs : a.side = MagmaLeft ∨ a.side = MagmaRight)
    (hu : a.uplo = MagmaLower ∨ a.uplo = MagmaUpper)
    (hlev : trsm_level stop_nb a = Step.split a1 g a2) :
    1 ≤ max_nrowA a1 ∧ max_nrowA a1 < max_nrowA a ∧
    1 ≤ max_nrowA a2 ∧ max_nrowA a2 < max_nrowA a := by
  have hnb := level_split_not_base stop_nb a a1 a2 g hlev
  have h1 := hstop a.side a.max_m a.max_n
  obtain ⟨-, -, -, -, -, -, -, -, hsum, hor, -⟩ := level_split_props stop_nb a a1 a2 g hs hu hlev
  have hp := nb_pos (max_nrowA a)
  have hl := nb_lt (max_nrowA a) (by omega)
  omega

theorem trsm_succ_base (stop_nb : magma_side_t → Int → Int → Int) (fuel : Nat)
    (a s : TrsmArgs K) (hlev : trsm_level stop_nb a = Step.base s) :
    magmablas_ztrsm_vbatched_max_nocheck stop_nb (fuel + 1) a = some [Launch.small s] := by
  simp only [magmablas_ztrsm_vbatched_max_nocheck, hlev]

theorem trsm_succ_split (stop_nb : magma_side_t → Int → Int → Int) (fuel : Nat)
    (a a1 a2 : TrsmArgs K) (g : GemmArgs K) (t1 t2 : List (Launch K))
    (hlev : trsm_level stop_nb a = Step.split a1 g a2)
    (h1 : magmablas_ztrsm_vbatched_max_nocheck stop_nb fuel a1 = some t1)
    (h2 : magmablas_ztrsm_vbatched_max_nocheck stop_nb fuel a2 = some t2) :
    magmablas_ztrsm_vbatched_max_nocheck stop_nb (fuel + 1) a
      = some (t1 ++ Launch.gemm g :: t2) := by
  simp only [magmablas_ztrsm_vbatched_max_nocheck, hlev, h1, h2]

theorem div_some (alpha : K) (halpha : alpha ≠ 0) :
    MAGMA_Z_DIV (-1) alpha = some (-1 / alpha) := by
  simp only [MAGMA_Z_DIV, if_neg halpha]

theorem level_split_static (stop_nb : magma_side_t → Int → Int → Int)
    (a a1 a2 : TrsmArgs K) (g : GemmArgs K)
    (hs : a.side = MagmaLeft ∨ a.side = MagmaRight)
    (hu : a.uplo = MagmaLower ∨ a.uplo = MagmaUpper)
    (hlev : trsm_level stop_nb a = Step.split a1 g a2) :
    a1.dA_array = a.dA_array ∧ a1.dB_array = a.dB_array ∧
    a2.dA_array = a.dA_array ∧ a2.dB_array = a.dB_array ∧
    g.dC_array = a.dB_array ∧
    (alpha_defined a → alpha_defined a1 ∧ alpha_defined a2 ∧ ∃ al, g.alpha = some al) := by
  obtain ⟨side, uplo, transA, diag, m, n, alpha, dA, Ai, Aj, ldda, dB, Bi, Bj, lddb,
    max_m, max_n, spec_m, spec_n, batchCount, queue⟩ := a
  simp only at hs hu
  rcases hs with rfl | rfl <;> rcases hu with rfl | rfl <;> cases transA <;>
    (simp [trsm_level, trsm_shape] at hlev
     split_ifs at hlev
     cases hlev
     refine ⟨rfl, rfl, rfl, rfl, rfl, fun halpha => ?_⟩
     simp [alpha_defined, trsm_shape] at halpha
     simp [alpha_defined, trsm_shape, MAGMA_Z_DIV, halpha])

theorem level_diag (stop_nb : magma_side_t → Int → Int → Int)
    (a a1 a2 : TrsmArgs K) (g : GemmArgs K)
    (hs : a.side = MagmaLeft ∨ a.side = MagmaRight)
    (hu : a.uplo = MagmaLower ∨ a.uplo = MagmaUpper)
    (hlev : trsm_level stop_nb a = Step.split a1 g a2)
    (hd1 : 0 ≤ max_nrowA a1) (hd2 : 0 ≤ max_nrowA a2)
    (mem : Mem K) (hdiag : diag_invertible a mem) :
    diag_invertible a1 mem ∧ diag_invertible a2 mem := by
  obtain ⟨side, uplo, transA, diag, m, n, alpha, dA, Ai, Aj, ldda, dB, Bi, Bj, lddb,
    max_m, max_n, spec_m, spec_n, batchCount, queue⟩ := a
  simp only at hs hu
  rcases hs with rfl | rfl <;> rcases hu with rfl | rfl <;> cases transA <;>
    (simp [trsm_level, trsm_shape] at hlev
     split_ifs at hlev
     cases hlev
     simp only [max_nrowA, if_true, if_false, reduceCtorEq] at hd1 hd2
     simp only [diag_invertible, max_nrowA, if_true, if_false, reduceCtorEq] at hdiag ⊢
     constructor <;>
       (intro hd i hi0 hi
        first
        | exact hdiag hd i hi0 (by omega)
        | (simp only [add_assoc]
           exact hdiag hd _ (by omega) (by omega))))

end Level

/-! ## Structure of the recursion -/

section Recursion

variable {K : Type} [Field K] [DecidableEq K]

/-- C3: `MagmaTrans` and `MagmaConjTrans` are classified to the same shape for every
side and uplo, and at a level that recurses the caller's `transA` is passed unchanged to
both recursive solves and is the flag the GEMM update applies to its operand taken from
`A` (the first operand for side left, the second for side right), the operand taken
from `B` getting `MagmaNoTrans`. -/
theorem trans_family_same_shape (stop_nb : magma_side_t → Int → Int → Int)
    (a a1 a2 : TrsmArgs K) (g : GemmArgs K)
    (hs : a.side = MagmaLeft ∨ a.side = MagmaRight)
    (hu : a.uplo = MagmaLower ∨ a.uplo = MagmaUpper)
    (hlev : trsm_level stop_nb a = Step.split a1 g a2) :
    trsm_shape a.side a.uplo MagmaTrans = trsm_shape a.side a.uplo MagmaConjTrans ∧
    a1.transA = a.transA ∧ a2.transA = a.transA ∧
    (a.side = MagmaLeft → g.transA = a.transA ∧ g.transB = MagmaNoTrans) ∧
    (a.side = MagmaRight → g.transA = MagmaNoTrans ∧ g.transB = a.transA) := by
  obtain ⟨-, -, -, -, h1, h2, h3, h4, -⟩ := level_split_props stop_nb a a1 a2 g hs hu hlev
  refine ⟨?_, h1, h2, h3, h4⟩
  rcases hs with h | h <;> rcases hu with h' | h' <;> rw [h, h'] <;> decide

/-- The forwarding of `transA` on the sample conjugate-transposed call. -/
theorem trans_family_same_shape_witness :
    trsm_shape sample_conj.side sample_conj.uplo MagmaTrans
      = trsm_shape sample_conj.side sample_conj.uplo MagmaConjTrans ∧
    sample_conj_first.transA = sample_conj.transA ∧
    sample_conj_second.transA = sample_conj.transA ∧
    (sample_conj.side = MagmaLeft →
      sample_conj_update.transA = sample_conj.transA ∧
      sample_conj_update.transB = MagmaNoTrans) ∧
    (sample_conj.side = MagmaRight →
      sample_conj_update.transA = MagmaNoTrans ∧
      sample_conj_update.transB = sample_conj.transA) :=
  trans_family_same_shape stop_one sample_conj sample_conj_first sample_conj_second
    sample_conj_update (Or.inl rfl) (Or.inl rfl) rfl

/-- C4: with a threshold policy that always returns at least one, the recursion
terminates for every valid side and uplo and all `max_m`, `max_n`: any fuel above the
governing dimension yields the complete list of launches, and each recursive call gets
a governing dimension strictly smaller than its parent's. -/
theorem trsm_terminates (stop_nb : magma_side_t → Int → Int → Int)
    (hstop : ∀ s m n, 1 ≤ stop_nb s m n) (a : TrsmArgs K)
    (hs : a.side = MagmaLeft ∨ a.side = MagmaRight)
    (hu : a.uplo = MagmaLower ∨ a.uplo = MagmaUpper) :
    (∀ fuel, (max_nrowA a).toNat < fuel →
      ∃ t, magmablas_ztrsm_vbatched_max_nocheck stop_nb fuel a = some t) ∧
    (∀ a1 g a2, trsm_level stop_nb a = Step.split a1 g a2 →
      max_nrowA a1 < max_nrowA a ∧ max_nrowA a2 < max_nrowA a) := by
  constructor
  · intro fuel
    induction fuel generalizing a with
    | zero => intro h; omega
    | succ f ih =>
      intro hf
      by_cases hb : max_nrowA a ≤ stop_nb a.side a.max_m a.max_n
      · exact ⟨_, trsm_succ_base stop_nb f a a (level_base stop_nb a hb)⟩
      · obtain ⟨a1, g, a2, hlev⟩ := level_split_exists stop_nb a hs hu hb
        obtain ⟨hs1, hs2, hu1, hu2, -⟩ := level_split_props stop_nb a a1 a2 g hs hu hlev
        obtain ⟨d1, d1', d2, d2'⟩ := level_split_dims stop_nb hstop a a1 a2 g hs hu hlev
        obtain ⟨t1, ht1⟩ := ih a1 (hs1 ▸ hs) (hu1 ▸ hu) (by omega)
        obtain ⟨t2, ht2⟩ := ih a2 (hs2 ▸ hs) (hu2 ▸ hu) (by omega)
        exact ⟨_, trsm_succ_split stop_nb f a a1 a2 g t1 t2 hlev ht1 ht2⟩
  · intro a1 g a2 hlev
    obtain ⟨-, d1, -, d2⟩ := level_split_dims stop_nb hstop a a1 a2 g hs hu hlev
    exact ⟨d1, d2⟩

/-- Termination on a sample right-side call under the threshold policy `stop_one`. -/
theorem trsm_terminates_witness :
    (∀ fuel, (max_nrowA (sample_args MagmaRight MagmaUpper MagmaTrans MagmaUnit 2)).toNat < fuel →
      ∃ t, magmablas_ztrsm_vbatched_max_nocheck stop_one fuel
        (sample_args MagmaRight MagmaUpper MagmaTrans MagmaUnit 2) = some t) ∧
    (∀ a1 g a2,
      trsm_level stop_one (sample_args MagmaRight MagmaUpper MagmaTrans MagmaUnit 2)
        = Step.split a1 g a2 →
      max_nrowA a1 < max_nrowA (sample_args MagmaRight MagmaUpper MagmaTrans MagmaUnit 2) ∧
      max_nrowA a2 < max_nrowA (sample_args MagmaRight MagmaUpper MagmaTrans MagmaUnit 2)) :=
  trsm_terminates stop_one (fun _ _ _ => le_refl 1)
    (sample_args MagmaRight MagmaUpper MagmaTrans MagmaUnit 2) (Or.inr rfl) (Or.inr rfl)

/-- C5: with a threshold of at least one, the index ranges `[offset, offset + size)`
along the recursion dimension that the recursion hands to the small solver tile
`[offset, offset + d)` of the top-level call: every index of that range lies in exactly
one of them and every other index in none. -/
theorem trsm_tiling (stop_nb : magma_side_t → Int → Int → Int)
    (hstop : ∀ s m n, 1 ≤ stop_nb s m n) (a : TrsmArgs K)
    (hs : a.side = MagmaLeft ∨ a.side = MagmaRight)
    (hu : a.uplo = MagmaLower ∨ a.uplo = MagmaUpper)
    (fuel : Nat) (hf : (max_nrowA a).toNat < fuel) :
    ∃ t, magmablas_ztrsm_vbatched_max_nocheck stop_nb fuel a = some t ∧
      ∀ x : Int, t.countP (visits x)
        = if rec_offset a ≤ x ∧ x < rec_offset a + max_nrowA a then 1 else 0 := by
  induction fuel generalizing a with
  | zero => omega
  | succ f ih =>
    by_cases hb : max_nrowA a ≤ stop_nb a.side a.max_m a.max_n
    · refine ⟨_, trsm_succ_base stop_nb f a a (level_base stop_nb a hb), fun x => ?_⟩
      simp only [List.countP_cons, List.countP_nil, visits, zero_add]
      by_cases hx : rec_offset a ≤ x ∧ x < rec_offset a + max_nrowA a <;> simp [hx]
    · obtain ⟨a1, g, a2, hlev⟩ := level_split_exists stop_nb a hs hu hb
      obtain ⟨hs1, hs2, hu1, hu2, -, -, -, -, hsum, -, hoff⟩ :=
        level_split_props stop_nb a a1 a2 g hs hu hlev
      obtain ⟨d1, d1', d2, d2'⟩ := level_split_dims stop_nb hstop a a1 a2 g hs hu hlev
      obtain ⟨t1, ht1, hc1⟩ := ih a1 (hs1 ▸ hs) (hu1 ▸ hu) (by omega)
      obtain ⟨t2, ht2, hc2⟩ := ih a2 (hs2 ▸ hs) (hu2 ▸ hu) (by omega)
      refine ⟨_, trsm_succ_split stop_nb f a a1 a2 g t1 t2 hlev ht1 ht2, fun x => ?_⟩
      simp only [List.countP_append, List.countP_cons, visits, hc1, hc2]
      rcases hoff with ⟨e1, e2⟩ | ⟨e1, e2⟩ <;> rw [e1, e2] <;> split_ifs <;>
        first | contradiction | omega

/-- The tiling on a sample left-side call under the threshold policy `stop_one`. -/
theorem trsm_tiling_witness :
    ∃ t, magmablas_ztrsm_vbatched_max_nocheck stop_one 4
        (sample_args MagmaLeft MagmaUpper MagmaNoTrans MagmaNonUnit 2) = some t ∧
      ∀ x : Int, t.countP (visits x)
        = if rec_offset (sample_args MagmaLeft MagmaUpper MagmaNoTrans MagmaNonUnit 2) ≤ x ∧
            x < rec_offset (sample_args MagmaLeft MagmaUpper MagmaNoTrans MagmaNonUnit 2)
              + max_nrowA (sample_args MagmaLeft MagmaUpper MagmaNoTrans MagmaNonUnit 2)
          then 1 else 0 :=
  trsm_tiling stop_one (fun _ _ _ => le_refl 1)
    (sample_args MagmaLeft MagmaUpper MagmaNoTrans MagmaNonUnit 2) (Or.inl rfl) (Or.inr rfl)
    4 (by decide)

/-- C6: the call delegates to the small solver exactly when the governing dimension
(`max_m` for side left, `max_n` otherwise) is at or below the threshold returned by the
policy for `(side, max_m, max_n)`; it then issues exactly one launch, the small solver
with the unchanged argument list, and no GEMM and no recursive call. -/
theorem base_case_iff (stop_nb : magma_side_t → Int → Int → Int) (a : TrsmArgs K) :
    ((∃ s, trsm_level stop_nb a = Step.base s) ↔
      (if a.side = MagmaLeft then a.max_m else a.max_n) ≤ stop_nb a.side a.max_m a.max_n) ∧
    ((if a.side = MagmaLeft then a.max_m else a.max_n) ≤ stop_nb a.side a.max_m a.max_n →
      trsm_level stop_nb a = Step.base a ∧
      ∀ fuel, magmablas_ztrsm_vbatched_max_nocheck stop_nb (fuel + 1) a
        = some [Launch.small a]) := by
  refine ⟨⟨?_, fun h => ⟨a, level_base stop_nb a h⟩⟩, fun h => ⟨level_base stop_nb a h, fun fuel => ?_⟩⟩
  · rintro ⟨s, hs⟩
    by_contra hn
    exact level_not_base stop_nb a s hn hs
  · exact trsm_succ_base stop_nb fuel a a (level_base stop_nb a h)

/-- C7: for a left-side solve whose threshold policy returns the same `t ≥ 1` at every
level, a call with `max_m = t + 1` performs exactly one level of recursion: both
recursive calls have `max_m` in `[1, t]` and are base cases, and the whole call issues
exactly a small-solver launch, a GEMM and a second small-solver launch. -/
theorem threshold_plus_one (stop_nb : magma_side_t → Int → Int → Int) (t : Int)
    (ht : 1 ≤ t) (hstop : ∀ s m n, stop_nb s m n = t) (a : TrsmArgs K)
    (hside : a.side = MagmaLeft) (hm : a.max_m = t + 1) (fuel : Nat) :
    ∃ s1 g s2, trsm_level stop_nb a = Step.split s1 g s2 ∧
      1 ≤ s1.max_m ∧ s1.max_m ≤ t ∧ 1 ≤ s2.max_m ∧ s2.max_m ≤ t ∧
      trsm_level stop_nb s1 = Step.base s1 ∧ trsm_level stop_nb s2 = Step.base s2 ∧
      magmablas_ztrsm_vbatched_max_nocheck stop_nb (fuel + 2) a
        = some [Launch.small s1, Launch.gemm g, Launch.small s2] := by
  have hp := nb_pos (t + 1)
  have hl := nb_lt (t + 1) (by omega)
  have key : ∃ s1 g s2, trsm_level stop_nb a = Step.split s1 g s2 ∧
      s1.side = MagmaLeft ∧ s2.side = MagmaLeft ∧
      1 ≤ s1.max_m ∧ s1.max_m ≤ t ∧ 1 ≤ s2.max_m ∧ s2.max_m ≤ t := by
    obtain ⟨side, uplo, transA, diag, m, n, alpha, dA, Ai, Aj, ldda, dB, Bi, Bj, lddb,
      max_m, max_n, spec_m, spec_n, batchCount, queue⟩ := a
    simp only at hside hm
    subst hside hm
    have hn : ¬ (t + 1 ≤ t) := by omega
    cases uplo <;> cases transA <;>
      (simp only [trsm_level, trsm_shape, hstop]
       simp [hn]
       refine ⟨_, _, _, ⟨rfl, rfl, rfl⟩, rfl, rfl, ?_⟩
       dsimp only
       omega)
  obtain ⟨s1, g, s2, hlev, hs1, hs2, b1, b1', b2, b2'⟩ := key
  have hb1 : trsm_level stop_nb s1 = Step.base s1 :=
    level_base stop_nb s1 (by rw [hstop]; unfold max_nrowA; rw [if_pos hs1]; exact b1')
  have hb2 : trsm_level stop_nb s2 = Step.base s2 :=
    level_base stop_nb s2 (by rw [hstop]; unfold max_nrowA; rw [if_pos hs2]; exact b2')
  refine ⟨s1, g, s2, hlev, b1, b1', b2, b2', hb1, hb2, ?_⟩
  have e1 := trsm_succ_base stop_nb fuel s1 s1 hb1
  have e2 := trsm_succ_base stop_nb fuel s2 s2 hb2
  have := trsm_succ_split stop_nb (fuel + 1) a s1 s2 g _ _ hlev e1 e2
  simpa using this

/-- One level of recursion on a sample call with `max_m = 3` and threshold `2`. -/
theorem threshold_plus_one_witness :
    ∃ s1 g s2,
      trsm_level (fun _ _ _ => 2) (sample_args MagmaLeft MagmaLower MagmaNoTrans MagmaUnit 2)
        = Step.split s1 g s2 ∧
      1 ≤ s1.max_m ∧ s1.max_m ≤ 2 ∧ 1 ≤ s2.max_m ∧ s2.max_m ≤ 2 ∧
      trsm_level (fun _ _ _ => 2) s1 = Step.base s1 ∧
      trsm_level (fun _ _ _ => 2) s2 = Step.base s2 ∧
      magmablas_ztrsm_vbatched_max_nocheck (fun _ _ _ => 2) (0 + 2)
          (sample_args MagmaLeft MagmaLower MagmaNoTrans MagmaUnit 2)
        = some [Launch.small s1, Launch.gemm g, Launch.small s2] :=
  threshold_plus_one (fun _ _ _ => 2) 2 (by decide) (fun _ _ _ => rfl)
    (sample_args MagmaLeft MagmaLower MagmaNoTrans MagmaUnit 2) rfl rfl 0

end Recursion


/-! ## Block triangular solves -/

section Blocks

variable {K : Type} [Field K]

theorem sum_Ico_split (f : Int → K) (k1 k2 : Int) (h1 : 0 ≤ k1) (h2 : 0 ≤ k2) :
    ∑ l in Finset.Ico (0 : Int) (k1 + k2), f l
      = ∑ l in Finset.Ico (0 : Int) k1, f l + ∑ l in Finset.Ico (0 : Int) k2, f (k1 + l) := by
  rw [Finset.sum_Ico_add f 0 k2 k1, zero_add, add_comm k2 k1]
  rw [← Finset.sum_union (Finset.Ico_disjoint_Ico_consecutive 0 k1 (k1 + k2))]
  rw [Finset.Ico_union_Ico_eq_Ico h1 (by omega)]

/-- Leading block first. -/
theorem vec_leading_first (T : Int → Int → K) (alpha : K) (x0 x1 x2 x3 : Int → K)
    (k1 k2 : Int) (hk1 : 0 ≤ k1) (hk2 : 0 ≤ k2)
    (hT : ∀ i l, 0 ≤ i → i < k1 → 0 ≤ l → l < k2 → T i (k1 + l) = 0)
    (h1 : ∀ i, 0 ≤ i → i < k1 → ∑ l in Finset.Ico (0 : Int) k1, T i l * x1 l = alpha * x0 i)
    (f1 : ∀ i, 0 ≤ i → i < k2 → x1 (k1 + i) = x0 (k1 + i))
    (h2 : ∀ i, 0 ≤ i → i < k2 →
      x2 (k1 + i) = (-1) * (∑ l in Finset.Ico (0 : Int) k1, T (k1 + i) l * x1 l) + alpha * x1 (k1 + i))
    (f2 : ∀ i, 0 ≤ i → i < k1 → x2 i = x1 i)
    (h3 : ∀ i, 0 ≤ i → i < k2 →
      ∑ l in Finset.Ico (0 : Int) k2, T (k1 + i) (k1 + l) * x3 (k1 + l) = 1 * x2 (k1 + i))
    (f3 : ∀ i, 0 ≤ i → i < k1 → x3 i = x2 i) :
    ∀ i, 0 ≤ i → i < k1 + k2 →
      ∑ l in Finset.Ico (0 : Int) (k1 + k2), T i l * x3 l = alpha * x0 i := by
  intro i hi0 hi
  rw [sum_Ico_split _ k1 k2 hk1 hk2]
  have e1 : ∑ l in Finset.Ico (0 : Int) k1, T i l * x3 l = ∑ l in Finset.Ico (0 : Int) k1, T i l * x1 l := by
    refine Finset.sum_congr rfl (fun l hl => ?_)
    rw [Finset.mem_Ico] at hl
    rw [f3 l hl.1 hl.2, f2 l hl.1 hl.2]
  rw [e1]
  by_cases hlt : i < k1
  · have e2 : ∑ l in Finset.Ico (0 : Int) k2, T i (k1 + l) * x3 (k1 + l) = 0 := by
      refine Finset.sum_eq_zero (fun l hl => ?_)
      rw [Finset.mem_Ico] at hl
      rw [hT i l hi0 hlt hl.1 hl.2, zero_mul]
    rw [e2, add_zero, h1 i hi0 hlt]
  · obtain ⟨i', rfl⟩ : ∃ i', i = k1 + i' := ⟨i - k1, by omega⟩
    have hi'0 : 0 ≤ i' := by omega
    have hi' : i' < k2 := by omega
    rw [h3 i' hi'0 hi', h2 i' hi'0 hi', f1 i' hi'0 hi']
    ring

/-- Trailing block first. -/
theorem vec_trailing_first (T : Int → Int → K) (alpha : K) (halpha : alpha ≠ 0)
    (x0 x1 x2 x3 : Int → K)
    (k1 k2 : Int) (hk1 : 0 ≤ k1) (hk2 : 0 ≤ k2)
    (hT : ∀ i l, 0 ≤ i → i < k2 → 0 ≤ l → l < k1 → T (k1 + i) l = 0)
    (h1 : ∀ i, 0 ≤ i → i < k2 →
      ∑ l in Finset.Ico (0 : Int) k2, T (k1 + i) (k1 + l) * x1 (k1 + l) = alpha * x0 (k1 + i))
    (f1 : ∀ i, 0 ≤ i → i < k1 → x1 i = x0 i)
    (h2 : ∀ i, 0 ≤ i → i < k1 →
      x2 i = (-1 / alpha) * (∑ l in Finset.Ico (0 : Int) k2, T i (k1 + l) * x1 (k1 + l)) + 1 * x1 i)
    (f2 : ∀ i, 0 ≤ i → i < k2 → x2 (k1 + i) = x1 (k1 + i))
    (h3 : ∀ i, 0 ≤ i → i < k1 → ∑ l in Finset.Ico (0 : Int) k1, T i l * x3 l = alpha * x2 i)
    (f3 : ∀ i, 0 ≤ i → i < k2 → x3 (k1 + i) = x2 (k1 + i)) :
    ∀ i, 0 ≤ i → i < k1 + k2 →
      ∑ l in Finset.Ico (0 : Int) (k1 + k2), T i l * x3 l = alpha * x0 i := by
  intro i hi0 hi
  rw [sum_Ico_split _ k1 k2 hk1 hk2]
  have e1 : ∀ r, ∑ l in Finset.Ico (0 : Int) k2, T r (k1 + l) * x3 (k1 + l)
      = ∑ l in Finset.Ico (0 : Int) k2, T r (k1 + l) * x1 (k1 + l) := by
    intro r
    refine Finset.sum_congr rfl (fun l hl => ?_)
    rw [Finset.mem_Ico] at hl
    rw [f3 l hl.1 hl.2, f2 l hl.1 hl.2]
  rw [e1]
  by_cases hlt : i < k1
  · rw [h3 i hi0 hlt, h2 i hi0 hlt, f1 i hi0 hlt]
    field_simp
    ring
  · obtain ⟨i', rfl⟩ : ∃ i', i = k1 + i' := ⟨i - k1, by omega⟩
    have hi'0 : 0 ≤ i' := by omega
    have hi' : i' < k2 := by omega
    have e2 : ∑ l in Finset.Ico (0 : Int) k1, T (k1 + i') l * x3 l = 0 := by
      refine Finset.sum_eq_zero (fun l hl => ?_)
      rw [Finset.mem_Ico] at hl
      rw [hT i' l hi'0 hi' hl.1 hl.2, zero_mul]
    rw [e2, zero_add, h1 i' hi'0 hi']

theorem left_leading_first (T T1 T3 G : Int → Int → K) (alpha : K) (dB : Nat)
    (Bi Bj k1 k2 n : Int) (hk1 : 0 ≤ k1) (hk2 : 0 ≤ k2) (mem mem1 mem2 mem3 : Mem K)
    (hT : ∀ i l, 0 ≤ i → i < k1 → 0 ≤ l → l < k2 → T i (k1 + l) = 0)
    (hT1 : ∀ i l, 0 ≤ i → i < k1 → 0 ≤ l → l < k1 → T1 i l = T i l)
    (hG : ∀ i l, 0 ≤ i → i < k2 → 0 ≤ l → l < k1 → G i l = T (k1 + i) l)
    (hT3 : ∀ i l, 0 ≤ i → i < k2 → 0 ≤ l → l < k2 → T3 i l = T (k1 + i) (k1 + l))
    (F1 : frame_ok dB Bi Bj k1 n mem mem1)
    (E1 : left_eqs T1 alpha dB Bi Bj k1 n mem mem1)
    (F2 : frame_ok dB (Bi + k1) Bj k2 n mem1 mem2)
    (E2 : ∀ i j, 0 ≤ i → i < k2 → 0 ≤ j → j < n →
      mem2 dB (Bi + k1 + i) (Bj + j)
        = (-1) * (∑ l in Finset.Ico (0 : Int) k1, G i l * mem1 dB (Bi + l) (Bj + j))
          + alpha * mem1 dB (Bi + k1 + i) (Bj + j))
    (F3 : frame_ok dB (Bi + k1) Bj k2 n mem2 mem3)
    (E3 : left_eqs T3 1 dB (Bi + k1) Bj k2 n mem2 mem3) :
    frame_ok dB Bi Bj (k1 + k2) n mem mem3 ∧
    left_eqs T alpha dB Bi Bj (k1 + k2) n mem mem3 := by
  constructor
  · intro p r c h
    rw [F3 p r c (by omega), F2 p r c (by omega), F1 p r c (by omega)]
  · intro i j hi0 hi hj0 hj
    refine vec_leading_first T alpha (fun i => mem dB (Bi + i) (Bj + j))
      (fun i => mem1 dB (Bi + i) (Bj + j)) (fun i => mem2 dB (Bi + i) (Bj + j))
      (fun i => mem3 dB (Bi + i) (Bj + j)) k1 k2 hk1 hk2 hT ?_ ?_ ?_ ?_ ?_ ?_ i hi0 hi
    · intro i hi0 hi
      rw [← E1 i j hi0 hi hj0 hj]
      exact Finset.sum_congr rfl (fun l hl => by
        rw [Finset.mem_Ico] at hl; rw [hT1 i l hi0 hi hl.1 hl.2])
    · intro i hi0 hi
      exact F1 _ _ _ (by omega)
    · intro i hi0 hi
      have := E2 i j hi0 hi hj0 hj
      simp only [add_assoc] at this
      beta_reduce
      rw [this]
      congr 2
      exact Finset.sum_congr rfl (fun l hl => by
        rw [Finset.mem_Ico] at hl; rw [hG i l hi0 hi hl.1 hl.2])
    · intro i hi0 hi
      exact F2 _ _ _ (by omega)
    · intro i hi0 hi
      have := E3 i j hi0 hi hj0 hj
      simp only [add_assoc] at this
      beta_reduce
      rw [← this]
      exact Finset.sum_congr rfl (fun l hl => by
        rw [Finset.mem_Ico] at hl; rw [hT3 i l hi0 hi hl.1 hl.2])
    · intro i hi0 hi
      exact F3 _ _ _ (by omega)

theorem left_trailing_first (T T1 T3 G : Int → Int → K) (alpha : K) (halpha : alpha ≠ 0)
    (dB : Nat) (Bi Bj k1 k2 n : Int) (hk1 : 0 ≤ k1) (hk2 : 0 ≤ k2)
    (mem mem1 mem2 mem3 : Mem K)
    (hT : ∀ i l, 0 ≤ i → i < k2 → 0 ≤ l → l < k1 → T (k1 + i) l = 0)
    (hT1 : ∀ i l, 0 ≤ i → i < k2 → 0 ≤ l → l < k2 → T1 i l = T (k1 + i) (k1 + l))
    (hG : ∀ i l, 0 ≤ i → i < k1 → 0 ≤ l → l < k2 → G i l = T i (k1 + l))
    (hT3 : ∀ i l, 0 ≤ i → i < k1 → 0 ≤ l → l < k1 → T3 i l = T i l)
    (F1 : frame_ok dB (Bi + k1) Bj k2 n mem mem1)
    (E1 : left_eqs T1 alpha dB (Bi + k1) Bj k2 n mem mem1)
    (F2 : frame_ok dB Bi Bj k1 n mem1 mem2)
    (E2 : ∀ i j, 0 ≤ i → i < k1 → 0 ≤ j → j < n →
      mem2 dB (Bi + i) (Bj + j)
        = (-1 / alpha) * (∑ l in Finset.Ico (0 : Int) k2, G i l * mem1 dB (Bi + k1 + l) (Bj + j))
          + 1 * mem1 dB (Bi + i) (Bj + j))
    (F3 : frame_ok dB Bi Bj k1 n mem2 mem3)
    (E3 : left_eqs T3 alpha dB Bi Bj k1 n mem2 mem3) :
    frame_ok dB Bi Bj (k1 + k2) n mem mem3 ∧
    left_eqs T alpha dB Bi Bj (k1 + k2) n mem mem3 := by
  constructor
  · intro p r c h
    rw [F3 p r c (by omega), F2 p r c (by omega), F1 p r c (by omega)]
  · intro i j hi0 hi hj0 hj
    refine vec_trailing_first T alpha halpha (fun i => mem dB (Bi + i) (Bj + j))
      (fun i => mem1 dB (Bi + i) (Bj + j)) (fun i => mem2 dB (Bi + i) (Bj + j))
      (fun i => mem3 dB (Bi + i) (Bj + j)) k1 k2 hk1 hk2 hT ?_ ?_ ?_ ?_ ?_ ?_ i hi0 hi
    · intro i hi0 hi
      have := E1 i j hi0 hi hj0 hj
      simp only [add_assoc] at this
      beta_reduce
      rw [← this]
      exact Finset.sum_congr rfl (fun l hl => by
        rw [Finset.mem_Ico] at hl; rw [hT1 i l hi0 hi hl.1 hl.2])
    · intro i hi0 hi
      exact F1 _ _ _ (by omega)
    · intro i hi0 hi
      have := E2 i j hi0 hi hj0 hj
      simp only [add_assoc] at this
      beta_reduce
      rw [this]
      congr 2
      exact Finset.sum_congr rfl (fun l hl => by
        rw [Finset.mem_Ico] at hl; rw [hG i l hi0 hi hl.1 hl.2])
    · intro i hi0 hi
      exact F2 _ _ _ (by omega)
    · intro i hi0 hi
      rw [← E3 i j hi0 hi hj0 hj]
      exact Finset.sum_congr rfl (fun l hl => by
        rw [Finset.mem_Ico] at hl; rw [hT3 i l hi0 hi hl.1 hl.2])
    · intro i hi0 hi
      exact F3 _ _ _ (by omega)

theorem right_leading_first (T T1 T3 G : Int → Int → K) (alpha : K) (dB : Nat)
    (Bi Bj k1 k2 m : Int) (hk1 : 0 ≤ k1) (hk2 : 0 ≤ k2) (mem mem1 mem2 mem3 : Mem K)
    (hT : ∀ l j, 0 ≤ l → l < k2 → 0 ≤ j → j < k1 → T (k1 + l) j = 0)
    (hT1 : ∀ l j, 0 ≤ l → l < k1 → 0 ≤ j → j < k1 → T1 l j = T l j)
    (hG : ∀ l j, 0 ≤ l → l < k1 → 0 ≤ j → j < k2 → G l j = T l (k1 + j))
    (hT3 : ∀ l j, 0 ≤ l → l < k2 → 0 ≤ j → j < k2 → T3 l j = T (k1 + l) (k1 + j))
    (F1 : frame_ok dB Bi Bj m k1 mem mem1)
    (E1 : right_eqs T1 alpha dB Bi Bj m k1 mem mem1)
    (F2 : frame_ok dB Bi (Bj + k1) m k2 mem1 mem2)
    (E2 : ∀ i j, 0 ≤ i → i < m → 0 ≤ j → j < k2 →
      mem2 dB (Bi + i) (Bj + k1 + j)
        = (-1) * (∑ l in Finset.Ico (0 : Int) k1, mem1 dB (Bi + i) (Bj + l) * G l j)
          + alpha * mem1 dB (Bi + i) (Bj + k1 + j))
    (F3 : frame_ok dB Bi (Bj + k1) m k2 mem2 mem3)
    (E3 : right_eqs T3 1 dB Bi (Bj + k1) m k2 mem2 mem3) :
    frame_ok dB Bi Bj m (k1 + k2) mem mem3 ∧
    right_eqs T alpha dB Bi Bj m (k1 + k2) mem mem3 := by
  constructor
  · intro p r c h
    rw [F3 p r c (by omega), F2 p r c (by omega), F1 p r c (by omega)]
  · intro i j hi0 hi hj0 hj
    have key := vec_leading_first (fun a b => T b a) alpha (fun l => mem dB (Bi + i) (Bj + l))
      (fun l => mem1 dB (Bi + i) (Bj + l)) (fun l => mem2 dB (Bi + i) (Bj + l))
      (fun l => mem3 dB (Bi + i) (Bj + l)) k1 k2 hk1 hk2
      (fun a b ha0 ha hb0 hb => hT b a hb0 hb ha0 ha) ?_ ?_ ?_ ?_ ?_ ?_ j hj0 hj
    · rw [← key]
      exact Finset.sum_congr rfl (fun l _ => mul_comm _ _)
    · intro j hj0 hj
      rw [← E1 i j hi0 hi hj0 hj]
      exact Finset.sum_congr rfl (fun l hl => by
        rw [Finset.mem_Ico] at hl; rw [hT1 l j hl.1 hl.2 hj0 hj, mul_comm])
    · intro j hj0 hj
      exact F1 _ _ _ (by omega)
    · intro j hj0 hj
      have := E2 i j hi0 hi hj0 hj
      simp only [add_assoc] at this
      beta_reduce
      rw [this]
      congr 2
      exact Finset.sum_congr rfl (fun l hl => by
        rw [Finset.mem_Ico] at hl; rw [hG l j hl.1 hl.2 hj0 hj, mul_comm])
    · intro j hj0 hj
      exact F2 _ _ _ (by omega)
    · intro j hj0 hj
      have := E3 i j hi0 hi hj0 hj
      simp only [add_assoc] at this
      beta_reduce
      rw [← this]
      exact Finset.sum_congr rfl (fun l hl => by
        rw [Finset.mem_Ico] at hl; rw [hT3 l j hl.1 hl.2 hj0 hj, mul_comm])
    · intro j hj0 hj
      exact F3 _ _ _ (by omega)

theorem right_trailing_first (T T1 T3 G : Int → Int → K) (alpha : K) (halpha : alpha ≠ 0)
    (dB : Nat) (Bi Bj k1 k2 m : Int) (hk1 : 0 ≤ k1) (hk2 : 0 ≤ k2)
    (mem mem1 mem2 mem3 : Mem K)
    (hT : ∀ l j, 0 ≤ l → l < k1 → 0 ≤ j → j < k2 → T l (k1 + j) = 0)
    (hT1 : ∀ l j, 0 ≤ l → l < k2 → 0 ≤ j → j < k2 → T1 l j = T (k1 + l) (k1 + j))
    (hG : ∀ l j, 0 ≤ l → l < k2 → 0 ≤ j → j < k1 → G l j = T (k1 + l) j)
    (hT3 : ∀ l j, 0 ≤ l → l < k1 → 0 ≤ j → j < k1 → T3 l j = T l j)
    (F1 : frame_ok dB Bi (Bj + k1) m k2 mem mem1)
    (E1 : right_eqs T1 alpha dB Bi (Bj + k1) m k2 mem mem1)
    (F2 : frame_ok dB Bi Bj m k1 mem1 mem2)
    (E2 : ∀ i j, 0 ≤ i → i < m → 0 ≤ j → j < k1 →
      mem2 dB (Bi + i) (Bj + j)
        = (-1 / alpha) * (∑ l in Finset.Ico (0 : Int) k2, mem1 dB (Bi + i) (Bj + k1 + l) * G l j)
          + 1 * mem1 dB (Bi + i) (Bj + j))
    (F3 : frame_ok dB Bi Bj m k1 mem2 mem3)
    (E3 : right_eqs T3 alpha dB Bi Bj m k1 mem2 mem3) :
    frame_ok dB Bi Bj m (k1 + k2) mem mem3 ∧
    right_eqs T alpha dB Bi Bj m (k1 + k2) mem mem3 := by
  constructor
  · intro p r c h
    rw [F3 p r c (by omega), F2 p r c (by omega), F1 p r c (by omega)]
  · intro i j hi0 hi hj0 hj
    have key := vec_trailing_first (fun a b => T b a) alpha halpha
      (fun l => mem dB (Bi + i) (Bj + l))
      (fun l => mem1 dB (Bi + i) (Bj + l)) (fun l => mem2 dB (Bi + i) (Bj + l))
      (fun l => mem3 dB (Bi + i) (Bj + l)) k1 k2 hk1 hk2
      (fun a b ha0 ha hb0 hb => hT b a hb0 hb ha0 ha) ?_ ?_ ?_ ?_ ?_ ?_ j hj0 hj
    · rw [← key]
      exact Finset.sum_congr rfl (fun l _ => mul_comm _ _)
    · intro j hj0 hj
      have := E1 i j hi0 hi hj0 hj
      simp only [add_assoc] at this
      beta_reduce
      rw [← this]
      exact Finset.sum_congr rfl (fun l hl => by
        rw [Finset.mem_Ico] at hl; rw [hT1 l j hl.1 hl.2 hj0 hj, mul_comm])
    · intro j hj0 hj
      exact F1 _ _ _ (by omega)
    · intro j hj0 hj
      have := E2 i j hi0 hi hj0 hj
      simp only [add_assoc] at this
      beta_reduce
      rw [this]
      congr 2
      exact Finset.sum_congr rfl (fun l hl => by
        rw [Finset.mem_Ico] at hl; rw [hG l j hl.1 hl.2 hj0 hj, mul_comm])
    · intro j hj0 hj
      exact F2 _ _ _ (by omega)
    · intro j hj0 hj
      rw [← E3 i j hi0 hi hj0 hj]
      exact Finset.sum_congr rfl (fun l hl => by
        rw [Finset.mem_Ico] at hl; rw [hT3 l j hl.1 hl.2 hj0 hj, mul_comm])
    · intro j hj0 hj
      exact F3 _ _ _ (by omega)

theorem vec_unique_lower (T : Int → Int → K) (x : Int → K) (k : Int)
    (hT : ∀ i l, i < l → T i l = 0)
    (hd : ∀ i, 0 ≤ i → i < k → T i i ≠ 0)
    (hx : ∀ i, 0 ≤ i → i < k → ∑ l in Finset.Ico (0 : Int) k, T i l * x l = 0) :
    ∀ i, 0 ≤ i → i < k → x i = 0 := by
  have key : ∀ n : Nat, ∀ i : Int, 0 ≤ i → i < n → i < k → x i = 0 := by
    intro n
    induction n with
    | zero => intro i h0 h1; omega
    | succ n ih =>
      intro i h0 hn hk
      by_cases hlt : i < n
      · exact ih i h0 hlt hk
      · have hs := hx i h0 hk
        rw [Finset.sum_eq_single i] at hs
        · exact (mul_eq_zero.mp hs).resolve_left (hd i h0 hk)
        · intro l hl hne
          rw [Finset.mem_Ico] at hl
          by_cases hli : l < i
          · rw [ih l hl.1 (by omega) hl.2, mul_zero]
          · rw [hT i l (by omega), zero_mul]
        · intro hni
          exact absurd (Finset.mem_Ico.mpr ⟨h0, hk⟩) hni
  intro i h0 hk
  exact key (i.toNat + 1) i h0 (by omega) hk

theorem vec_unique_upper (T : Int → Int → K) (x : Int → K) (k : Int)
    (hT : ∀ i l, l < i → T i l = 0)
    (hd : ∀ i, 0 ≤ i → i < k → T i i ≠ 0)
    (hx : ∀ i, 0 ≤ i → i < k → ∑ l in Finset.Ico (0 : Int) k, T i l * x l = 0) :
    ∀ i, 0 ≤ i → i < k → x i = 0 := by
  have key : ∀ n : Nat, ∀ i : Int, 0 ≤ i → i < k → k - n ≤ i → x i = 0 := by
    intro n
    induction n with
    | zero => intro i h0 hk h1; omega
    | succ n ih =>
      intro i h0 hk hn
      by_cases hlt : k - n ≤ i
      · exact ih i h0 hk hlt
      · have hs := hx i h0 hk
        rw [Finset.sum_eq_single i] at hs
        · exact (mul_eq_zero.mp hs).resolve_left (hd i h0 hk)
        · intro l hl hne
          rw [Finset.mem_Ico] at hl
          by_cases hli : i < l
          · rw [ih l hl.1 hl.2 (by omega), mul_zero]
          · rw [hT i l (by omega), zero_mul]
        · intro hni
          exact absurd (Finset.mem_Ico.mpr ⟨h0, hk⟩) hni
  intro i h0 hk
  exact key k.toNat i h0 hk (by omega)

theorem vec_unique (T : Int → Int → K) (x : Int → K) (k : Int)
    (hT : (∀ i l, i < l → T i l = 0) ∨ (∀ i l, l < i → T i l = 0))
    (hd : ∀ i, 0 ≤ i → i < k → T i i ≠ 0)
    (hx : ∀ i, 0 ≤ i → i < k → ∑ l in Finset.Ico (0 : Int) k, T i l * x l = 0) :
    ∀ i, 0 ≤ i → i < k → x i = 0 := by
  rcases hT with h | h
  · exact vec_unique_lower T x k h hd hx
  · exact vec_unique_upper T x k h hd hx

/-- Two solutions of a triangular system from the left, one for `alpha·B` and one for
`B`, differ by the factor `alpha`. -/
theorem left_eqs_scale (T : Int → Int → K) (alpha : K) (dB : Nat) (Bi Bj km kn : Int)
    (mem mema mem1 : Mem K)
    (hT : (∀ i l, i < l → T i l = 0) ∨ (∀ i l, l < i → T i l = 0))
    (hd : ∀ i, 0 ≤ i → i < km → T i i ≠ 0)
    (Ea : left_eqs T alpha dB Bi Bj km kn mem mema)
    (E1 : left_eqs T 1 dB Bi Bj km kn mem mem1) :
    ∀ i j, 0 ≤ i → i < km → 0 ≤ j → j < kn →
      mema dB (Bi + i) (Bj + j) = alpha * mem1 dB (Bi + i) (Bj + j) := by
  intro i j hi0 hi hj0 hj
  have h := vec_unique T
    (fun l => mema dB (Bi + l) (Bj + j) - alpha * mem1 dB (Bi + l) (Bj + j)) km hT hd ?_
    i hi0 hi
  · exact sub_eq_zero.mp h
  · intro r hr0 hr
    have e1 := Ea r j hr0 hr hj0 hj
    have e2 := E1 r j hr0 hr hj0 hj
    simp only [mul_sub, Finset.sum_sub_distrib]
    rw [e1]
    have e3 : ∑ l in Finset.Ico (0 : Int) km, T r l * (alpha * mem1 dB (Bi + l) (Bj + j))
        = alpha * ∑ l in Finset.Ico (0 : Int) km, T r l * mem1 dB (Bi + l) (Bj + j) := by
      rw [Finset.mul_sum]
      exact Finset.sum_congr rfl (fun l _ => by ring)
    rw [e3, e2]
    ring

/-- Two solutions of a triangular system from the right, one for `alpha·B` and one for
`B`, differ by the factor `alpha`. -/
theorem right_eqs_scale (T : Int → Int → K) (alpha : K) (dB : Nat) (Bi Bj km kn : Int)
    (mem mema mem1 : Mem K)
    (hT : (∀ i l, i < l → T i l = 0) ∨ (∀ i l, l < i → T i l = 0))
    (hd : ∀ i, 0 ≤ i → i < kn → T i i ≠ 0)
    (Ea : right_eqs T alpha dB Bi Bj km kn mem mema)
    (E1 : right_eqs T 1 dB Bi Bj km kn mem mem1) :
    ∀ i j, 0 ≤ i → i < km → 0 ≤ j → j < kn →
      mema dB (Bi + i) (Bj + j) = alpha * mem1 dB (Bi + i) (Bj + j) := by
  intro i j hi0 hi hj0 hj
  have h := vec_unique (fun a b => T b a)
    (fun l => mema dB (Bi + i) (Bj + l) - alpha * mem1 dB (Bi + i) (Bj + l)) kn
    (hT.symm.imp (fun h a b hab => h b a hab) (fun h a b hab => h b a hab)) hd ?_
    j hj0 hj
  · exact sub_eq_zero.mp h
  · intro c hc0 hc
    have e1 := Ea i c hi0 hi hc0 hc
    have e2 := E1 i c hi0 hi hc0 hc
    simp only [mul_sub, Finset.sum_sub_distrib]
    have e0 : ∑ l in Finset.Ico (0 : Int) kn, T l c * mema dB (Bi + i) (Bj + l)
        = ∑ l in Finset.Ico (0 : Int) kn, mema dB (Bi + i) (Bj + l) * T l c :=
      Finset.sum_congr rfl (fun l _ => mul_comm _ _)
    have e3 : ∑ l in Finset.Ico (0 : Int) kn, T l c * (alpha * mem1 dB (Bi + i) (Bj + l))
        = alpha * ∑ l in Finset.Ico (0 : Int) kn, mem1 dB (Bi + i) (Bj + l) * T l c := by
      rw [Finset.mul_sum]
      exact Finset.sum_congr rfl (fun l _ => by ring)
    rw [e0, e1, e3, e2]
    ring

theorem tri_lower_of_lt (d : magma_diag_t) (X : Int → Int → K) (i j : Int) (h : j < i) :
    tri MagmaLower d X i j = X i j := by
  have : ¬ i = j := by omega
  simp [tri, this, h]

theorem tri_lower_of_gt (d : magma_diag_t) (X : Int → Int → K) (i j : Int) (h : i < j) :
    tri MagmaLower d X i j = 0 := by
  have : ¬ i = j := by omega
  have h2 : ¬ j < i := by omega
  simp [tri, this, h2]

theorem tri_upper_of_lt (d : magma_diag_t) (X : Int → Int → K) (i j : Int) (h : i < j) :
    tri MagmaUpper d X i j = X i j := by
  have : ¬ i = j := by omega
  simp [tri, this, h]

theorem tri_upper_of_gt (d : magma_diag_t) (X : Int → Int → K) (i j : Int) (h : j < i) :
    tri MagmaUpper d X i j = 0 := by
  have : ¬ i = j := by omega
  have h2 : ¬ i < j := by omega
  simp [tri, this, h2]

theorem tri_blk_shift (u : magma_uplo_t) (d : magma_diag_t) (X : Int → Int → K)
    (r c k i j : Int) :
    tri u d (blk X (r + k) (c + k)) i j = tri u d (blk X r c) (k + i) (k + j) := by
  simp only [tri, blk, add_assoc, add_right_inj, add_lt_add_iff_left]

theorem diag_invertible_congr (a : TrsmArgs K) (mem mem1 : Mem K)
    (h : mem1 a.dA_array = mem a.dA_array) (hdiag : diag_invertible a mem) :
    diag_invertible a mem1 := by
  intro hd i hi0 hi
  rw [h]
  exact hdiag hd i hi0 hi

end Blocks

/-! ## Meaning of one level -/

section Semantics

variable {K : Type} [Field K] [StarRing K]

theorem run_append (small : TrsmArgs K → Mem K → Mem K) (t1 t2 : List (Launch K))
    (mem mem1 : Mem K) (h : run small t1 mem = some mem1) :
    run small (t1 ++ t2) mem = run small t2 mem1 := by
  induction t1 generalizing mem with
  | nil =>
    simp only [run, Option.some.injEq] at h
    subst h
    rfl
  | cons l t ih =>
    cases l with
    | small s =>
      simp only [run, List.cons_append] at h ⊢
      exact ih _ h
    | gemm g =>
      simp only [run, List.cons_append] at h ⊢
      cases hg : magmablas_zgemm_vbatched_core g mem with
      | none => rw [hg] at h; cases h
      | some m2 =>
        rw [hg] at h
        exact ih _ h

theorem gemm_spec (g : GemmArgs K) (al : K) (mem mem2 : Mem K)
    (Hg : magmablas_zgemm_vbatched_core g mem = some mem2) (hal : g.alpha = some al) :
    frame_ok g.dC_array g.Ci g.Cj g.max_m g.max_n mem mem2 ∧
      ∀ i j, 0 ≤ i → i < g.max_m → 0 ≤ j → j < g.max_n →
        mem2 g.dC_array (g.Ci + i) (g.Cj + j)
          = al * (∑ l in Finset.Ico (0 : Int) g.max_k,
                op g.transA (blk (mem g.dA_array) g.Ai g.Aj) i l
              * op g.transB (blk (mem g.dB_array) g.Bi g.Bj) l j)
            + g.beta * mem g.dC_array (g.Ci + i) (g.Cj + j) := by
  simp only [magmablas_zgemm_vbatched_core, hal, Option.some.injEq] at Hg
  subst Hg
  refine ⟨?_, ?_⟩
  · intro p r c h
    simp only [gemm_update, if_neg h]
  · intro i j hi0 hi hj0 hj
    have hc : g.Ci ≤ g.Ci + i ∧ g.Ci + i < g.Ci + g.max_m ∧
        g.Cj ≤ g.Cj + j ∧ g.Cj + j < g.Cj + g.max_n := ⟨by omega, by omega, by omega, by omega⟩
    simp only [gemm_update, add_sub_cancel_left]
    rw [if_pos ⟨trivial, hc⟩]

theorem op_tri_blk_shift (t : magma_trans_t) (u : magma_uplo_t) (d : magma_diag_t)
    (X : Int → Int → K) (r c k i j : Int) :
    op t (tri u d (blk X (r + k) (c + k))) i j = op t (tri u d (blk X r c)) (k + i) (k + j) := by
  cases t <;> simp only [op, tri_blk_shift]



theorem op_tri_triangular (t : magma_trans_t) (u : magma_uplo_t) (d : magma_diag_t)
    (X : Int → Int → K) (hu : u = MagmaLower ∨ u = MagmaUpper) :
    (∀ i l, i < l → op t (tri u d X) i l = 0) ∨ (∀ i l, l < i → op t (tri u d X) i l = 0) := by
  rcases hu with rfl | rfl <;> cases t
  · exact Or.inl fun i l h => by simp only [op, tri_lower_of_gt d X i l h]
  · exact Or.inr fun i l h => by simp only [op, tri_lower_of_gt d X l i h]
  · exact Or.inr fun i l h => by simp only [op, tri_lower_of_gt d X l i h, star_zero]
  · exact Or.inr fun i l h => by simp only [op, tri_lower_of_gt d X l i h, star_zero]
  · exact Or.inr fun i l h => by simp only [op, tri_upper_of_gt d X i l h]
  · exact Or.inl fun i l h => by simp only [op, tri_upper_of_gt d X l i h]
  · exact Or.inl fun i l h => by simp only [op, tri_upper_of_gt d X l i h, star_zero]
  · exact Or.inl fun i l h => by simp only [op, tri_upper_of_gt d X l i h, star_zero]

theorem op_tri_diag_ne_zero (t : magma_trans_t) (u : magma_uplo_t) (d : magma_diag_t)
    (X : Int → Int → K) (i : Int) (h : d = MagmaNonUnit → X i i ≠ 0) :
    op t (tri u d X) i i ≠ 0 := by
  have h0 : tri u d X i i ≠ 0 := by
    cases d
    · simpa [tri] using h rfl
    · simp [tri]
  cases t
  · exact h0
  · exact h0
  · exact star_ne_zero.mpr h0
  · exact star_ne_zero.mpr h0

theorem diag_invertible_op (a : TrsmArgs K) (mem : Mem K) (hdiag : diag_invertible a mem)
    (i : Int) (hi0 : 0 ≤ i) (hi : i < max_nrowA a) :
    op a.transA (tri a.uplo a.diag (blk (mem a.dA_array) a.Ai a.Aj)) i i ≠ 0 :=
  op_tri_diag_ne_zero _ _ _ _ i (fun hd => hdiag hd i hi0 hi)

/-- The solver `small_one` meets the contract of the small solver for the threshold
policy `stop_one`. -/
theorem small_one_contract [DecidableEq K] :
    small_contract stop_one (small_one : TrsmArgs K → Mem K → Mem K) := by
  intro a mem _ _ hb hAB hdiag
  have hI : Finset.Ico (0 : Int) 1 = {0} := by
    ext x
    simp only [Finset.mem_Ico, Finset.mem_singleton]
    omega
  refine ⟨?_, ?_, ?_⟩
  · intro p r c h
    simp only [small_one, if_neg h]
  · intro hside i j hi0 hi hj0 hj
    have hm : a.max_m = 1 := by
      simp only [max_nrowA, hside, if_true, stop_one] at hb
      omega
    have hi1 : i = 0 := by omega
    subst hi1
    have hd := diag_invertible_op a mem hdiag 0 (le_refl 0)
      (by simp only [max_nrowA, hside, if_true]; omega)
    have hc : a.dB_array = a.dB_array ∧ a.Bi ≤ a.Bi + 0 ∧ a.Bi + 0 < a.Bi + a.max_m ∧
        a.Bj ≤ a.Bj + j ∧ a.Bj + j < a.Bj + a.max_n :=
      ⟨rfl, by omega, by omega, by omega, by omega⟩
    rw [hm, hI, Finset.sum_singleton]
    unfold small_one
    rw [if_pos hc]
    field_simp
  · intro hside i j hi0 hi hj0 hj
    have hm : a.max_n = 1 := by
      simp only [max_nrowA, hside, if_false, reduceCtorEq, stop_one] at hb
      omega
    have hj1 : j = 0 := by omega
    subst hj1
    have hd := diag_invertible_op a mem hdiag 0 (le_refl 0)
      (by simp only [max_nrowA, hside, if_false, reduceCtorEq]; omega)
    have hc : a.dB_array = a.dB_array ∧ a.Bi ≤ a.Bi + i ∧ a.Bi + i < a.Bi + a.max_m ∧
        a.Bj ≤ a.Bj + 0 ∧ a.Bj + 0 < a.Bj + a.max_n :=
      ⟨rfl, by omega, by omega, by omega, by omega⟩
    rw [hm, hI, Finset.sum_singleton]
    unfold small_one
    rw [if_pos hc]
    field_simp

theorem solved_of_blocks_left (a : TrsmArgs K) (k1 k2 : Int) (mem mem3 : Mem K)
    (hsum : k1 + k2 = a.max_m) (hside : a.side = MagmaLeft)
    (key : frame_ok a.dB_array a.Bi a.Bj (k1 + k2) a.max_n mem mem3 ∧
      left_eqs (op a.transA (tri a.uplo a.diag (blk (mem a.dA_array) a.Ai a.Aj)))
        a.alpha a.dB_array a.Bi a.Bj (k1 + k2) a.max_n mem mem3) :
    trsm_solved a mem mem3 := by
  rw [hsum] at key
  exact ⟨key.1, fun _ => key.2, fun h => by rw [hside] at h; cases h⟩

theorem solved_of_blocks_right (a : TrsmArgs K) (k1 k2 : Int) (mem mem3 : Mem K)
    (hsum : k1 + k2 = a.max_n) (hside : a.side = MagmaRight)
    (key : frame_ok a.dB_array a.Bi a.Bj a.max_m (k1 + k2) mem mem3 ∧
      right_eqs (op a.transA (tri a.uplo a.diag (blk (mem a.dA_array) a.Ai a.Aj)))
        a.alpha a.dB_array a.Bi a.Bj a.max_m (k1 + k2) mem mem3) :
    trsm_solved a mem mem3 := by
  rw [hsum] at key
  refine ⟨key.1, ?_, fun _ => key.2⟩
  intro h
  rw [hside] at h
  cases h

/-- One level of the recursion is sound: if the first recursive call solves its block,
the GEMM update is applied and the second recursive call solves its block, then the
whole block is solved. -/
theorem level_sound [DecidableEq K] (stop_nb : magma_side_t → Int → Int → Int)
    (a a1 a2 : TrsmArgs K) (g : GemmArgs K)
    (hs : a.side = MagmaLeft ∨ a.side = MagmaRight)
    (hu : a.uplo = MagmaLower ∨ a.uplo = MagmaUpper)
    (halpha : alpha_defined a) (hAB : a.dA_array ≠ a.dB_array)
    (hlev : trsm_level stop_nb a = Step.split a1 g a2)
    (hd1 : 0 ≤ max_nrowA a1) (hd2 : 0 ≤ max_nrowA a2)
    (mem mem1 mem2 mem3 : Mem K)
    (H1 : trsm_solved a1 mem mem1)
    (Hg : magmablas_zgemm_vbatched_core g mem1 = some mem2)
    (H3 : trsm_solved a2 mem2 mem3) :
    trsm_solved a mem mem3 := by
  obtain ⟨side, uplo, transA, diag, m, n, alpha, dA, Ai, Aj, ldda, dB, Bi, Bj, lddb,
    max_m, max_n, spec_m, spec_n, batchCount, queue⟩ := a
  simp only at hs hu hAB
  rcases hs with rfl | rfl <;> rcases hu with rfl | rfl <;> cases transA <;>
    (simp [trsm_level, trsm_shape] at hlev
     split_ifs at hlev
     cases hlev
     simp only [max_nrowA, if_true, if_false, reduceCtorEq] at hd1 hd2
     simp [alpha_defined, trsm_shape] at halpha
     obtain ⟨F1, E1l, E1r⟩ := H1
     obtain ⟨F2, E2⟩ := gemm_spec _ _ _ _ Hg (by first | rfl | exact div_some _ halpha)
     obtain ⟨F3, E3l, E3r⟩ := H3
     dsimp only at F1 E1l E1r F2 E2 F3 E3l E3r
     have hA1 : mem1 dA = mem dA :=
       funext fun r => funext fun c => F1 dA r c (fun h => hAB h.1)
     have hA2 : mem2 dA = mem dA :=
       funext fun r => funext fun c =>
         (F2 dA r c (fun h => hAB h.1)).trans (congrFun (congrFun hA1 r) c)
     rw [hA2] at E3l E3r
     rw [hA1] at E2
     first
     | refine solved_of_blocks_left _ _ _ mem mem3 (by dsimp only; omega) rfl
         (left_leading_first _ _ _ _ _ _ _ _ _ _ _ hd1 hd2 mem mem1 mem2 mem3
           ?_ ?_ ?_ ?_ F1 (E1l rfl) F2 E2 F3 (E3l rfl))
     | refine solved_of_blocks_left _ _ _ mem mem3 (by dsimp only; omega) rfl
         (left_trailing_first _ _ _ _ _ halpha _ _ _ _ _ _ hd2 hd1 mem mem1 mem2 mem3
           ?_ ?_ ?_ ?_ F1 (E1l rfl) F2 E2 F3 (E3l rfl))
     | refine solved_of_blocks_right _ _ _ mem mem3 (by dsimp only; omega) rfl
         (right_leading_first _ _ _ _ _ _ _ _ _ _ _ hd1 hd2 mem mem1 mem2 mem3
           ?_ ?_ ?_ ?_ F1 (E1r rfl) F2 E2 F3 (E3r rfl))
     | refine solved_of_blocks_right _ _ _ mem mem3 (by dsimp only; omega) rfl
         (right_trailing_first _ _ _ _ _ halpha _ _ _ _ _ _ hd2 hd1 mem mem1 mem2 mem3
           ?_ ?_ ?_ ?_ F1 (E1r rfl) F2 E2 F3 (E3r rfl))
     all_goals
       intro i l hi0 hi hl0 hl
       first
       | exact op_tri_blk_shift _ _ _ _ _ _ _ _ _
       | rfl
       | simp (disch := omega) only [op, tri_lower_of_lt, tri_lower_of_gt, tri_upper_of_lt,
           tri_upper_of_gt, blk, add_assoc, star_zero])

/-- The recursion returns and solves the system, by induction on the fuel. -/
theorem trsm_correct_aux [DecidableEq K] (stop_nb : magma_side_t → Int → Int → Int)
    (small : TrsmArgs K → Mem K → Mem K)
    (hstop : ∀ s m n, 1 ≤ stop_nb s m n) (hsmall : small_contract stop_nb small)
    (a : TrsmArgs K) (mem : Mem K)
    (hs : a.side = MagmaLeft ∨ a.side = MagmaRight)
    (hu : a.uplo = MagmaLower ∨ a.uplo = MagmaUpper)
    (halpha : alpha_defined a) (hAB : a.dA_array ≠ a.dB_array)
    (hdiag : diag_invertible a mem)
    (fuel : Nat) (hf : (max_nrowA a).toNat < fuel) :
    ∃ t mem1, magmablas_ztrsm_vbatched_max_nocheck stop_nb fuel a = some t ∧
      run small t mem = some mem1 ∧ trsm_solved a mem mem1 := by
  induction fuel generalizing a mem with
  | zero => omega
  | succ f ih =>
    by_cases hb : max_nrowA a ≤ stop_nb a.side a.max_m a.max_n
    · exact ⟨_, _, trsm_succ_base stop_nb f a a (level_base stop_nb a hb), rfl,
        hsmall a mem hs hu hb hAB hdiag⟩
    · obtain ⟨a1, g, a2, hlev⟩ := level_split_exists stop_nb a hs hu hb
      obtain ⟨hs1, hs2, hu1, hu2, -⟩ := level_split_props stop_nb a a1 a2 g hs hu hlev
      obtain ⟨d1, d1', d2, d2'⟩ := level_split_dims stop_nb hstop a a1 a2 g hs hu hlev
      obtain ⟨hA1, hB1, hA2, hB2, hC, hal⟩ := level_split_static stop_nb a a1 a2 g hs hu hlev
      obtain ⟨hal1, hal2, al, hg⟩ := hal halpha
      obtain ⟨hdg1, hdg2⟩ :=
        level_diag stop_nb a a1 a2 g hs hu hlev (by omega) (by omega) mem hdiag
      obtain ⟨t1, mem1, ht1, hr1, H1⟩ :=
        ih a1 mem (hs1 ▸ hs) (hu1 ▸ hu) hal1 (by rw [hA1, hB1]; exact hAB) hdg1 (by omega)
      have Hg : magmablas_zgemm_vbatched_core g mem1 = some (gemm_update al g mem1) := by
        simp only [magmablas_zgemm_vbatched_core, hg]
      have hm1 : mem1 a.dA_array = mem a.dA_array :=
        funext fun r => funext fun c => H1.1 a.dA_array r c (fun h => hAB (h.1.trans hB1))
      have hm2 : gemm_update al g mem1 a.dA_array = mem a.dA_array := by
        rw [← hm1]
        exact funext fun r => funext fun c =>
          (gemm_spec g al mem1 _ Hg hg).1 a.dA_array r c (fun h => hAB (h.1.trans hC))
      obtain ⟨t2, mem3, ht2, hr2, H3⟩ :=
        ih a2 (gemm_update al g mem1) (hs2 ▸ hs) (hu2 ▸ hu) hal2
          (by rw [hA2, hB2]; exact hAB)
          (diag_invertible_congr a2 mem _ (by rw [hA2]; exact hm2) hdg2) (by omega)
      refine ⟨_, mem3, trsm_succ_split stop_nb f a a1 a2 g t1 t2 hlev ht1 ht2, ?_,
        level_sound stop_nb a a1 a2 g hs hu halpha hAB hlev (by omega) (by omega)
          mem mem1 _ mem3 H1 Hg H3⟩
      rw [run_append small t1 _ mem mem1 hr1]
      simp only [run, Hg]
      exact hr2

/-- C1: in exact arithmetic, for every valid side, uplo, transA and diag, every
`alpha ≠ 0` and every `A` whose diagonal is invertible, if the small solver meets its
contract, the GEMM update computes `C := alpha·op(A)·op(B) + beta·C` and the threshold
is at least one, then the recursion returns (any fuel above the governing dimension is
enough) and afterwards the `max_m × max_n` block of `B` holds `X` with
`op(A)·X = alpha·B` for side left and `X·op(A) = alpha·B` for side right, `B` being the
original block and `A` the triangular matrix stored at `(Ai, Aj)`; nothing else is
changed. -/
theorem trsm_correct [DecidableEq K] (stop_nb : magma_side_t → Int → Int → Int)
    (small : TrsmArgs K → Mem K → Mem K)
    (hstop : ∀ s m n, 1 ≤ stop_nb s m n) (hsmall : small_contract stop_nb small)
    (a : TrsmArgs K) (mem : Mem K)
    (hs : a.side = MagmaLeft ∨ a.side = MagmaRight)
    (hu : a.uplo = MagmaLower ∨ a.uplo = MagmaUpper)
    (halpha : a.alpha ≠ 0) (hAB : a.dA_array ≠ a.dB_array)
    (hdiag : diag_invertible a mem)
    (fuel : Nat) (hf : (max_nrowA a).toNat < fuel) :
    ∃ t mem1, magmablas_ztrsm_vbatched_max_nocheck stop_nb fuel a = some t ∧
      run small t mem = some mem1 ∧ trsm_solved a mem mem1 :=
  trsm_correct_aux stop_nb small hstop hsmall a mem hs hu (Or.inl halpha) hAB hdiag fuel hf

/-- The diagonal of the sample matrix `A` is invertible. -/
theorem sample_diag_invertible (side : magma_side_t) (uplo : magma_uplo_t)
    (transA : magma_trans_t) (diag : magma_diag_t) (alpha : Rat) :
    diag_invertible (sample_args side uplo transA diag alpha) sample_mem := by
  intro _ i _ _
  simp [sample_mem, sample_args]

/-- Correctness on the sample conjugate-transposed call, with the solver `small_one`. -/
theorem trsm_correct_witness :
    ∃ t mem1, magmablas_ztrsm_vbatched_max_nocheck stop_one 4 sample_conj = some t ∧
      run small_one t sample_mem = some mem1 ∧ trsm_solved sample_conj sample_mem mem1 :=
  trsm_correct stop_one small_one (fun _ _ _ => le_refl 1) small_one_contract
    sample_conj sample_mem (Or.inl rfl) (Or.inl rfl) (by decide) (by decide)
    (sample_diag_invertible _ _ _ _ _) 4 (by decide)

/-- C10 (amended): for every valid side, uplo, transA and diag, and for every `alpha ≠ 0`
or, in the shapes 0, 3, 5 and 6, every `alpha` at all (exact arithmetic, invertible
diagonal, small solver and GEMM meeting their contracts, threshold at least one), the
solve with scalar `alpha` and the same solve with scalar `1` both return, and on the
`max_m × max_n` block of `B` the output of the first is `alpha` times the output of the
second. -/
theorem alpha_fold_once [DecidableEq K] (stop_nb : magma_side_t → Int → Int → Int)
    (small : TrsmArgs K → Mem K → Mem K)
    (hstop : ∀ s m n, 1 ≤ stop_nb s m n) (hsmall : small_contract stop_nb small)
    (a : TrsmArgs K) (mem : Mem K)
    (hs : a.side = MagmaLeft ∨ a.side = MagmaRight)
    (hu : a.uplo = MagmaLower ∨ a.uplo = MagmaUpper)
    (halpha : alpha_defined a) (hAB : a.dA_array ≠ a.dB_array)
    (hdiag : diag_invertible a mem)
    (fuel : Nat) (hf : (max_nrowA a).toNat < fuel) :
    ∃ t mema t1 mem1,
      magmablas_ztrsm_vbatched_max_nocheck stop_nb fuel a = some t ∧
      run small t mem = some mema ∧
      magmablas_ztrsm_vbatched_max_nocheck stop_nb fuel ({ a with alpha := 1 } : TrsmArgs K)
        = some t1 ∧
      run small t1 mem = some mem1 ∧
      ∀ i j, 0 ≤ i → i < a.max_m → 0 ≤ j → j < a.max_n →
        mema a.dB_array (a.Bi + i) (a.Bj + j)
          = a.alpha * mem1 a.dB_array (a.Bi + i) (a.Bj + j) := by
  obtain ⟨t, mema, ht, hr, Ha⟩ :=
    trsm_correct_aux stop_nb small hstop hsmall a mem hs hu halpha hAB hdiag fuel hf
  obtain ⟨t1, mem1, ht1, hr1, H1⟩ :=
    trsm_correct_aux stop_nb small hstop hsmall { a with alpha := 1 } mem hs hu
      (Or.inl one_ne_zero) hAB hdiag fuel hf
  refine ⟨t, mema, t1, mem1, ht, hr, ht1, hr1, ?_⟩
  have hT := op_tri_triangular a.transA a.uplo a.diag (blk (mem a.dA_array) a.Ai a.Aj) hu
  rcases hs with hside | hside
  · refine left_eqs_scale _ a.alpha a.dB_array a.Bi a.Bj a.max_m a.max_n mem mema mem1 hT
      (fun i hi0 hi => diag_invertible_op a mem hdiag i hi0 ?_) (Ha.2.1 hside) (H1.2.1 hside)
    simp only [max_nrowA, hside, if_true]
    exact hi
  · refine right_eqs_scale _ a.alpha a.dB_array a.Bi a.Bj a.max_m a.max_n mem mema mem1 hT
      (fun i hi0 hi => diag_invertible_op a mem hdiag i hi0 ?_) (Ha.2.2 hside) (H1.2.2 hside)
    simp only [max_nrowA, hside, if_false, reduceCtorEq]
    exact hi

/-- The alpha fold on a sample right-side call with `alpha = 3`. -/
theorem alpha_fold_once_witness :
    ∃ t mema t1 mem1,
      magmablas_ztrsm_vbatched_max_nocheck stop_one 4
        (sample_args MagmaRight MagmaLower MagmaNoTrans MagmaNonUnit 3) = some t ∧
      run small_one t sample_mem = some mema ∧
      magmablas_ztrsm_vbatched_max_nocheck stop_one 4
        ({ sample_args MagmaRight MagmaLower MagmaNoTrans MagmaNonUnit 3 with alpha := 1 } :
          TrsmArgs Rat) = some t1 ∧
      run small_one t1 sample_mem = some mem1 ∧
      ∀ i j, 0 ≤ i →
        i < (sample_args MagmaRight MagmaLower MagmaNoTrans MagmaNonUnit 3).max_m →
        0 ≤ j → j < (sample_args MagmaRight MagmaLower MagmaNoTrans MagmaNonUnit 3).max_n →
        mema (sample_args MagmaRight MagmaLower MagmaNoTrans MagmaNonUnit 3).dB_array
            ((sample_args MagmaRight MagmaLower MagmaNoTrans MagmaNonUnit 3).Bi + i)
            ((sample_args MagmaRight MagmaLower MagmaNoTrans MagmaNonUnit 3).Bj + j)
          = (sample_args MagmaRight MagmaLower MagmaNoTrans MagmaNonUnit 3).alpha
            * mem1 (sample_args MagmaRight MagmaLower MagmaNoTrans MagmaNonUnit 3).dB_array
                ((sample_args MagmaRight MagmaLower MagmaNoTrans MagmaNonUnit 3).Bi + i)
                ((sample_args MagmaRight MagmaLower MagmaNoTrans MagmaNonUnit 3).Bj + j) :=
  alpha_fold_once stop_one small_one (fun _ _ _ => le_refl 1) small_one_contract
    (sample_args MagmaRight MagmaLower MagmaNoTrans MagmaNonUnit 3) sample_mem
    (Or.inr rfl) (Or.inl rfl) (Or.inl (by decide)) (by decide)
    (sample_diag_invertible _ _ _ _ _) 4 (by decide)

/-- C10 as stated fails at `alpha = 0`: for side left, upper, no transpose the update is
launched with the quotient `-1/alpha`, which is undefined, so the solve with `alpha = 0`
has no defined output, whereas the same solve with `alpha = 1` has one. -/
theorem alpha_fold_fails_at_zero :
    ∃ t t1 mem1,
      magmablas_ztrsm_vbatched_max_nocheck stop_one 3
        (sample_args MagmaLeft MagmaUpper MagmaNoTrans MagmaNonUnit 0) = some t ∧
      run small_one t sample_mem = none ∧
      magmablas_ztrsm_vbatched_max_nocheck stop_one 3
        (sample_args MagmaLeft MagmaUpper MagmaNoTrans MagmaNonUnit 1) = some t1 ∧
      run small_one t1 sample_mem = some mem1 :=
  ⟨_, _, _, rfl, rfl, rfl, rfl⟩

end Semantics

/-! ## The shape table: alpha placement, blocks, update operands -/

section ShapeTable

/-- The shape of a valid argument list is one of the eight values, split into the shapes
0, 3, 5, 6 and the shapes 1, 2, 4, 7. -/
theorem shape_cases (side : magma_side_t) (uplo : magma_uplo_t) (transA : magma_trans_t)
    (hs : side = MagmaLeft ∨ side = MagmaRight)
    (hu : uplo = MagmaLower ∨ uplo = MagmaUpper) :
    (trsm_shape side uplo transA = 0 ∨ trsm_shape side uplo transA = 3 ∨
      trsm_shape side uplo transA = 5 ∨ trsm_shape side uplo transA = 6) ∨
    (trsm_shape side uplo transA = 1 ∨ trsm_shape side uplo transA = 2 ∨
      trsm_shape side uplo transA = 4 ∨ trsm_shape side uplo transA = 7) := by
  rcases hs with rfl | rfl <;> rcases hu with rfl | rfl <;> cases transA <;> decide

variable {K : Type} [Field K] [DecidableEq K]

/-- C11 (amended): at every non-base recursion level and for every shape, the first
recursive call is invoked with the caller's `alpha`; its sibling is invoked with `c_one`
in the shapes 0, 3, 5, 6, where the update's `beta` is `alpha`, and with the caller's
`alpha` again in the shapes 1, 2, 4, 7, where the update's `beta` is `c_one`. -/
theorem alpha_carriers (stop_nb : magma_side_t → Int → Int → Int)
    (a a1 a2 : TrsmArgs K) (g : GemmArgs K)
    (hs : a.side = MagmaLeft ∨ a.side = MagmaRight)
    (hu : a.uplo = MagmaLower ∨ a.uplo = MagmaUpper)
    (hlev : trsm_level stop_nb a = Step.split a1 g a2) :
    a1.alpha = a.alpha ∧
    ((trsm_shape a.side a.uplo a.transA = 0 ∨ trsm_shape a.side a.uplo a.transA = 3 ∨
            trsm_shape a.side a.uplo a.transA = 5 ∨ trsm_shape a.side a.uplo a.transA = 6) →
      a2.alpha = 1 ∧ g.beta = a.alpha) ∧
    ((trsm_shape a.side a.uplo a.transA = 1 ∨ trsm_shape a.side a.uplo a.transA = 2 ∨
            trsm_shape a.side a.uplo a.transA = 4 ∨ trsm_shape a.side a.uplo a.transA = 7) →
      a2.alpha = a.alpha ∧ g.beta = 1) := by
  obtain ⟨side, uplo, transA, diag, m, n, alpha, dA, Ai, Aj, ldda, dB, Bi, Bj, lddb,
    max_m, max_n, spec_m, spec_n, batchCount, queue⟩ := a
  simp only at hs hu
  rcases hs with rfl | rfl <;> rcases hu with rfl | rfl <;> cases transA <;>
    (simp [trsm_level, trsm_shape] at hlev
     split_ifs at hlev
     cases hlev
     simp [trsm_shape])

/-- The alpha carriers of the sample call `sample_conj` (shape 2). -/
theorem alpha_carriers_witness :
    sample_conj_first.alpha = sample_conj.alpha ∧
    ((trsm_shape sample_conj.side sample_conj.uplo sample_conj.transA = 0 ∨ trsm_shape sample_conj.side sample_conj.uplo sample_conj.transA = 3 ∨
            trsm_shape sample_conj.side sample_conj.uplo sample_conj.transA = 5 ∨ trsm_shape sample_conj.side sample_conj.uplo sample_conj.transA = 6) →
      sample_conj_second.alpha = 1 ∧ sample_conj_update.beta = sample_conj.alpha) ∧
    ((trsm_shape sample_conj.side sample_conj.uplo sample_conj.transA = 1 ∨ trsm_shape sample_conj.side sample_conj.uplo sample_conj.transA = 2 ∨
            trsm_shape sample_conj.side sample_conj.uplo sample_conj.transA = 4 ∨ trsm_shape sample_conj.side sample_conj.uplo sample_conj.transA = 7) →
      sample_conj_second.alpha = sample_conj.alpha ∧ sample_conj_update.beta = 1) :=
  alpha_carriers stop_one sample_conj sample_conj_first sample_conj_second
    sample_conj_update (Or.inl rfl) (Or.inl rfl) rfl

/-- C12 (amended): alpha placement shape by shape: the caller's `alpha` is passed to the
first recursive call in all eight shapes, the shapes 1, 5 and 6 included; the second
recursive call receives `c_one` in the shapes 0, 3, 5, 6 and the caller's `alpha` again
in the shapes 1, 2, 4, 7. -/
theorem alpha_placement_table (stop_nb : magma_side_t → Int → Int → Int)
    (a a1 a2 : TrsmArgs K) (g : GemmArgs K)
    (hs : a.side = MagmaLeft ∨ a.side = MagmaRight)
    (hu : a.uplo = MagmaLower ∨ a.uplo = MagmaUpper)
    (hlev : trsm_level stop_nb a = Step.split a1 g a2) :
    (trsm_shape a.side a.uplo a.transA = 0 → a1.alpha = a.alpha ∧ a2.alpha = 1) ∧
    (trsm_shape a.side a.uplo a.transA = 1 → a1.alpha = a.alpha ∧ a2.alpha = a.alpha) ∧
    (trsm_shape a.side a.uplo a.transA = 2 → a1.alpha = a.alpha ∧ a2.alpha = a.alpha) ∧
    (trsm_shape a.side a.uplo a.transA = 3 → a1.alpha = a.alpha ∧ a2.alpha = 1) ∧
    (trsm_shape a.side a.uplo a.transA = 4 → a1.alpha = a.alpha ∧ a2.alpha = a.alpha) ∧
    (trsm_shape a.side a.uplo a.transA = 5 → a1.alpha = a.alpha ∧ a2.alpha = 1) ∧
    (trsm_shape a.side a.uplo a.transA = 6 → a1.alpha = a.alpha ∧ a2.alpha = 1) ∧
    (trsm_shape a.side a.uplo a.transA = 7 → a1.alpha = a.alpha ∧ a2.alpha = a.alpha) := by
  obtain ⟨side, uplo, transA, diag, m, n, alpha, dA, Ai, Aj, ldda, dB, Bi, Bj, lddb,
    max_m, max_n, spec_m, spec_n, batchCount, queue⟩ := a
  simp only at hs hu
  rcases hs with rfl | rfl <;> rcases hu with rfl | rfl <;> cases transA <;>
    (simp [trsm_level, trsm_shape] at hlev
     split_ifs at hlev
     cases hlev
     simp [trsm_shape])

/-- The alpha placement of the sample call `sample_rnu` (shape 5). -/
theorem alpha_placement_table_witness :
    (trsm_shape sample_rnu.side sample_rnu.uplo sample_rnu.transA = 0 → sample_rnu_first.alpha = sample_rnu.alpha ∧
      sample_rnu_second.alpha = 1) ∧
    (trsm_shape sample_rnu.side sample_rnu.uplo sample_rnu.transA = 1 → sample_rnu_first.alpha = sample_rnu.alpha ∧
      sample_rnu_second.alpha = sample_rnu.alpha) ∧
    (trsm_shape sample_rnu.side sample_rnu.uplo sample_rnu.transA = 2 → sample_rnu_first.alpha = sample_rnu.alpha ∧
      sample_rnu_second.alpha = sample_rnu.alpha) ∧
    (trsm_shape sample_rnu.side sample_rnu.uplo sample_rnu.transA = 3 → sample_rnu_first.alpha = sample_rnu.alpha ∧
      sample_rnu_second.alpha = 1) ∧
    (trsm_shape sample_rnu.side sample_rnu.uplo sample_rnu.transA = 4 → sample_rnu_first.alpha = sample_rnu.alpha ∧
      sample_rnu_second.alpha = sample_rnu.alpha) ∧
    (trsm_shape sample_rnu.side sample_rnu.uplo sample_rnu.transA = 5 → sample_rnu_first.alpha = sample_rnu.alpha ∧
      sample_rnu_second.alpha = 1) ∧
    (trsm_shape sample_rnu.side sample_rnu.uplo sample_rnu.transA = 6 → sample_rnu_first.alpha = sample_rnu.alpha ∧
      sample_rnu_second.alpha = 1) ∧
    (trsm_shape sample_rnu.side sample_rnu.uplo sample_rnu.transA = 7 → sample_rnu_first.alpha = sample_rnu.alpha ∧
      sample_rnu_second.alpha = sample_rnu.alpha) :=
  alpha_placement_table stop_one sample_rnu sample_rnu_first sample_rnu_second
    sample_rnu_update (Or.inr rfl) (Or.inr rfl) rfl

/-- C13 (amended): for the right-side no-transpose shapes the first recursive call targets
the trailing sub-block in shape 4 (R,lower,N) and the leading sub-block in shape 5
(R,upper,N); for the left-side no-transpose shapes it is the other way round: the first
recursive call targets the leading sub-block (offsets unchanged) in shape 0 (L,lower,N)
and the trailing sub-block (offsets advanced by the leading block's size) in shape 1
(L,upper,N). -/
theorem notrans_first_block (stop_nb : magma_side_t → Int → Int → Int)
    (a a1 a2 : TrsmArgs K) (g : GemmArgs K)
    (hs : a.side = MagmaLeft ∨ a.side = MagmaRight)
    (hu : a.uplo = MagmaLower ∨ a.uplo = MagmaUpper)
    (hlev : trsm_level stop_nb a = Step.split a1 g a2) :
    (trsm_shape a.side a.uplo a.transA = 0 →
      a1.Ai = a.Ai ∧ a1.Aj = a.Aj ∧ a1.Bi = a.Bi ∧ a1.Bj = a.Bj ∧
      a2.Ai = a.Ai + a1.max_m ∧ a2.Aj = a.Aj + a1.max_m ∧ a2.Bi = a.Bi + a1.max_m ∧ a2.Bj = a.Bj) ∧
    (trsm_shape a.side a.uplo a.transA = 1 →
      a1.Ai = a.Ai + a2.max_m ∧ a1.Aj = a.Aj + a2.max_m ∧ a1.Bi = a.Bi + a2.max_m ∧ a1.Bj = a.Bj ∧
      a2.Ai = a.Ai ∧ a2.Aj = a.Aj ∧ a2.Bi = a.Bi ∧ a2.Bj = a.Bj) ∧
    (trsm_shape a.side a.uplo a.transA = 4 →
      a1.Ai = a.Ai + a2.max_n ∧ a1.Aj = a.Aj + a2.max_n ∧ a1.Bi = a.Bi ∧ a1.Bj = a.Bj + a2.max_n ∧
      a2.Ai = a.Ai ∧ a2.Aj = a.Aj ∧ a2.Bi = a.Bi ∧ a2.Bj = a.Bj) ∧
    (trsm_shape a.side a.uplo a.transA = 5 →
      a1.Ai = a.Ai ∧ a1.Aj = a.Aj ∧ a1.Bi = a.Bi ∧ a1.Bj = a.Bj ∧
      a2.Ai = a.Ai + a1.max_n ∧ a2.Aj = a.Aj + a1.max_n ∧ a2.Bi = a.Bi ∧
        a2.Bj = a.Bj + a1.max_n) := by
  obtain ⟨side, uplo, transA, diag, m, n, alpha, dA, Ai, Aj, ldda, dB, Bi, Bj, lddb,
    max_m, max_n, spec_m, spec_n, batchCount, queue⟩ := a
  simp only at hs hu
  rcases hs with rfl | rfl <;> rcases hu with rfl | rfl <;> cases transA <;>
    (simp [trsm_level, trsm_shape] at hlev
     split_ifs at hlev
     cases hlev
     simp [trsm_shape])

/-- The blocks of the two recursive calls of the sample call `sample_rnu` (shape 5). -/
theorem notrans_first_block_witness :
    (trsm_shape sample_rnu.side sample_rnu.uplo sample_rnu.transA = 0 →
      sample_rnu_first.Ai = sample_rnu.Ai ∧ sample_rnu_first.Aj = sample_rnu.Aj ∧
        sample_rnu_first.Bi = sample_rnu.Bi ∧ sample_rnu_first.Bj = sample_rnu.Bj ∧
      sample_rnu_second.Ai = sample_rnu.Ai + sample_rnu_first.max_m ∧
        sample_rnu_second.Aj = sample_rnu.Aj + sample_rnu_first.max_m ∧
        sample_rnu_second.Bi = sample_rnu.Bi + sample_rnu_first.max_m ∧
        sample_rnu_second.Bj = sample_rnu.Bj) ∧
    (trsm_shape sample_rnu.side sample_rnu.uplo sample_rnu.transA = 1 →
      sample_rnu_first.Ai = sample_rnu.Ai + sample_rnu_second.max_m ∧
        sample_rnu_first.Aj = sample_rnu.Aj + sample_rnu_second.max_m ∧
        sample_rnu_first.Bi = sample_rnu.Bi + sample_rnu_second.max_m ∧
        sample_rnu_first.Bj = sample_rnu.Bj ∧
      sample_rnu_second.Ai = sample_rnu.Ai ∧ sample_rnu_second.Aj = sample_rnu.Aj ∧
        sample_rnu_second.Bi = sample_rnu.Bi ∧ sample_rnu_second.Bj = sample_rnu.Bj) ∧
    (trsm_shape sample_rnu.side sample_rnu.uplo sample_rnu.transA = 4 →
      sample_rnu_first.Ai = sample_rnu.Ai + sample_rnu_second.max_n ∧
        sample_rnu_first.Aj = sample_rnu.Aj + sample_rnu_second.max_n ∧
        sample_rnu_first.Bi = sample_rnu.Bi ∧
        sample_rnu_first.Bj = sample_rnu.Bj + sample_rnu_second.max_n ∧
      sample_rnu_second.Ai = sample_rnu.Ai ∧ sample_rnu_second.Aj = sample_rnu.Aj ∧
        sample_rnu_second.Bi = sample_rnu.Bi ∧ sample_rnu_second.Bj = sample_rnu.Bj) ∧
    (trsm_shape sample_rnu.side sample_rnu.uplo sample_rnu.transA = 5 →
      sample_rnu_first.Ai = sample_rnu.Ai ∧ sample_rnu_first.Aj = sample_rnu.Aj ∧
        sample_rnu_first.Bi = sample_rnu.Bi ∧ sample_rnu_first.Bj = sample_rnu.Bj ∧
      sample_rnu_second.Ai = sample_rnu.Ai + sample_rnu_first.max_n ∧
        sample_rnu_second.Aj = sample_rnu.Aj + sample_rnu_first.max_n ∧
        sample_rnu_second.Bi = sample_rnu.Bi ∧
        sample_rnu_second.Bj = sample_rnu.Bj + sample_rnu_first.max_n) :=
  notrans_first_block stop_one sample_rnu sample_rnu_first sample_rnu_second
    sample_rnu_update (Or.inr rfl) (Or.inr rfl) rfl

/-- C15: in every shape the GEMM update writes, as its `C` operand, the `B` sub-block that
the second recursive call then solves, and reads, as its operand not taken from `A`, the
`B` sub-block that the first recursive call has just solved; the updated block is the
trailing one in the shapes 0, 3, 5, 6 and the leading one in the shapes 1, 2, 4, 7. -/
theorem update_direction (stop_nb : magma_side_t → Int → Int → Int)
    (a a1 a2 : TrsmArgs K) (g : GemmArgs K)
    (hs : a.side = MagmaLeft ∨ a.side = MagmaRight)
    (hu : a.uplo = MagmaLower ∨ a.uplo = MagmaUpper)
    (hlev : trsm_level stop_nb a = Step.split a1 g a2) :
    g.dC_array = a2.dB_array ∧ g.Ci = a2.Bi ∧ g.Cj = a2.Bj ∧
    g.max_m = a2.max_m ∧ g.max_n = a2.max_n ∧
    (a.side = MagmaLeft →
      g.dA_array = a.dA_array ∧
      g.dB_array = a1.dB_array ∧ g.Bi = a1.Bi ∧ g.Bj = a1.Bj ∧
      g.max_k = a1.max_m ∧ g.max_n = a1.max_n) ∧
    (a.side = MagmaRight →
      g.dB_array = a.dA_array ∧
      g.dA_array = a1.dB_array ∧ g.Ai = a1.Bi ∧ g.Aj = a1.Bj ∧
      g.max_m = a1.max_m ∧ g.max_k = a1.max_n) ∧
    ((trsm_shape a.side a.uplo a.transA = 0 ∨ trsm_shape a.side a.uplo a.transA = 3 ∨
            trsm_shape a.side a.uplo a.transA = 5 ∨ trsm_shape a.side a.uplo a.transA = 6) →
      a1.Bi = a.Bi ∧ a1.Bj = a.Bj ∧ rec_offset a2 = rec_offset a + max_nrowA a1) ∧
    ((trsm_shape a.side a.uplo a.transA = 1 ∨ trsm_shape a.side a.uplo a.transA = 2 ∨
            trsm_shape a.side a.uplo a.transA = 4 ∨ trsm_shape a.side a.uplo a.transA = 7) →
      a2.Bi = a.Bi ∧ a2.Bj = a.Bj ∧ rec_offset a1 = rec_offset a + max_nrowA a2) := by
  obtain ⟨side, uplo, transA, diag, m, n, alpha, dA, Ai, Aj, ldda, dB, Bi, Bj, lddb,
    max_m, max_n, spec_m, spec_n, batchCount, queue⟩ := a
  simp only at hs hu
  rcases hs with rfl | rfl <;> rcases hu with rfl | rfl <;> cases transA <;>
    (simp [trsm_level, trsm_shape] at hlev
     split_ifs at hlev
     cases hlev
     simp [trsm_shape, rec_offset, max_nrowA])

/-- The operands of the update of the sample call `sample_conj` (shape 2). -/
theorem update_direction_witness :
    sample_conj_update.dC_array = sample_conj_second.dB_array ∧
      sample_conj_update.Ci = sample_conj_second.Bi ∧
      sample_conj_update.Cj = sample_conj_second.Bj ∧
    sample_conj_update.max_m = sample_conj_second.max_m ∧
      sample_conj_update.max_n = sample_conj_second.max_n ∧
    (sample_conj.side = MagmaLeft →
      sample_conj_update.dA_array = sample_conj.dA_array ∧
      sample_conj_update.dB_array = sample_conj_first.dB_array ∧
        sample_conj_update.Bi = sample_conj_first.Bi ∧
        sample_conj_update.Bj = sample_conj_first.Bj ∧
      sample_conj_update.max_k = sample_conj_first.max_m ∧
        sample_conj_update.max_n = sample_conj_first.max_n) ∧
    (sample_conj.side = MagmaRight →
      sample_conj_update.dB_array = sample_conj.dA_array ∧
      sample_conj_update.dA_array = sample_conj_first.dB_array ∧
        sample_conj_update.Ai = sample_conj_first.Bi ∧
        sample_conj_update.Aj = sample_conj_first.Bj ∧
      sample_conj_update.max_m = sample_conj_first.max_m ∧
        sample_conj_update.max_k = sample_conj_first.max_n) ∧
    ((trsm_shape sample_conj.side sample_conj.uplo sample_conj.transA = 0 ∨ trsm_shape sample_conj.side sample_conj.uplo sample_conj.transA = 3 ∨
            trsm_shape sample_conj.side sample_conj.uplo sample_conj.transA = 5 ∨ trsm_shape sample_conj.side sample_conj.uplo sample_conj.transA = 6) →
      sample_conj_first.Bi = sample_conj.Bi ∧ sample_conj_first.Bj = sample_conj.Bj ∧
        rec_offset sample_conj_second = rec_offset sample_conj + max_nrowA sample_conj_first) ∧
    ((trsm_shape sample_conj.side sample_conj.uplo sample_conj.transA = 1 ∨ trsm_shape sample_conj.side sample_conj.uplo sample_conj.transA = 2 ∨
            trsm_shape sample_conj.side sample_conj.uplo sample_conj.transA = 4 ∨ trsm_shape sample_conj.side sample_conj.uplo sample_conj.transA = 7) →
      sample_conj_second.Bi = sample_conj.Bi ∧ sample_conj_second.Bj = sample_conj.Bj ∧
        rec_offset sample_conj_first = rec_offset sample_conj + max_nrowA sample_conj_second) :=
  update_direction stop_one sample_conj sample_conj_first sample_conj_second
    sample_conj_update (Or.inl rfl) (Or.inl rfl) rfl

/-- C16: in every shape the GEMM update is invoked with the scalar pair `(-1, alpha)` or
`(-1/alpha, 1)`: it is `(c_neg_ialpha, c_one)`, with `c_neg_ialpha = -1/alpha`, in the
shapes 1, 2, 4, 7, where the second recursive solve is invoked with `alpha`, and
`(c_negone, alpha)` in the shapes 0, 3, 5, 6, where the second recursive solve is invoked
with `c_one`; every valid shape is in one of the two groups. -/
theorem update_coefficients (stop_nb : magma_side_t → Int → Int → Int)
    (a a1 a2 : TrsmArgs K) (g : GemmArgs K)
    (hs : a.side = MagmaLeft ∨ a.side = MagmaRight)
    (hu : a.uplo = MagmaLower ∨ a.uplo = MagmaUpper)
    (hlev : trsm_level stop_nb a = Step.split a1 g a2) :
    ((trsm_shape a.side a.uplo a.transA = 1 ∨ trsm_shape a.side a.uplo a.transA = 2 ∨
            trsm_shape a.side a.uplo a.transA = 4 ∨ trsm_shape a.side a.uplo a.transA = 7) →
      g.alpha = MAGMA_Z_DIV (-1) a.alpha ∧ g.beta = 1 ∧ a2.alpha = a.alpha) ∧
    ((trsm_shape a.side a.uplo a.transA = 0 ∨ trsm_shape a.side a.uplo a.transA = 3 ∨
            trsm_shape a.side a.uplo a.transA = 5 ∨ trsm_shape a.side a.uplo a.transA = 6) →
      g.alpha = some (-1) ∧ g.beta = a.alpha ∧ a2.alpha = 1) ∧
    ((trsm_shape a.side a.uplo a.transA = 0 ∨ trsm_shape a.side a.uplo a.transA = 3 ∨
            trsm_shape a.side a.uplo a.transA = 5 ∨ trsm_shape a.side a.uplo a.transA = 6) ∨
      (trsm_shape a.side a.uplo a.transA = 1 ∨ trsm_shape a.side a.uplo a.transA = 2 ∨
            trsm_shape a.side a.uplo a.transA = 4 ∨ trsm_shape a.side a.uplo a.transA = 7)) ∧
    (a.alpha ≠ 0 → MAGMA_Z_DIV (-1) a.alpha = some (-1 / a.alpha)) := by
  obtain ⟨side, uplo, transA, diag, m, n, alpha, dA, Ai, Aj, ldda, dB, Bi, Bj, lddb,
    max_m, max_n, spec_m, spec_n, batchCount, queue⟩ := a
  simp only at hs hu
  rcases hs with rfl | rfl <;> rcases hu with rfl | rfl <;> cases transA <;>
    (simp [trsm_level, trsm_shape] at hlev
     split_ifs at hlev
     cases hlev
     simp [trsm_shape, MAGMA_Z_DIV])

/-- The scalars of the update of the sample call `sample_conj` (shape 2). -/
theorem update_coefficients_witness :
    ((trsm_shape sample_conj.side sample_conj.uplo sample_conj.transA = 1 ∨ trsm_shape sample_conj.side sample_conj.uplo sample_conj.transA = 2 ∨
            trsm_shape sample_conj.side sample_conj.uplo sample_conj.transA = 4 ∨ trsm_shape sample_conj.side sample_conj.uplo sample_conj.transA = 7) →
      sample_conj_update.alpha = MAGMA_Z_DIV (-1) sample_conj.alpha ∧ sample_conj_update.beta = 1 ∧
        sample_conj_second.alpha = sample_conj.alpha) ∧
    ((trsm_shape sample_conj.side sample_conj.uplo sample_conj.transA = 0 ∨ trsm_shape sample_conj.side sample_conj.uplo sample_conj.transA = 3 ∨
            trsm_shape sample_conj.side sample_conj.uplo sample_conj.transA = 5 ∨ trsm_shape sample_conj.side sample_conj.uplo sample_conj.transA = 6) →
      sample_conj_update.alpha = some (-1) ∧ sample_conj_update.beta = sample_conj.alpha ∧
        sample_conj_second.alpha = 1) ∧
    ((trsm_shape sample_conj.side sample_conj.uplo sample_conj.transA = 0 ∨ trsm_shape sample_conj.side sample_conj.uplo sample_conj.transA = 3 ∨
            trsm_shape sample_conj.side sample_conj.uplo sample_conj.transA = 5 ∨ trsm_shape sample_conj.side sample_conj.uplo sample_conj.transA = 6) ∨
      (trsm_shape sample_conj.side sample_conj.uplo sample_conj.transA = 1 ∨ trsm_shape sample_conj.side sample_conj.uplo sample_conj.transA = 2 ∨
            trsm_shape sample_conj.side sample_conj.uplo sample_conj.transA = 4 ∨ trsm_shape sample_conj.side sample_conj.uplo sample_conj.transA = 7)) ∧
    (sample_conj.alpha ≠ 0 → MAGMA_Z_DIV (-1) sample_conj.alpha = some (-1 / sample_conj.alpha)) :=
  update_coefficients stop_one sample_conj sample_conj_first sample_conj_second
    sample_conj_update (Or.inl rfl) (Or.inl rfl) rfl

/-- C17: in every shape the batch-wide dimensions `(M, N, K)` of the GEMM update are (size
of the block being updated, `max_n`, size of the already-solved block) for side left and
(`max_m`, size of the block being updated, size of the already-solved block) for side
right, the block being updated being the one of the second recursive call and the
already-solved one that of the first; the two sizes sum to the governing dimension. -/
theorem update_dimensions (stop_nb : magma_side_t → Int → Int → Int)
    (a a1 a2 : TrsmArgs K) (g : GemmArgs K)
    (hs : a.side = MagmaLeft ∨ a.side = MagmaRight)
    (hu : a.uplo = MagmaLower ∨ a.uplo = MagmaUpper)
    (hlev : trsm_level stop_nb a = Step.split a1 g a2) :
    (a.side = MagmaLeft →
      g.max_m = a2.max_m ∧ g.max_n = a.max_n ∧ g.max_k = a1.max_m ∧
      a1.max_m + a2.max_m = a.max_m) ∧
    (a.side = MagmaRight →
      g.max_m = a.max_m ∧ g.max_n = a2.max_n ∧ g.max_k = a1.max_n ∧
      a1.max_n + a2.max_n = a.max_n) ∧
    g.dC_array = a2.dB_array ∧ g.Ci = a2.Bi ∧ g.Cj = a2.Bj ∧
    max_nrowA a1 + max_nrowA a2 = max_nrowA a := by
  obtain ⟨side, uplo, transA, diag, m, n, alpha, dA, Ai, Aj, ldda, dB, Bi, Bj, lddb,
    max_m, max_n, spec_m, spec_n, batchCount, queue⟩ := a
  simp only at hs hu
  rcases hs with rfl | rfl <;> rcases hu with rfl | rfl <;> cases transA <;>
    (simp [trsm_level, trsm_shape] at hlev
     split_ifs at hlev
     cases hlev
     simp [max_nrowA])

/-- The dimensions of the update of the sample call `sample_rnu` (shape 5). -/
theorem update_dimensions_witness :
    (sample_rnu.side = MagmaLeft →
      sample_rnu_update.max_m = sample_rnu_second.max_m ∧
        sample_rnu_update.max_n = sample_rnu.max_n ∧
        sample_rnu_update.max_k = sample_rnu_first.max_m ∧
      sample_rnu_first.max_m + sample_rnu_second.max_m = sample_rnu.max_m) ∧
    (sample_rnu.side = MagmaRight →
      sample_rnu_update.max_m = sample_rnu.max_m ∧
        sample_rnu_update.max_n = sample_rnu_second.max_n ∧
        sample_rnu_update.max_k = sample_rnu_first.max_n ∧
      sample_rnu_first.max_n + sample_rnu_second.max_n = sample_rnu.max_n) ∧
    sample_rnu_update.dC_array = sample_rnu_second.dB_array ∧
      sample_rnu_update.Ci = sample_rnu_second.Bi ∧ sample_rnu_update.Cj = sample_rnu_second.Bj ∧
    max_nrowA sample_rnu_first + max_nrowA sample_rnu_second = max_nrowA sample_rnu :=
  update_dimensions stop_one sample_rnu sample_rnu_first sample_rnu_second
    sample_rnu_update (Or.inr rfl) (Or.inr rfl) rfl

/-- C18: for every valid input the GEMM update applies the solve's own `transA` to the
operand taken from `A` and `MagmaNoTrans` to the operand taken from `B`: the flag pair
is `(transA, MagmaNoTrans)` for side left, where `A` is the first operand, and
`(MagmaNoTrans, transA)` for side right, where `A` is the second operand. -/
theorem update_transpose_flags (stop_nb : magma_side_t → Int → Int → Int)
    (a a1 a2 : TrsmArgs K) (g : GemmArgs K)
    (hs : a.side = MagmaLeft ∨ a.side = MagmaRight)
    (hu : a.uplo = MagmaLower ∨ a.uplo = MagmaUpper)
    (hlev : trsm_level stop_nb a = Step.split a1 g a2) :
    (a.side = MagmaLeft →
      g.transA = a.transA ∧ g.transB = MagmaNoTrans ∧
      g.dA_array = a.dA_array ∧ g.dB_array = a.dB_array) ∧
    (a.side = MagmaRight →
      g.transA = MagmaNoTrans ∧ g.transB = a.transA ∧
      g.dA_array = a.dB_array ∧ g.dB_array = a.dA_array) := by
  obtain ⟨side, uplo, transA, diag, m, n, alpha, dA, Ai, Aj, ldda, dB, Bi, Bj, lddb,
    max_m, max_n, spec_m, spec_n, batchCount, queue⟩ := a
  simp only at hs hu
  rcases hs with rfl | rfl <;> rcases hu with rfl | rfl <;> cases transA <;>
    (simp [trsm_level, trsm_shape] at hlev
     split_ifs at hlev
     cases hlev
     simp)

/-- The transpose flags of the update of the sample call `sample_conj` (shape 2). -/
theorem update_transpose_flags_witness :
    (sample_conj.side = MagmaLeft →
      sample_conj_update.transA = sample_conj.transA ∧ sample_conj_update.transB = MagmaNoTrans ∧
      sample_conj_update.dA_array = sample_conj.dA_array ∧
        sample_conj_update.dB_array = sample_conj.dB_array) ∧
    (sample_conj.side = MagmaRight →
      sample_conj_update.transA = MagmaNoTrans ∧ sample_conj_update.transB = sample_conj.transA ∧
      sample_conj_update.dA_array = sample_conj.dB_array ∧
        sample_conj_update.dB_array = sample_conj.dA_array) :=
  update_transpose_flags stop_one sample_conj sample_conj_first sample_conj_second
    sample_conj_update (Or.inl rfl) (Or.inl rfl) rfl
/-- C14: the first recursive call solves the sub-block that does not depend on the other
one. It targets the leading block (offsets `Ai, Aj` and `Bi, Bj` unchanged) exactly in
the shapes 0, 3, 5, 6 and the trailing block (the `A` offset advanced diagonally, the `B`
offset advanced along the recursion dimension, by the size of the leading block) exactly
in the shapes 1, 2, 4, 7; and the entries of `op(A)` that would couple the equations of
the first block to the unknowns of the second block are zero. -/
theorem first_call_independent_block [StarRing K] (stop_nb : magma_side_t → Int → Int → Int)
    (hstop : ∀ s m n, 1 ≤ stop_nb s m n)
    (a a1 a2 : TrsmArgs K) (g : GemmArgs K)
    (hs : a.side = MagmaLeft ∨ a.side = MagmaRight)
    (hu : a.uplo = MagmaLower ∨ a.uplo = MagmaUpper)
    (hlev : trsm_level stop_nb a = Step.split a1 g a2) :
    ((trsm_shape a.side a.uplo a.transA = 0 ∨ trsm_shape a.side a.uplo a.transA = 3 ∨
        trsm_shape a.side a.uplo a.transA = 5 ∨ trsm_shape a.side a.uplo a.transA = 6) →
      a1.Ai = a.Ai ∧ a1.Aj = a.Aj ∧ a1.Bi = a.Bi ∧ a1.Bj = a.Bj) ∧
    ((trsm_shape a.side a.uplo a.transA = 1 ∨ trsm_shape a.side a.uplo a.transA = 2 ∨
        trsm_shape a.side a.uplo a.transA = 4 ∨ trsm_shape a.side a.uplo a.transA = 7) →
      a1.Ai = a.Ai + max_nrowA a2 ∧ a1.Aj = a.Aj + max_nrowA a2 ∧
      (a.side = MagmaLeft → a1.Bi = a.Bi + max_nrowA a2 ∧ a1.Bj = a.Bj) ∧
      (a.side = MagmaRight → a1.Bi = a.Bi ∧ a1.Bj = a.Bj + max_nrowA a2)) ∧
    ((a1.Ai = a.Ai ∧ a1.Aj = a.Aj ∧ a1.Bi = a.Bi ∧ a1.Bj = a.Bj) ↔
      (trsm_shape a.side a.uplo a.transA = 0 ∨ trsm_shape a.side a.uplo a.transA = 3 ∨
        trsm_shape a.side a.uplo a.transA = 5 ∨ trsm_shape a.side a.uplo a.transA = 6)) ∧
    (∀ (mem : Mem K) (i l : Int),
      (rec_offset a1 - rec_offset a ≤ i ∧ i < rec_offset a1 - rec_offset a + max_nrowA a1) →
      (rec_offset a2 - rec_offset a ≤ l ∧ l < rec_offset a2 - rec_offset a + max_nrowA a2) →
      (a.side = MagmaLeft →
        op a.transA (tri a.uplo a.diag (blk (mem a.dA_array) a.Ai a.Aj)) i l = 0) ∧
      (a.side = MagmaRight →
        op a.transA (tri a.uplo a.diag (blk (mem a.dA_array) a.Ai a.Aj)) l i = 0)) := by
  obtain ⟨-, -, hd2, -⟩ := level_split_dims stop_nb hstop a a1 a2 g hs hu hlev
  have hsh := shape_cases a.side a.uplo a.transA hs hu
  have hlead : (trsm_shape a.side a.uplo a.transA = 0 ∨ trsm_shape a.side a.uplo a.transA = 3 ∨
        trsm_shape a.side a.uplo a.transA = 5 ∨ trsm_shape a.side a.uplo a.transA = 6) →
      a1.Ai = a.Ai ∧ a1.Aj = a.Aj ∧ a1.Bi = a.Bi ∧ a1.Bj = a.Bj := by
    obtain ⟨side, uplo, transA, diag, m, n, alpha, dA, Ai, Aj, ldda, dB, Bi, Bj, lddb,
      max_m, max_n, spec_m, spec_n, batchCount, queue⟩ := a
    simp only at hs hu
    rcases hs with rfl | rfl <;> rcases hu with rfl | rfl <;> cases transA <;>
      (simp [trsm_level, trsm_shape] at hlev
       split_ifs at hlev
       cases hlev
       simp [trsm_shape])
  have htrail : (trsm_shape a.side a.uplo a.transA = 1 ∨ trsm_shape a.side a.uplo a.transA = 2 ∨
        trsm_shape a.side a.uplo a.transA = 4 ∨ trsm_shape a.side a.uplo a.transA = 7) →
      a1.Ai = a.Ai + max_nrowA a2 ∧ a1.Aj = a.Aj + max_nrowA a2 ∧
      (a.side = MagmaLeft → a1.Bi = a.Bi + max_nrowA a2 ∧ a1.Bj = a.Bj) ∧
      (a.side = MagmaRight → a1.Bi = a.Bi ∧ a1.Bj = a.Bj + max_nrowA a2) := by
    obtain ⟨side, uplo, transA, diag, m, n, alpha, dA, Ai, Aj, ldda, dB, Bi, Bj, lddb,
      max_m, max_n, spec_m, spec_n, batchCount, queue⟩ := a
    simp only at hs hu
    rcases hs with rfl | rfl <;> rcases hu with rfl | rfl <;> cases transA <;>
      (simp [trsm_level, trsm_shape] at hlev
       split_ifs at hlev
       cases hlev
       simp [trsm_shape, max_nrowA])
  refine ⟨hlead, htrail, ⟨fun h => ?_, hlead⟩, ?_⟩
  · rcases hsh with h1 | h1
    · exact h1
    · have := (htrail h1).1
      omega
  · obtain ⟨side, uplo, transA, diag, m, n, alpha, dA, Ai, Aj, ldda, dB, Bi, Bj, lddb,
      max_m, max_n, spec_m, spec_n, batchCount, queue⟩ := a
    simp only at hs hu
    rcases hs with rfl | rfl <;> rcases hu with rfl | rfl <;> cases transA <;>
      (simp [trsm_level, trsm_shape] at hlev
       split_ifs at hlev
       cases hlev
       intro mem i l hi hl
       simp [rec_offset, max_nrowA] at hi hl
       constructor <;> intro h <;>
         first
         | (simp at h; done)
         | simp (disch := omega) only [op, tri_lower_of_gt, tri_upper_of_gt, star_zero])

/-- The first recursive call of the sample call `sample_conj` (shape 2) targets the
trailing block. -/
theorem first_call_independent_block_witness :
    (trsm_shape sample_conj.side sample_conj.uplo sample_conj.transA = 1 ∨
        trsm_shape sample_conj.side sample_conj.uplo sample_conj.transA = 2 ∨
        trsm_shape sample_conj.side sample_conj.uplo sample_conj.transA = 4 ∨
        trsm_shape sample_conj.side sample_conj.uplo sample_conj.transA = 7) ∧
    sample_conj_first.Ai = sample_conj.Ai + max_nrowA sample_conj_second ∧
    sample_conj_first.Aj = sample_conj.Aj + max_nrowA sample_conj_second ∧
    (sample_conj.side = MagmaLeft →
      sample_conj_first.Bi = sample_conj.Bi + max_nrowA sample_conj_second ∧
      sample_conj_first.Bj = sample_conj.Bj) ∧
    (sample_conj.side = MagmaRight →
      sample_conj_first.Bi = sample_conj.Bi ∧
      sample_conj_first.Bj = sample_conj.Bj + max_nrowA sample_conj_second) :=
  ⟨by decide,
    (first_call_independent_block stop_one (fun _ _ _ => le_refl 1) sample_conj
      sample_conj_first sample_conj_second sample_conj_update (Or.inl rfl) (Or.inl rfl)
      rfl).2.1 (by decide)⟩

theorem shape_eight (side : magma_side_t) (uplo : magma_uplo_t) (transA : magma_trans_t) :
    trsm_shape side uplo transA = 0 ∨ trsm_shape side uplo transA = 1 ∨
    trsm_shape side uplo transA = 2 ∨ trsm_shape side uplo transA = 3 ∨
    trsm_shape side uplo transA = 4 ∨ trsm_shape side uplo transA = 5 ∨
    trsm_shape side uplo transA = 6 ∨ trsm_shape side uplo transA = 7 := by
  cases side <;> cases uplo <;> cases transA <;> decide

/-- The `default` branch of the `switch` is never taken. -/
theorem level_ne_noop (stop_nb : magma_side_t → Int → Int → Int) (a : TrsmArgs K) :
    trsm_level stop_nb a ≠ Step.noop := by
  intro hno
  by_cases hb : max_nrowA a ≤ stop_nb a.side a.max_m a.max_n
  · rw [level_base stop_nb a hb] at hno
    cases hno
  · have hsh := shape_eight a.side a.uplo a.transA
    unfold max_nrowA at hb
    rcases hsh with h | h | h | h | h | h | h | h <;> simp [trsm_level, hb, h] at hno

/-- Whenever the recursion returns, the GEMM launches of its list are one fewer than the
small-solver launches. -/
theorem gemm_count_aux (stop_nb : magma_side_t → Int → Int → Int) (fuel : Nat)
    (a : TrsmArgs K) (t : List (Launch K))
    (h : magmablas_ztrsm_vbatched_max_nocheck stop_nb fuel a = some t) :
    t.countP is_gemm + 1 = t.countP is_small := by
  induction fuel generalizing a t with
  | zero => simp [magmablas_ztrsm_vbatched_max_nocheck] at h
  | succ f ih =>
    cases hlev : trsm_level stop_nb a with
    | base s =>
      simp only [magmablas_ztrsm_vbatched_max_nocheck, hlev, Option.some.injEq] at h
      subst h
      simp [is_gemm, is_small]
    | split a1 g a2 =>
      simp only [magmablas_ztrsm_vbatched_max_nocheck, hlev] at h
      cases h1 : magmablas_ztrsm_vbatched_max_nocheck stop_nb f a1 with
      | none => simp [h1] at h
      | some t1 =>
        cases h2 : magmablas_ztrsm_vbatched_max_nocheck stop_nb f a2 with
        | none => simp [h1, h2] at h
        | some t2 =>
          simp only [h1, h2, Option.some.injEq] at h
          subst h
          have e1 := ih a1 t1 h1
          have e2 := ih a2 t2 h2
          simp only [List.countP_append, List.countP_cons, is_gemm, is_small]
          simp
          omega
    | noop => exact absurd hlev (level_ne_noop stop_nb a)

/-- With a threshold of at least one, any fuel above the governing dimension makes the
recursion return. -/
theorem trsm_returns_aux (stop_nb : magma_side_t → Int → Int → Int)
    (hstop : ∀ s m n, 1 ≤ stop_nb s m n) (a : TrsmArgs K)
    (hs : a.side = MagmaLeft ∨ a.side = MagmaRight)
    (hu : a.uplo = MagmaLower ∨ a.uplo = MagmaUpper)
    (fuel : Nat) (hf : (max_nrowA a).toNat < fuel) :
    ∃ t, magmablas_ztrsm_vbatched_max_nocheck stop_nb fuel a = some t := by
  induction fuel generalizing a with
  | zero => omega
  | succ f ih =>
    by_cases hb : max_nrowA a ≤ stop_nb a.side a.max_m a.max_n
    · exact ⟨_, trsm_succ_base stop_nb f a a (level_base stop_nb a hb)⟩
    · obtain ⟨a1, g, a2, hlev⟩ := level_split_exists stop_nb a hs hu hb
      obtain ⟨hs1, hs2, hu1, hu2, -⟩ := level_split_props stop_nb a a1 a2 g hs hu hlev
      obtain ⟨d1, d1', d2, d2'⟩ := level_split_dims stop_nb hstop a a1 a2 g hs hu hlev
      obtain ⟨t1, ht1⟩ := ih a1 (hs1 ▸ hs) (hu1 ▸ hu) (by omega)
      obtain ⟨t2, ht2⟩ := ih a2 (hs2 ▸ hs) (hu2 ▸ hu) (by omega)
      exact ⟨_, trsm_succ_split stop_nb f a a1 a2 g t1 t2 hlev ht1 ht2⟩

/-- C19: at every non-base recursion level, for every shape, the call issues exactly
three operations in this order: a recursive solve, one batched GEMM update, a second
recursive solve, so that its list of launches is the list of the first call, the GEMM,
the list of the second call; consequently in the full list of launches the number of
GEMM launches is the number of small-solver launches minus one. -/
theorem three_operations (stop_nb : magma_side_t → Int → Int → Int)
    (hstop : ∀ s m n, 1 ≤ stop_nb s m n) (a : TrsmArgs K)
    (hs : a.side = MagmaLeft ∨ a.side = MagmaRight)
    (hu : a.uplo = MagmaLower ∨ a.uplo = MagmaUpper) :
    (¬ max_nrowA a ≤ stop_nb a.side a.max_m a.max_n →
      ∃ a1 g a2, trsm_level stop_nb a = Step.split a1 g a2 ∧
        ∀ fuel t, magmablas_ztrsm_vbatched_max_nocheck stop_nb (fuel + 1) a = some t →
          ∃ t1 t2, magmablas_ztrsm_vbatched_max_nocheck stop_nb fuel a1 = some t1 ∧
            magmablas_ztrsm_vbatched_max_nocheck stop_nb fuel a2 = some t2 ∧
            t = t1 ++ Launch.gemm g :: t2) ∧
    (∀ fuel, (max_nrowA a).toNat < fuel →
      ∃ t, magmablas_ztrsm_vbatched_max_nocheck stop_nb fuel a = some t ∧
        t.countP is_gemm + 1 = t.countP is_small) := by
  refine ⟨fun hb => ?_, fun fuel hf => ?_⟩
  · obtain ⟨a1, g, a2, hlev⟩ := level_split_exists stop_nb a hs hu hb
    refine ⟨a1, g, a2, hlev, fun fuel t h => ?_⟩
    simp only [magmablas_ztrsm_vbatched_max_nocheck, hlev] at h
    cases h1 : magmablas_ztrsm_vbatched_max_nocheck stop_nb fuel a1 with
    | none => simp [h1] at h
    | some t1 =>
      cases h2 : magmablas_ztrsm_vbatched_max_nocheck stop_nb fuel a2 with
      | none => simp [h1, h2] at h
      | some t2 =>
        simp only [h1, h2, Option.some.injEq] at h
        exact ⟨t1, t2, rfl, rfl, h.symm⟩
  · obtain ⟨t, ht⟩ := trsm_returns_aux stop_nb hstop a hs hu fuel hf
    exact ⟨t, ht, gemm_count_aux stop_nb fuel a t ht⟩

/-- The three operations and the launch counts of the sample call `sample_rnu`. -/
theorem three_operations_witness :
    (¬ max_nrowA sample_rnu ≤ stop_one sample_rnu.side sample_rnu.max_m sample_rnu.max_n →
      ∃ a1 g a2, trsm_level stop_one sample_rnu = Step.split a1 g a2 ∧
        ∀ fuel t, magmablas_ztrsm_vbatched_max_nocheck stop_one (fuel + 1) sample_rnu = some t →
          ∃ t1 t2, magmablas_ztrsm_vbatched_max_nocheck stop_one fuel a1 = some t1 ∧
            magmablas_ztrsm_vbatched_max_nocheck stop_one fuel a2 = some t2 ∧
            t = t1 ++ Launch.gemm g :: t2) ∧
    (∀ fuel, (max_nrowA sample_rnu).toNat < fuel →
      ∃ t, magmablas_ztrsm_vbatched_max_nocheck stop_one fuel sample_rnu = some t ∧
        t.countP is_gemm + 1 = t.countP is_small) :=
  three_operations stop_one (fun _ _ _ => le_refl 1) sample_rnu (Or.inr rfl) (Or.inr rfl)

/-- C20: every recursive call shrinks only the recursion dimension and records the
exact sub-block size in the spec pair: for side left each sub-call receives
`(max_m', max_n, spec_m = max_m', spec_n = 0)` with `max_n` unchanged, for side right
`(max_m, max_n', spec_m = 0, spec_n = max_n')` with `max_m` unchanged; the two new
dimensions are the split size `magma_get_ztrsm_vbatched_nb` of the governing dimension
and the remainder, and under a threshold of at least one both are smaller than the
governing dimension. -/
theorem sub_call_frame (stop_nb : magma_side_t → Int → Int → Int)
    (hstop : ∀ s m n, 1 ≤ stop_nb s m n)
    (a a1 a2 : TrsmArgs K) (g : GemmArgs K)
    (hs : a.side = MagmaLeft ∨ a.side = MagmaRight)
    (hu : a.uplo = MagmaLower ∨ a.uplo = MagmaUpper)
    (hlev : trsm_level stop_nb a = Step.split a1 g a2) :
    (a.side = MagmaLeft →
      a1.max_n = a.max_n ∧ a1.spec_m = a1.max_m ∧ a1.spec_n = 0 ∧
      a2.max_n = a.max_n ∧ a2.spec_m = a2.max_m ∧ a2.spec_n = 0 ∧
      a1.max_m + a2.max_m = a.max_m ∧
      (a1.max_m = magma_get_ztrsm_vbatched_nb a.max_m ∨
        a2.max_m = magma_get_ztrsm_vbatched_nb a.max_m) ∧
      a1.max_m < a.max_m ∧ a2.max_m < a.max_m) ∧
    (a.side = MagmaRight →
      a1.max_m = a.max_m ∧ a1.spec_m = 0 ∧ a1.spec_n = a1.max_n ∧
      a2.max_m = a.max_m ∧ a2.spec_m = 0 ∧ a2.spec_n = a2.max_n ∧
      a1.max_n + a2.max_n = a.max_n ∧
      (a1.max_n = magma_get_ztrsm_vbatched_nb a.max_n ∨
        a2.max_n = magma_get_ztrsm_vbatched_nb a.max_n) ∧
      a1.max_n < a.max_n ∧ a2.max_n < a.max_n) := by
  obtain ⟨-, hd1, -, hd2⟩ := level_split_dims stop_nb hstop a a1 a2 g hs hu hlev
  obtain ⟨hs1, hs2, -⟩ := level_split_props stop_nb a a1 a2 g hs hu hlev
  have hfr : (a.side = MagmaLeft →
      a1.max_n = a.max_n ∧ a1.spec_m = a1.max_m ∧ a1.spec_n = 0 ∧
      a2.max_n = a.max_n ∧ a2.spec_m = a2.max_m ∧ a2.spec_n = 0 ∧
      a1.max_m + a2.max_m = a.max_m ∧
      (a1.max_m = magma_get_ztrsm_vbatched_nb a.max_m ∨
        a2.max_m = magma_get_ztrsm_vbatched_nb a.max_m)) ∧
    (a.side = MagmaRight →
      a1.max_m = a.max_m ∧ a1.spec_m = 0 ∧ a1.spec_n = a1.max_n ∧
      a2.max_m = a.max_m ∧ a2.spec_m = 0 ∧ a2.spec_n = a2.max_n ∧
      a1.max_n + a2.max_n = a.max_n ∧
      (a1.max_n = magma_get_ztrsm_vbatched_nb a.max_n ∨
        a2.max_n = magma_get_ztrsm_vbatched_nb a.max_n)) := by
    obtain ⟨side, uplo, transA, diag, m, n, alpha, dA, Ai, Aj, ldda, dB, Bi, Bj, lddb,
      max_m, max_n, spec_m, spec_n, batchCount, queue⟩ := a
    simp only at hs hu
    rcases hs with rfl | rfl <;> rcases hu with rfl | rfl <;> cases transA <;>
      (simp [trsm_level, trsm_shape] at hlev
       split_ifs at hlev
       cases hlev
       simp)
  constructor
  · intro h
    obtain ⟨e1, e2, e3, e4, e5, e6, e7, e8⟩ := hfr.1 h
    simp only [max_nrowA, hs1, hs2, h, if_true] at hd1 hd2
    exact ⟨e1, e2, e3, e4, e5, e6, e7, e8, hd1, hd2⟩
  · intro h
    obtain ⟨e1, e2, e3, e4, e5, e6, e7, e8⟩ := hfr.2 h
    simp only [max_nrowA, hs1, hs2, h, if_false, reduceCtorEq] at hd1 hd2
    exact ⟨e1, e2, e3, e4, e5, e6, e7, e8, hd1, hd2⟩

/-- The dimensions and spec pairs of the recursive calls of the sample call `sample_conj`. -/
theorem sub_call_frame_witness :
    sample_conj_first.max_n = sample_conj.max_n ∧
    sample_conj_first.spec_m = sample_conj_first.max_m ∧ sample_conj_first.spec_n = 0 ∧
    sample_conj_second.max_n = sample_conj.max_n ∧
    sample_conj_second.spec_m = sample_conj_second.max_m ∧ sample_conj_second.spec_n = 0 ∧
    sample_conj_first.max_m + sample_conj_second.max_m = sample_conj.max_m ∧
    (sample_conj_first.max_m = magma_get_ztrsm_vbatched_nb sample_conj.max_m ∨
      sample_conj_second.max_m = magma_get_ztrsm_vbatched_nb sample_conj.max_m) ∧
    sample_conj_first.max_m < sample_conj.max_m ∧
    sample_conj_second.max_m < sample_conj.max_m :=
  (sub_call_frame stop_one (fun _ _ _ => le_refl 1) sample_conj sample_conj_first
    sample_conj_second sample_conj_update (Or.inl rfl) (Or.inl rfl) rfl).1 rfl

/-- C11 as stated fails in shape 1 (L,upper,N) with `alpha = 2`: both recursive calls are
invoked with the caller's `alpha`, none of them with `c_one`. -/
theorem alpha_sibling_not_one :
    ∃ a1 g a2,
      trsm_level stop_one (sample_args MagmaLeft MagmaUpper MagmaNoTrans MagmaNonUnit 2)
        = Step.split a1 g a2 ∧
      a1.alpha = 2 ∧ a2.alpha = 2 ∧
      ¬ ((a1.alpha = 2 ∧ a2.alpha = 1) ∨ (a1.alpha = 1 ∧ a2.alpha = 2)) :=
  ⟨_, _, _, rfl, rfl, rfl, by decide⟩

/-- C12 as stated fails in shape 5 (R,upper,N) with `alpha = 2`: the first recursive call
receives the caller's `alpha`, not `c_one`, and the second one receives `c_one`. -/
theorem alpha_first_in_shape_five :
    trsm_level stop_one sample_rnu
      = Step.split sample_rnu_first sample_rnu_update sample_rnu_second ∧
    trsm_shape sample_rnu.side sample_rnu.uplo sample_rnu.transA = 5 ∧
    sample_rnu.alpha = 2 ∧ sample_rnu_first.alpha = 2 ∧ sample_rnu_first.alpha ≠ 1 ∧
    sample_rnu_second.alpha = 1 ∧ sample_rnu_second.alpha ≠ sample_rnu.alpha :=
  ⟨rfl, by decide, rfl, rfl, by decide, rfl, by decide⟩

/-- C13 as stated fails in shape 0 (L,lower,N): the first recursive call targets the
leading sub-block, with all offsets unchanged, and the trailing sub-block, whose offsets
are advanced by the leading block's size `1`, is the target of the second call. -/
theorem lower_notrans_leading_first :
    ∃ a1 g a2,
      trsm_level stop_one (sample_args MagmaLeft MagmaLower MagmaNoTrans MagmaNonUnit 2)
        = Step.split a1 g a2 ∧
      trsm_shape MagmaLeft MagmaLower MagmaNoTrans = 0 ∧
      a1.Ai = 0 ∧ a1.Aj = 0 ∧ a1.Bi = 0 ∧ a1.Bj = 0 ∧ a1.max_m = 1 ∧
      a2.Ai = 1 ∧ a2.Aj = 1 ∧ a2.Bi = 1 ∧ a2.Bj = 0 ∧ a2.max_m = 2 :=
  ⟨_, _, _, rfl, by decide, rfl, rfl, rfl, rfl, rfl, rfl, rfl, rfl, rfl, rfl⟩


end ShapeTable

/-! ## The frame and the determinism of the launches -/

section Frame
variable {K : Type}

theorem trsm_frame_refl (a : TrsmArgs K) : trsm_frame a a := by
  simp [trsm_frame]

theorem trsm_frame_trans (a b c : TrsmArgs K) (h1 : trsm_frame a b) (h2 : trsm_frame b c) :
    trsm_frame a c := by
  obtain ⟨e1, e2, e3, e4, e5, e6, e7, e8, e9, e10, e11, e12⟩ := h1
  obtain ⟨f1, f2, f3, f4, f5, f6, f7, f8, f9, f10, f11, f12⟩ := h2
  exact ⟨f1.trans e1, f2.trans e2, f3.trans e3, f4.trans e4, f5.trans e5, f6.trans e6,
    f7.trans e7, f8.trans e8, f9.trans e9, f10.trans e10, f11.trans e11, f12.trans e12⟩

theorem gemm_frame_trans (a b : TrsmArgs K) (g : GemmArgs K) (h1 : trsm_frame a b)
    (h2 : gemm_frame b g) : gemm_frame a g := by
  obtain ⟨e1, e2, e3, e4, e5, e6, e7, e8, e9, e10, e11, e12⟩ := h1
  obtain ⟨f1, f2, f3, f4, f5, f6, f7⟩ := h2
  refine ⟨f1.trans e5, f2.trans e6, f3.trans e9, f4.trans e10, f5.trans e11, f6.trans e12, ?_⟩
  rcases f7 with ⟨k1, k2, k3, k4, k5⟩ | ⟨k1, k2, k3, k4, k5⟩
  · exact Or.inl ⟨k1.trans e5, k2.trans e7, k3.trans e8, k4.trans e9, k5.trans e10⟩
  · exact Or.inr ⟨k1.trans e6, k2.trans e9, k3.trans e10, k4.trans e7, k5.trans e8⟩

theorem launch_frame_trans (a b : TrsmArgs K) (l : Launch K) (h1 : trsm_frame a b)
    (h2 : launch_frame b l) : launch_frame a l := by
  cases l with
  | small s => exact trsm_frame_trans a b s h1 h2
  | gemm g => exact gemm_frame_trans a b g h1 h2

variable [Field K] [DecidableEq K]

/-- One level hands the frame on to its two recursive calls and to its GEMM update,
whatever the arguments. -/
theorem level_frame (stop_nb : magma_side_t → Int → Int → Int) (a a1 a2 : TrsmArgs K)
    (g : GemmArgs K) (hlev : trsm_level stop_nb a = Step.split a1 g a2) :
    trsm_frame a a1 ∧ gemm_frame a g ∧ trsm_frame a a2 := by
  by_cases hb : max_nrowA a ≤ stop_nb a.side a.max_m a.max_n
  · rw [level_base stop_nb a hb] at hlev
    cases hlev
  · have hsh := shape_eight a.side a.uplo a.transA
    unfold max_nrowA at hb
    rcases hsh with h | h | h | h | h | h | h | h <;>
      (simp [trsm_level, hb, h] at hlev
       obtain ⟨rfl, rfl, rfl⟩ := hlev
       simp [trsm_frame, gemm_frame])

theorem level_base_eq (stop_nb : magma_side_t → Int → Int → Int) (a s : TrsmArgs K)
    (hlev : trsm_level stop_nb a = Step.base s) : s = a := by
  by_cases hb : max_nrowA a ≤ stop_nb a.side a.max_m a.max_n
  · rw [level_base stop_nb a hb] at hlev
    cases hlev
    rfl
  · have hsh := shape_eight a.side a.uplo a.transA
    unfold max_nrowA at hb
    rcases hsh with h | h | h | h | h | h | h | h <;> simp [trsm_level, hb, h] at hlev

/-- Every launch of the whole recursion carries the frame of the top-level call. -/
theorem trace_frame_aux (stop_nb : magma_side_t → Int → Int → Int) (fuel : Nat)
    (a : TrsmArgs K) (t : List (Launch K))
    (h : magmablas_ztrsm_vbatched_max_nocheck stop_nb fuel a = some t) :
    ∀ l ∈ t, launch_frame a l := by
  induction fuel generalizing a t with
  | zero => simp [magmablas_ztrsm_vbatched_max_nocheck] at h
  | succ f ih =>
    cases hlev : trsm_level stop_nb a with
    | base s =>
      simp only [magmablas_ztrsm_vbatched_max_nocheck, hlev, Option.some.injEq] at h
      subst h
      intro l hl
      simp only [List.mem_singleton] at hl
      subst hl
      rw [level_base_eq stop_nb a s hlev]
      exact trsm_frame_refl a
    | split a1 g a2 =>
      obtain ⟨f1, fg, f2⟩ := level_frame stop_nb a a1 a2 g hlev
      simp only [magmablas_ztrsm_vbatched_max_nocheck, hlev] at h
      cases h1 : magmablas_ztrsm_vbatched_max_nocheck stop_nb f a1 with
      | none => simp [h1] at h
      | some t1 =>
        cases h2 : magmablas_ztrsm_vbatched_max_nocheck stop_nb f a2 with
        | none => simp [h1, h2] at h
        | some t2 =>
          simp only [h1, h2, Option.some.injEq] at h
          subst h
          intro l hl
          simp only [List.mem_append, List.mem_cons] at hl
          rcases hl with hl | rfl | hl
          · exact launch_frame_trans a a1 l f1 (ih a1 t1 h1 l hl)
          · exact fg
          · exact launch_frame_trans a a2 l f2 (ih a2 t2 h2 l hl)
    | noop => exact absurd hlev (level_ne_noop stop_nb a)

/-- C21: the frame of the recursion. The top-level call carries its own frame, and any
call `b` of the recursion that carries the frame of the top-level call `a` (side, uplo,
transA, diag, dA_array, dB_array, ldda, lddb, m, n, batchCount and queue unchanged)
hands it on: its two recursive calls carry it, and its GEMM update receives the same
arrays m and n (and one of them as k), the two pointer arrays with their leading
dimensions as operands, batchCount and queue. Hence the recursion returns a list of
launches, base-case invocations and GEMM updates of all levels, every one of which
carries the frame of the top-level call. Only the offsets, max_m, max_n, spec_m, spec_n
and the scalar are outside the frame. -/
theorem frame_preserved (stop_nb : magma_side_t → Int → Int → Int)
    (hstop : ∀ s m n, 1 ≤ stop_nb s m n) (a : TrsmArgs K)
    (hs : a.side = MagmaLeft ∨ a.side = MagmaRight)
    (hu : a.uplo = MagmaLower ∨ a.uplo = MagmaUpper) :
    trsm_frame a a ∧
    (∀ b b1 g b2, trsm_frame a b → trsm_level stop_nb b = Step.split b1 g b2 →
      trsm_frame a b1 ∧ gemm_frame a g ∧ trsm_frame a b2) ∧
    (∀ fuel, (max_nrowA a).toNat < fuel →
      ∃ t, magmablas_ztrsm_vbatched_max_nocheck stop_nb fuel a = some t ∧
        ∀ l ∈ t, launch_frame a l) := by
  refine ⟨trsm_frame_refl a, fun b b1 g b2 hb hlev => ?_, fun fuel hf => ?_⟩
  · obtain ⟨f1, fg, f2⟩ := level_frame stop_nb b b1 b2 g hlev
    exact ⟨trsm_frame_trans a b b1 hb f1, gemm_frame_trans a b g hb fg,
      trsm_frame_trans a b b2 hb f2⟩
  · obtain ⟨t, ht⟩ := trsm_returns_aux stop_nb hstop a hs hu fuel hf
    exact ⟨t, ht, trace_frame_aux stop_nb fuel a t ht⟩

/-- The frame of the sample call `sample_conj` and of all the launches below it. -/
theorem frame_preserved_witness :
    trsm_frame sample_conj sample_conj ∧
    (∀ b b1 g b2, trsm_frame sample_conj b → trsm_level stop_one b = Step.split b1 g b2 →
      trsm_frame sample_conj b1 ∧ gemm_frame sample_conj g ∧ trsm_frame sample_conj b2) ∧
    (∀ fuel, (max_nrowA sample_conj).toNat < fuel →
      ∃ t, magmablas_ztrsm_vbatched_max_nocheck stop_one fuel sample_conj = some t ∧
        ∀ l ∈ t, launch_frame sample_conj l) :=
  frame_preserved stop_one (fun _ _ _ => le_refl 1) sample_conj (Or.inl rfl) (Or.inl rfl)

/-- One level of the stripped call is the stripped level of the call. -/
theorem level_strip (stop_nb : magma_side_t → Int → Int → Int) (a : TrsmArgs K) :
    trsm_level stop_nb (strip_trsm a) = strip_step (trsm_level stop_nb a) := by
  by_cases hb : max_nrowA a ≤ stop_nb a.side a.max_m a.max_n
  · rw [level_base stop_nb a hb, level_base stop_nb (strip_trsm a) hb]
    rfl
  · have hsh := shape_eight a.side a.uplo a.transA
    unfold max_nrowA at hb
    rcases hsh with h | h | h | h | h | h | h | h <;>
      simp [trsm_level, strip_step, strip_trsm, strip_gemm, hb, h]

/-- The launches of the stripped call are the stripped launches of the call. -/
theorem trace_strip (stop_nb : magma_side_t → Int → Int → Int) (fuel : Nat)
    (a : TrsmArgs K) :
    magmablas_ztrsm_vbatched_max_nocheck stop_nb fuel (strip_trsm a)
      = (magmablas_ztrsm_vbatched_max_nocheck stop_nb fuel a).map (List.map strip_launch) := by
  induction fuel generalizing a with
  | zero => simp [magmablas_ztrsm_vbatched_max_nocheck]
  | succ f ih =>
    have hl := level_strip stop_nb a
    cases hlev : trsm_level stop_nb a with
    | base s =>
      rw [hlev] at hl
      simp [magmablas_ztrsm_vbatched_max_nocheck, hlev, hl, strip_step, strip_launch]
    | split a1 g a2 =>
      rw [hlev] at hl
      simp only [magmablas_ztrsm_vbatched_max_nocheck, hlev, hl, strip_step, ih a1, ih a2]
      cases magmablas_ztrsm_vbatched_max_nocheck stop_nb f a1 with
      | none => rfl
      | some t1 =>
        cases magmablas_ztrsm_vbatched_max_nocheck stop_nb f a2 with
        | none => rfl
        | some t2 => simp [strip_launch]
    | noop => exact absurd hlev (level_ne_noop stop_nb a)

/-- C23: the sequence of launches depends only on side, uplo, transA, diag, alpha, the
offsets, max_m, max_n, spec_m, spec_n and the threshold policy. Two calls that agree on
these (their stripped argument lists are equal) and differ in m, n, batchCount, the
pointer arrays (so the matrix contents), the leading dimensions or the queue either both
run out of fuel or issue lists of launches that agree launch by launch on the primitive,
its offsets, batch-wide dimensions, spec values, transpose flags and scalars. -/
theorem launches_deterministic (stop_nb : magma_side_t → Int → Int → Int) (fuel : Nat)
    (a b : TrsmArgs K) (hab : strip_trsm a = strip_trsm b) :
    (magmablas_ztrsm_vbatched_max_nocheck stop_nb fuel a).map (List.map strip_launch)
      = (magmablas_ztrsm_vbatched_max_nocheck stop_nb fuel b).map (List.map strip_launch) := by
  rw [← trace_strip stop_nb fuel a, ← trace_strip stop_nb fuel b, hab]

/-- Two calls that agree on the mode flags, scalar, offsets and batch-wide dimensions and
differ in the batch itself: the launches of `sample_conj` and of `sample_batch`. -/
theorem launches_deterministic_witness :
    strip_trsm sample_conj = strip_trsm sample_batch ∧
    (magmablas_ztrsm_vbatched_max_nocheck stop_one 4 sample_conj).map (List.map strip_launch)
      = (magmablas_ztrsm_vbatched_max_nocheck stop_one 4 sample_batch).map
          (List.map strip_launch) :=
  ⟨rfl, launches_deterministic stop_one 4 sample_conj sample_batch rfl⟩

end Frame

/-! ## The default branch, the balance of the split and its handedness -/

section Dead
variable {K : Type} [Field K] [DecidableEq K]

/-- C27: the `default` branch of the `switch` is dead code. For every input whatsoever,
values of side, uplo and transA outside their domains included, the shape is one of
0..7 and the level is never the empty `default` step. A combination that matches none
of the eight tests (a side that is neither left nor right, or an uplo that is neither
lower nor upper) keeps the initial value `shape = 0` and, when the base case does not
apply, performs exactly the three calls of `case 0`. A transA outside its domain, with
a valid side and uplo, passes the tests `transA != MagmaNoTrans`: the shape is the one
of `MagmaTrans`, one of 2, 3, 6, 7, and when the base case does not apply the three
calls are made with the value handed on. -/
theorem default_branch_dead (stop_nb : magma_side_t → Int → Int → Int) (a : TrsmArgs K) :
    (0 ≤ trsm_shape a.side a.uplo a.transA ∧ trsm_shape a.side a.uplo a.transA ≤ 7) ∧
    trsm_level stop_nb a ≠ Step.noop ∧
    ((¬ (a.side = MagmaLeft ∨ a.side = MagmaRight) ∨
        ¬ (a.uplo = MagmaLower ∨ a.uplo = MagmaUpper)) →
      trsm_shape a.side a.uplo a.transA = 0 ∧
      (¬ (if a.side = MagmaLeft then a.max_m else a.max_n) ≤ stop_nb a.side a.max_m a.max_n →
        trsm_level stop_nb a = case_zero a)) ∧
    ((a.side = MagmaLeft ∨ a.side = MagmaRight) → (a.uplo = MagmaLower ∨ a.uplo = MagmaUpper) →
      a.transA = MagmaInvalidTrans →
      trsm_shape a.side a.uplo a.transA = trsm_shape a.side a.uplo MagmaTrans ∧
      (trsm_shape a.side a.uplo a.transA = 2 ∨ trsm_shape a.side a.uplo a.transA = 3 ∨
       trsm_shape a.side a.uplo a.transA = 6 ∨ trsm_shape a.side a.uplo a.transA = 7) ∧
      (¬ (if a.side = MagmaLeft then a.max_m else a.max_n) ≤ stop_nb a.side a.max_m a.max_n →
        ∃ a1 g a2, trsm_level stop_nb a = Step.split a1 g a2 ∧
          a1.transA = MagmaInvalidTrans ∧ a2.transA = MagmaInvalidTrans ∧
          (a.side = MagmaLeft → g.transA = MagmaInvalidTrans) ∧
          (a.side = MagmaRight → g.transB = MagmaInvalidTrans))) := by
  refine ⟨?_, level_ne_noop stop_nb a, fun hbad => ?_, fun hs hu ht => ?_⟩
  · rcases shape_eight a.side a.uplo a.transA with h | h | h | h | h | h | h | h <;>
      rw [h] <;> decide
  · have h0 : trsm_shape a.side a.uplo a.transA = 0 := by
      obtain ⟨side, uplo, transA, diag, m, n, alpha, dA, Ai, Aj, ldda, dB, Bi, Bj, lddb,
        max_m, max_n, spec_m, spec_n, batchCount, queue⟩ := a
      simp only at hbad ⊢
      cases side <;> cases uplo <;> cases transA <;> simp at hbad <;> rfl
    refine ⟨h0, fun hb => ?_⟩
    simp [trsm_level, case_zero, hb, h0]
  · refine ⟨?_, ?_, fun hb => ?_⟩
    · rw [ht]
      rcases hs with h | h <;> rcases hu with h1 | h1 <;> rw [h, h1] <;> rfl
    · rw [ht]
      rcases hs with h | h <;> rcases hu with h1 | h1 <;> rw [h, h1] <;> decide
    · obtain ⟨a1, g, a2, hlev⟩ := level_split_exists stop_nb a hs hu hb
      obtain ⟨-, -, -, -, t1, t2, tl, tr, -⟩ := level_split_props stop_nb a a1 a2 g hs hu hlev
      exact ⟨a1, g, a2, hlev, t1.trans ht, t2.trans ht, fun h => (tl h).1.trans ht,
        fun h => (tr h).2.trans ht⟩

end Dead

section Balance

/-- C24 (amended): for every `max_dim` from 2 to 4096 the split size is at least half
of `max_dim`, so the remainder is between one and the split size; for `max_dim` above
4096 the split size is 2048 and the remainder is the larger part. The two parts need
not be within a factor of two of each other. -/
theorem split_half_bound (max_dim : Int) (h2 : 2 ≤ max_dim) :
    (max_dim ≤ 4096 →
      1 ≤ max_dim - magma_get_ztrsm_vbatched_nb max_dim ∧
      max_dim - magma_get_ztrsm_vbatched_nb max_dim ≤ magma_get_ztrsm_vbatched_nb max_dim ∧
      magma_get_ztrsm_vbatched_nb max_dim < max_dim) ∧
    (4096 < max_dim →
      magma_get_ztrsm_vbatched_nb max_dim = 2048 ∧
      magma_get_ztrsm_vbatched_nb max_dim < max_dim - magma_get_ztrsm_vbatched_nb max_dim) := by
  unfold magma_get_ztrsm_vbatched_nb
  omega

/-- The split of `max_dim = 5`: the remainder is 1 and the split size is 4. -/
theorem split_half_bound_witness :
    (2 : Int) ≤ 5 ∧
    (((5 : Int) ≤ 4096 →
      1 ≤ 5 - magma_get_ztrsm_vbatched_nb 5 ∧
      5 - magma_get_ztrsm_vbatched_nb 5 ≤ magma_get_ztrsm_vbatched_nb 5 ∧
      magma_get_ztrsm_vbatched_nb 5 < 5) ∧
    ((4096 : Int) < 5 →
      magma_get_ztrsm_vbatched_nb 5 = 2048 ∧
      magma_get_ztrsm_vbatched_nb 5 < 5 - magma_get_ztrsm_vbatched_nb 5)) :=
  ⟨by decide, split_half_bound 5 (by decide)⟩

/-- For `max_dim = 5` the two sub-blocks have sizes 4 and 1: one is four times the
other. -/
theorem split_unbalanced_at_five :
    (2 : Int) ≤ 5 ∧ magma_get_ztrsm_vbatched_nb 5 = 4 ∧
    5 - magma_get_ztrsm_vbatched_nb 5 = 1 ∧
    ¬ (magma_get_ztrsm_vbatched_nb 5 ≤ 2 * (5 - magma_get_ztrsm_vbatched_nb 5)) := by
  decide

end Balance

section Hand
variable {K : Type} [Field K] [DecidableEq K]

/-- C26 (amended): which sub-block receives the `nb`-sized chunk. For side right the
transposed shape uses the opposite-handed split of its non-transposed sibling (lower:
trailing for no transpose, leading for transpose; upper: leading for no transpose,
trailing for transpose). For side left the transposed shape uses the same split as
its non-transposed sibling: the trailing sub-block receives the chunk for lower, the
leading one for upper, whatever transA is. -/
theorem split_handedness (stop_nb : magma_side_t → Int → Int → Int)
    (hstop : ∀ s m n, 1 ≤ stop_nb s m n)
    (a a1 a2 : TrsmArgs K) (g : GemmArgs K)
    (hs : a.side = MagmaLeft ∨ a.side = MagmaRight)
    (hu : a.uplo = MagmaLower ∨ a.uplo = MagmaUpper)
    (hlev : trsm_level stop_nb a = Step.split a1 g a2) :
    (a.side = MagmaLeft → a.uplo = MagmaLower →
      trailing_size a a1 a2 = magma_get_ztrsm_vbatched_nb (max_nrowA a)) ∧
    (a.side = MagmaLeft → a.uplo = MagmaUpper →
      leading_size a a1 a2 = magma_get_ztrsm_vbatched_nb (max_nrowA a)) ∧
    (a.side = MagmaRight → a.uplo = MagmaLower →
      (a.transA = MagmaNoTrans →
        trailing_size a a1 a2 = magma_get_ztrsm_vbatched_nb (max_nrowA a)) ∧
      (a.transA ≠ MagmaNoTrans →
        leading_size a a1 a2 = magma_get_ztrsm_vbatched_nb (max_nrowA a))) ∧
    (a.side = MagmaRight → a.uplo = MagmaUpper →
      (a.transA = MagmaNoTrans →
        leading_size a a1 a2 = magma_get_ztrsm_vbatched_nb (max_nrowA a)) ∧
      (a.transA ≠ MagmaNoTrans →
        trailing_size a a1 a2 = magma_get_ztrsm_vbatched_nb (max_nrowA a))) ∧
    leading_size a a1 a2 + trailing_size a a1 a2 = max_nrowA a ∧
    1 ≤ leading_size a a1 a2 ∧ 1 ≤ trailing_size a a1 a2 := by
  have hnb := level_split_not_base stop_nb a a1 a2 g hlev
  have h1 := hstop a.side a.max_m a.max_n
  have hp := nb_pos (max_nrowA a)
  have hl := nb_lt (max_nrowA a) (by omega)
  obtain ⟨side, uplo, transA, diag, m, n, alpha, dA, Ai, Aj, ldda, dB, Bi, Bj, lddb,
    max_m, max_n, spec_m, spec_n, batchCount, queue⟩ := a
  simp only at hs hu
  rcases hs with rfl | rfl <;> rcases hu with rfl | rfl <;> cases transA <;>
    (simp [trsm_level, trsm_shape] at hlev
     split_ifs at hlev
     cases hlev
     simp [leading_size, trailing_size, rec_offset, max_nrowA] at hp hl ⊢
     omega)

/-- The split of the sample call `sample_conj` (side left, lower, transposed). -/
theorem split_handedness_witness :
    trailing_size sample_conj sample_conj_first sample_conj_second
      = magma_get_ztrsm_vbatched_nb (max_nrowA sample_conj) :=
  (split_handedness stop_one (fun _ _ _ => le_refl 1) sample_conj sample_conj_first
    sample_conj_second sample_conj_update (Or.inl rfl) (Or.inl rfl) rfl).1 rfl rfl

/-- Side left, lower, with `max_m = 3`: the non-transposed call and the transposed call
both split into a leading block of one row and a trailing block of `nb = 2` rows. -/
theorem left_lower_same_split :
    ∃ a1 g a2 b1 h b2,
      trsm_level stop_one (sample_args MagmaLeft MagmaLower MagmaNoTrans MagmaNonUnit 2)
        = Step.split a1 g a2 ∧
      trsm_level stop_one (sample_args MagmaLeft MagmaLower MagmaConjTrans MagmaNonUnit 2)
        = Step.split b1 h b2 ∧
      magma_get_ztrsm_vbatched_nb 3 = 2 ∧
      leading_size (sample_args MagmaLeft MagmaLower MagmaNoTrans MagmaNonUnit 2) a1 a2 = 1 ∧
      trailing_size (sample_args MagmaLeft MagmaLower MagmaNoTrans MagmaNonUnit 2) a1 a2 = 2 ∧
      leading_size (sample_args MagmaLeft MagmaLower MagmaConjTrans MagmaNonUnit 2) b1 b2 = 1 ∧
      trailing_size (sample_args MagmaLeft MagmaLower MagmaConjTrans MagmaNonUnit 2) b1 b2 = 2 :=
  ⟨_, _, _, _, _, _, rfl, rfl, by decide, by decide, by decide, by decide, by decide⟩

end Hand

/-! ## Argument checks of `magma_sgeqrs_gpu` -/

section Sgeqrs

/-- A value in the range of an `int` is kept. -/
theorem int32_of_range (z : Int) (h1 : -2147483648 ≤ z) (h2 : z < 2147483648) :
    int32 z = z := by
  unfold int32
  omega

theorem int32_range (z : Int) : -2147483648 ≤ int32 z ∧ int32 z < 2147483648 := by
  unfold int32
  omega

theorem int32_modEq (z : Int) : int32 z ≡ z [ZMOD 4294967296] := by
  unfold Int.ModEq int32
  omega

theorem int32_congr (a b : Int) (h : a ≡ b [ZMOD 4294967296]) : int32 a = int32 b := by
  unfold Int.ModEq at h
  unfold int32
  omega

/-- Reducing to 32 bits after every operation of line 105 gives the value `lwkopt`. -/
theorem sgeqrs_lwkopt_stepwise (nb : Int) (x : SgeqrsArgs) :
    int32 (int32 (int32 (int32 (x.m - x.n) + nb) + int32 (2 * x.nrhs)) * nb)
      = sgeqrs_lwkopt nb x := by
  unfold sgeqrs_lwkopt
  apply int32_congr
  apply Int.ModEq.mul_right
  refine (int32_modEq _).trans (Int.ModEq.add ?_ (int32_modEq _))
  exact (int32_modEq _).trans (Int.ModEq.add_right _ (int32_modEq _))

/-- An integer of at most 24 bits is a `float`. -/
theorem int_to_float_small (z : Int) (h1 : -16777216 ≤ z) (h2 : z ≤ 16777216) :
    int_to_float z = z := by
  unfold int_to_float
  by_cases hz : z < 0
  · by_cases he : z = -16777216
    · subst he
      decide
    · have ha : -z < 16777216 := by omega
      simp [hz, ha]
  · by_cases he : z = 16777216
    · subst he
      decide
    · have ha : z < 16777216 := by omega
      simp [hz, ha]

/-- C28: the argument checks of `magma_sgeqrs_gpu`. The value of `info` is `-i` for the
position `i` of the first argument failing its check, in the order `m < 0` (-1),
`n < 0` or `m < n` (-2), `nrhs < 0` (-3), `lda < max(1,m)` (-5), `ldc < max(1,m)` (-8),
`lwork < lwkopt` with `lwork ≠ -1` (-10); it is zero exactly when none of the six holds;
and when it is not zero the routine returns with this `info` and without any call
issued, whatever the fuel. Here `lwkopt` is the `int` of line 105; it is the product
`(m-n+nb+2*nrhs)*nb` whenever the product is in the range of an `int`. It is not for
`sample_overflow` with block size 32: the product is 3200001088, `lwkopt` is
-1094966208, and `LWORK = 0` and `LWORK = 1`, both below the product and the first
below the documented minimum, are accepted with `info = 0`. -/
theorem sgeqrs_validation (get_nb : Int → Int) (sormqr_info : Int) (fuel : Nat)
    (x : SgeqrsArgs) :
    (x.m < 0 → sgeqrs_info (get_nb x.m) x = -1) ∧
    (¬ x.m < 0 → (x.n < 0 ∨ x.m < x.n) → sgeqrs_info (get_nb x.m) x = -2) ∧
    (¬ x.m < 0 → ¬ (x.n < 0 ∨ x.m < x.n) → x.nrhs < 0 → sgeqrs_info (get_nb x.m) x = -3) ∧
    (¬ x.m < 0 → ¬ (x.n < 0 ∨ x.m < x.n) → ¬ x.nrhs < 0 → x.lda < max 1 x.m →
      sgeqrs_info (get_nb x.m) x = -5) ∧
    (¬ x.m < 0 → ¬ (x.n < 0 ∨ x.m < x.n) → ¬ x.nrhs < 0 → ¬ x.lda < max 1 x.m →
      x.ldc < max 1 x.m → sgeqrs_info (get_nb x.m) x = -8) ∧
    (¬ x.m < 0 → ¬ (x.n < 0 ∨ x.m < x.n) → ¬ x.nrhs < 0 → ¬ x.lda < max 1 x.m →
      ¬ x.ldc < max 1 x.m →
      x.lwork < sgeqrs_lwkopt (get_nb x.m) x → x.lwork ≠ -1 →
      sgeqrs_info (get_nb x.m) x = -10) ∧
    (sgeqrs_info (get_nb x.m) x = 0 ↔
      ¬ x.m < 0 ∧ ¬ (x.n < 0 ∨ x.m < x.n) ∧ ¬ x.nrhs < 0 ∧ ¬ x.lda < max 1 x.m ∧
      ¬ x.ldc < max 1 x.m ∧
      ¬ (x.lwork < sgeqrs_lwkopt (get_nb x.m) x ∧ x.lwork ≠ -1)) ∧
    (sgeqrs_info (get_nb x.m) x ≠ 0 →
      ∃ out, magma_sgeqrs_gpu get_nb sormqr_info fuel x = some out ∧
        out.info = sgeqrs_info (get_nb x.m) x ∧ out.calls = []) ∧
    (-2147483648 ≤ (x.m - x.n + get_nb x.m + 2 * x.nrhs) * get_nb x.m →
      (x.m - x.n + get_nb x.m + 2 * x.nrhs) * get_nb x.m < 2147483648 →
      sgeqrs_lwkopt (get_nb x.m) x = (x.m - x.n + get_nb x.m + 2 * x.nrhs) * get_nb x.m) ∧
    (sgeqrs_lwkopt_exact 32 sample_overflow = 3200001088 ∧
      sgeqrs_lwkopt 32 sample_overflow = -1094966208 ∧
      ¬ sgeqrs_documented sample_overflow ∧
      sgeqrs_info 32 sample_overflow = 0 ∧
      sgeqrs_info 32 { sample_overflow with lwork := 1 } = 0 ∧
      magma_sgeqrs_gpu nb_32 sormqr_info fuel sample_overflow = some ⟨0, some 1, []⟩) := by
  refine ⟨?_, ?_, ?_, ?_, ?_, ?_, ?_, ?_, ?_, ?_⟩
  · intro h1
    simp [sgeqrs_info, h1]
  · intro h1 h2
    simp [sgeqrs_info, h1, h2]
  · intro h1 h2 h3
    simp [sgeqrs_info, h1, h2, h3]
  · intro h1 h2 h3 h4
    simp [sgeqrs_info, h1, h2, h3, h4]
  · intro h1 h2 h3 h4 h5
    simp [sgeqrs_info, h1, h2, h3, h4, h5]
  · intro h1 h2 h3 h4 h5 h6 h7
    simp [sgeqrs_info, h1, h2, h3, h4, h5, h6, h7]
  · simp only [sgeqrs_info]
    split_ifs <;> simp_all
    assumption
  · intro h
    refine ⟨⟨sgeqrs_info (get_nb x.m) x,
      some (int_to_float (sgeqrs_lwkopt (get_nb x.m) x)), []⟩, ?_, rfl, rfl⟩
    simp [magma_sgeqrs_gpu, h]
  · intro h1 h2
    exact int32_of_range _ h1 h2
  · have hi : sgeqrs_info (nb_32 100000000) sample_overflow = 0 := by decide
    refine ⟨by decide, by decide, by decide, by decide, by decide, ?_⟩
    simp [magma_sgeqrs_gpu, show sample_overflow.m = 100000000 from rfl, hi,
      show sample_overflow.n = 0 from rfl, show sample_overflow.lwork = 0 from rfl]

/-- C30: the workspace query. With `LWORK = -1` and valid `m`, `n`, `nrhs`, `lda`,
`ldc`, the routine returns, whatever the fuel, with `info = 0`, without any call issued,
so that `c` is not modified, and with `(float) lwkopt` stored in `work[0]`, for
`nb = magma_get_sgeqrf_nb(m)`. This is the product `(m - n + nb + 2*nrhs) * nb` when the
product has at most 24 bits. It is not for the query `sample_big_query` with block size
32: the product is 536871968 and `work[0]` holds 536871936, a workspace size with which
the same problem is rejected with `info = -10`. -/
theorem sgeqrs_workspace_query (get_nb : Int → Int) (sormqr_info : Int) (fuel : Nat)
    (x : SgeqrsArgs) (hq : x.lwork = -1) (hm : 0 ≤ x.m) (hn : 0 ≤ x.n) (hmn : x.n ≤ x.m)
    (hr : 0 ≤ x.nrhs) (hlda : max 1 x.m ≤ x.lda) (hldc : max 1 x.m ≤ x.ldc) :
    magma_sgeqrs_gpu get_nb sormqr_info fuel x
      = some ⟨0, some (int_to_float (sgeqrs_lwkopt (get_nb x.m) x)), []⟩ ∧
    (-16777216 ≤ (x.m - x.n + get_nb x.m + 2 * x.nrhs) * get_nb x.m →
      (x.m - x.n + get_nb x.m + 2 * x.nrhs) * get_nb x.m ≤ 16777216 →
      int_to_float (sgeqrs_lwkopt (get_nb x.m) x)
        = (x.m - x.n + get_nb x.m + 2 * x.nrhs) * get_nb x.m) ∧
    (sgeqrs_lwkopt_exact 32 sample_big_query = 536871968 ∧
      sgeqrs_lwkopt 32 sample_big_query = 536871968 ∧
      magma_sgeqrs_gpu nb_32 sormqr_info fuel sample_big_query
        = some ⟨0, some 536871936, []⟩ ∧
      sgeqrs_info 32 { sample_big_query with lwork := 536871936 } = -10) := by
  have hi : sgeqrs_info (get_nb x.m) x = 0 := by
    simp only [sgeqrs_info]
    rw [if_neg (by omega), if_neg (by omega), if_neg (by omega), if_neg (by omega),
      if_neg (by omega), if_neg (fun h => h.2 hq)]
  refine ⟨by simp [magma_sgeqrs_gpu, hi, hq], fun h1 h2 => ?_, by decide, by decide, ?_,
    by decide⟩
  · unfold sgeqrs_lwkopt
    rw [int32_of_range _ (by omega) (by omega)]
    exact int_to_float_small _ h1 h2
  · have hi2 : sgeqrs_info (nb_32 16777217) sample_big_query = 0 := by decide
    have hw : int_to_float (sgeqrs_lwkopt (nb_32 16777217) sample_big_query) = 536871936 := by
      decide
    simp [magma_sgeqrs_gpu, show sample_big_query.m = 16777217 from rfl, hi2, hw,
      show sample_big_query.lwork = -1 from rfl]

/-- The workspace query `sample_query` with block size 32: `work[0] = 37 * 32 = 1184`. -/
theorem sgeqrs_workspace_query_witness :
    magma_sgeqrs_gpu nb_32 0 0 sample_query
      = some ⟨0, some (int_to_float (sgeqrs_lwkopt (nb_32 sample_query.m) sample_query)), []⟩ ∧
    (-16777216 ≤ (sample_query.m - sample_query.n + nb_32 sample_query.m
        + 2 * sample_query.nrhs) * nb_32 sample_query.m →
      (sample_query.m - sample_query.n + nb_32 sample_query.m
        + 2 * sample_query.nrhs) * nb_32 sample_query.m ≤ 16777216 →
      int_to_float (sgeqrs_lwkopt (nb_32 sample_query.m) sample_query)
        = (sample_query.m - sample_query.n + nb_32 sample_query.m
            + 2 * sample_query.nrhs) * nb_32 sample_query.m) ∧
    (sgeqrs_lwkopt_exact 32 sample_big_query = 536871968 ∧
      sgeqrs_lwkopt 32 sample_big_query = 536871968 ∧
      magma_sgeqrs_gpu nb_32 0 0 sample_big_query = some ⟨0, some 536871936, []⟩ ∧
      sgeqrs_info 32 { sample_big_query with lwork := 536871936 } = -10) :=
  sgeqrs_workspace_query nb_32 0 0 sample_query rfl (by decide) (by decide) (by decide)
    (by decide) (by decide) (by decide)

/-- C29: the documented domain is not accepted. `sample_min_lwork` satisfies every
documented condition with `LWORK = max(1, NRHS)` and is rejected with `info = -10` for
any block size of at least one whose product `(nb + 3) * nb` of line 105 is in the range
of an `int`; `sample_empty` satisfies them with `LDA = LDC = M = 0` and is rejected with
`info = -5`. -/
theorem sgeqrs_rejects_documented (get_nb : Int → Int) (sormqr_info : Int) (fuel : Nat)
    (hnb : 1 ≤ get_nb 2) (hov : (get_nb 2 + 3) * get_nb 2 < 2147483648) :
    sgeqrs_documented sample_min_lwork ∧
    (magma_sgeqrs_gpu get_nb sormqr_info fuel sample_min_lwork).map SgeqrsOut.info
      = some (-10) ∧
    sgeqrs_documented sample_empty ∧
    (magma_sgeqrs_gpu get_nb sormqr_info fuel sample_empty).map SgeqrsOut.info
      = some (-5) := by
  have hl : (1 : Int) < (get_nb 2 + 3) * get_nb 2 := by nlinarith
  have he : sgeqrs_lwkopt (get_nb 2) sample_min_lwork = (get_nb 2 + 3) * get_nb 2 := by
    simp only [sgeqrs_lwkopt, sample_min_lwork]
    rw [show (2 - 1 + get_nb 2 + 2 * 1 : Int) = get_nb 2 + 3 by ring]
    exact int32_of_range _ (by omega) hov
  have h1 : sgeqrs_info (get_nb 2) sample_min_lwork = -10 := by
    simp only [sgeqrs_info, he]
    simp only [sample_min_lwork]
    rw [if_neg (by decide), if_neg (by decide), if_neg (by decide), if_neg (by decide),
      if_neg (by decide), if_pos ⟨hl, by decide⟩]
  have h2 : sgeqrs_info (get_nb 0) sample_empty = -5 := by
    simp [sgeqrs_info, sample_empty]
  refine ⟨by decide, ?_, by decide, ?_⟩
  · simp [magma_sgeqrs_gpu, show sample_min_lwork.m = 2 from rfl, h1]
  · simp [magma_sgeqrs_gpu, show sample_empty.m = 0 from rfl, h2]

/-- The two rejections with block size 32. -/
theorem sgeqrs_rejects_documented_witness :
    sgeqrs_documented sample_min_lwork ∧
    (magma_sgeqrs_gpu nb_32 0 0 sample_min_lwork).map SgeqrsOut.info = some (-10) ∧
    sgeqrs_documented sample_empty ∧
    (magma_sgeqrs_gpu nb_32 0 0 sample_empty).map SgeqrsOut.info = some (-5) :=
  sgeqrs_rejects_documented nb_32 0 0 (by decide) (by decide)

end Sgeqrs

/-! ## Depth of the recursion -/

section Depth
variable {K : Type} [Field K] [DecidableEq K]

theorem depth_succ_base (stop_nb : magma_side_t → Int → Int → Int) (fuel : Nat)
    (a s : TrsmArgs K) (hlev : trsm_level stop_nb a = Step.base s) :
    trsm_depth stop_nb (fuel + 1) a = some 0 := by
  simp only [trsm_depth, hlev]

theorem depth_succ_split (stop_nb : magma_side_t → Int → Int → Int) (fuel : Nat)
    (a a1 a2 : TrsmArgs K) (g : GemmArgs K) (d1 d2 : Nat)
    (hlev : trsm_level stop_nb a = Step.split a1 g a2)
    (h1 : trsm_depth stop_nb fuel a1 = some d1)
    (h2 : trsm_depth stop_nb fuel a2 = some d2) :
    trsm_depth stop_nb (fuel + 1) a = some (max d1 d2 + 1) := by
  simp only [trsm_depth, hlev, h1, h2]

/-- With a threshold of at least one, any fuel above the governing dimension makes the
depth defined. -/
theorem depth_returns (stop_nb : magma_side_t → Int → Int → Int)
    (hstop : ∀ s m n, 1 ≤ stop_nb s m n) (a : TrsmArgs K)
    (hs : a.side = MagmaLeft ∨ a.side = MagmaRight)
    (hu : a.uplo = MagmaLower ∨ a.uplo = MagmaUpper)
    (fuel : Nat) (hf : (max_nrowA a).toNat < fuel) :
    ∃ D, trsm_depth stop_nb fuel a = some D := by
  induction fuel generalizing a with
  | zero => omega
  | succ f ih =>
    by_cases hb : max_nrowA a ≤ stop_nb a.side a.max_m a.max_n
    · exact ⟨_, depth_succ_base stop_nb f a a (level_base stop_nb a hb)⟩
    · obtain ⟨a1, g, a2, hlev⟩ := level_split_exists stop_nb a hs hu hb
      obtain ⟨hs1, hs2, hu1, hu2, -⟩ := level_split_props stop_nb a a1 a2 g hs hu hlev
      obtain ⟨d1, d1', d2, d2'⟩ := level_split_dims stop_nb hstop a a1 a2 g hs hu hlev
      obtain ⟨D1, hD1⟩ := ih a1 (hs1 ▸ hs) (hu1 ▸ hu) (by omega)
      obtain ⟨D2, hD2⟩ := ih a2 (hs2 ▸ hs) (hu2 ▸ hu) (by omega)
      exact ⟨_, depth_succ_split stop_nb f a a1 a2 g D1 D2 hlev hD1 hD2⟩

/-- Up to 4096 both parts of a split fit in half of the next power of two. -/
theorem nb_halves (k : Nat) (hk : k < 12) (d : Int) (h2 : 2 ≤ d) (hd : d ≤ 2 ^ (k + 1)) :
    magma_get_ztrsm_vbatched_nb d ≤ 2 ^ k ∧ d - magma_get_ztrsm_vbatched_nb d ≤ 2 ^ k := by
  unfold magma_get_ztrsm_vbatched_nb
  interval_cases k <;> norm_num at hd ⊢ <;> omega

/-- Up to `2 ^ k` with `k ≤ 12` the depth is at most `k`. -/
theorem depth_le_aux (stop_nb : magma_side_t → Int → Int → Int)
    (hstop : ∀ s m n, 1 ≤ stop_nb s m n) (k : Nat) (hk : k ≤ 12) (a : TrsmArgs K)
    (hs : a.side = MagmaLeft ∨ a.side = MagmaRight)
    (hu : a.uplo = MagmaLower ∨ a.uplo = MagmaUpper)
    (hd : max_nrowA a ≤ 2 ^ k) (fuel : Nat) (D : Nat)
    (hD : trsm_depth stop_nb fuel a = some D) : D ≤ k := by
  induction k generalizing a fuel D with
  | zero =>
    cases fuel with
    | zero => simp [trsm_depth] at hD
    | succ f =>
      have h1 := hstop a.side a.max_m a.max_n
      have hb : max_nrowA a ≤ stop_nb a.side a.max_m a.max_n := by
        simp only [pow_zero] at hd
        omega
      rw [depth_succ_base stop_nb f a a (level_base stop_nb a hb)] at hD
      cases hD
      exact le_refl 0
  | succ j ih =>
    cases fuel with
    | zero => simp [trsm_depth] at hD
    | succ f =>
      by_cases hb : max_nrowA a ≤ stop_nb a.side a.max_m a.max_n
      · rw [depth_succ_base stop_nb f a a (level_base stop_nb a hb)] at hD
        cases hD
        exact Nat.zero_le _
      · obtain ⟨a1, g, a2, hlev⟩ := level_split_exists stop_nb a hs hu hb
        obtain ⟨hs1, hs2, hu1, hu2, -, -, -, -, hsum, hor, -⟩ :=
          level_split_props stop_nb a a1 a2 g hs hu hlev
        have h1 := hstop a.side a.max_m a.max_n
        obtain ⟨hn1, hn2⟩ := nb_halves j (by omega) (max_nrowA a) (by omega) hd
        simp only [trsm_depth, hlev] at hD
        cases h1 : trsm_depth stop_nb f a1 with
        | none => simp [h1] at hD
        | some D1 =>
          cases h2 : trsm_depth stop_nb f a2 with
          | none => simp [h1, h2] at hD
          | some D2 =>
            simp only [h1, h2, Option.some.injEq] at hD
            have e1 := ih (by omega) a1 (hs1 ▸ hs) (hu1 ▸ hu) (by omega) f D1 h1
            have e2 := ih (by omega) a2 (hs2 ▸ hs) (hu2 ▸ hu) (by omega) f D2 h2
            omega

/-- With a threshold of at most 2048, a governing dimension above `2048 * (j + 1)` gives a
depth of at least `j`. -/
theorem depth_ge_aux (stop_nb : magma_side_t → Int → Int → Int)
    (hcap : ∀ s m n, stop_nb s m n ≤ 2048) (j : Nat) (a : TrsmArgs K)
    (hs : a.side = MagmaLeft ∨ a.side = MagmaRight)
    (hu : a.uplo = MagmaLower ∨ a.uplo = MagmaUpper)
    (hd : 2048 * ((j : Int) + 1) < max_nrowA a) (fuel : Nat) (D : Nat)
    (hD : trsm_depth stop_nb fuel a = some D) : j ≤ D := by
  induction j generalizing a fuel D with
  | zero => exact Nat.zero_le _
  | succ i ih =>
    cases fuel with
    | zero => simp [trsm_depth] at hD
    | succ f =>
      have h1 := hcap a.side a.max_m a.max_n
      push_cast at hd
      have hb : ¬ max_nrowA a ≤ stop_nb a.side a.max_m a.max_n := by omega
      obtain ⟨a1, g, a2, hlev⟩ := level_split_exists stop_nb a hs hu hb
      obtain ⟨hs1, hs2, hu1, hu2, -, -, -, -, hsum, hor, -⟩ :=
        level_split_props stop_nb a a1 a2 g hs hu hlev
      have hnb : magma_get_ztrsm_vbatched_nb (max_nrowA a) = 2048 := by
        unfold magma_get_ztrsm_vbatched_nb
        omega
      simp only [trsm_depth, hlev] at hD
      cases h1 : trsm_depth stop_nb f a1 with
      | none => simp [h1] at hD
      | some D1 =>
        cases h2 : trsm_depth stop_nb f a2 with
        | none => simp [h1, h2] at hD
        | some D2 =>
          simp only [h1, h2, Option.some.injEq] at hD
          rcases hor with h | h
          · have e2 := ih a2 (hs2 ▸ hs) (hu2 ▸ hu) (by omega) f D2 h2
            omega
          · have e1 := ih a1 (hs1 ▸ hs) (hu1 ▸ hu) (by omega) f D1 h1
            omega

/-- The depth of the recursion tree under a threshold policy of at least one, for every
shape. For a governing dimension of at most `2 ^ k` with `k ≤ 12`, that
is up to 4096, the depth is at most `k`, the base-two logarithm rounded up. Above 4096
the split size stays 2048 and the depth grows with the dimension: with a threshold of at most 2048 a
governing dimension above `2048 * (j + 1)` gives a depth of at least `j`, which grows
linearly with the dimension. -/
theorem depth_bounds (stop_nb : magma_side_t → Int → Int → Int)
    (hstop : ∀ s m n, 1 ≤ stop_nb s m n) (a : TrsmArgs K)
    (hs : a.side = MagmaLeft ∨ a.side = MagmaRight)
    (hu : a.uplo = MagmaLower ∨ a.uplo = MagmaUpper)
    (fuel : Nat) (hf : (max_nrowA a).toNat < fuel) :
    ∃ D, trsm_depth stop_nb fuel a = some D ∧
      (∀ k : Nat, k ≤ 12 → max_nrowA a ≤ 2 ^ k → D ≤ k) ∧
      ((∀ s m n, stop_nb s m n ≤ 2048) →
        ∀ j : Nat, 2048 * ((j : Int) + 1) < max_nrowA a → j ≤ D) := by
  obtain ⟨D, hD⟩ := depth_returns stop_nb hstop a hs hu fuel hf
  exact ⟨D, hD, fun k hk hd => depth_le_aux stop_nb hstop k hk a hs hu hd fuel D hD,
    fun hcap j hd => depth_ge_aux stop_nb hcap j a hs hu hd fuel D hD⟩

/-- The depth of the sample call `sample_conj`, of governing dimension 3, is two. -/
theorem depth_bounds_witness :
    ∃ D, trsm_depth stop_one 4 sample_conj = some D ∧
      (∀ k : Nat, k ≤ 12 → max_nrowA sample_conj ≤ 2 ^ k → D ≤ k) ∧
      ((∀ s m n, stop_one s m n ≤ 2048) →
        ∀ j : Nat, 2048 * ((j : Int) + 1) < max_nrowA sample_conj → j ≤ D) :=
  depth_bounds stop_one (fun _ _ _ => le_refl 1) sample_conj (Or.inl rfl) (Or.inl rfl) 4
    (by decide)

end Depth

/-! ## Batches of problems of different sizes -/

section Batch

variable {K : Type}

theorem frame_ok_empty (dB : Nat) (Bi Bj km kn : Int) (mem mem1 : Mem K)
    (h : km ≤ 0 ∨ kn ≤ 0) (F : frame_ok dB Bi Bj km kn mem mem1) : mem1 = mem :=
  funext fun p => funext fun r => funext fun c => F p r c (by omega)

/-- The block of problem `q` is the same whether the problem is part of the batch or
alone. -/
theorem restrict_single (q : Nat) (a : TrsmArgs K) (hBi : 0 ≤ a.Bi) (hBj : 0 ≤ a.Bj)
    (hm : size_at a.m q ≤ a.max_m) (hn : size_at a.n q ≤ a.max_n) :
    (restrict_trsm 0 (single_problem q a)).max_m = (restrict_trsm q a).max_m ∧
    (restrict_trsm 0 (single_problem q a)).max_n = (restrict_trsm q a).max_n := by
  simp only [restrict_trsm, single_problem, size_at, clip, List.getD_cons_zero] at hm hn ⊢
  omega

theorem clip_nonneg (k r : Int) : 0 ≤ clip k r := by
  unfold clip
  omega

theorem clip_eq_left (k r : Int) (h0 : 0 ≤ k) (h : k ≤ r) : clip k r = k := by
  unfold clip
  omega

theorem Ico_empty_of_le (k : Int) (h : k ≤ 0) : Finset.Ico (0 : Int) k = ∅ :=
  Finset.Ico_eq_empty (by omega)

variable [Field K]

/-- A triangular system from the left with invertible diagonal has one solution. -/
theorem left_eqs_unique (T : Int → Int → K) (alpha : K) (dB : Nat) (Bi Bj km kn : Int)
    (mem x y : Mem K)
    (hT : (∀ i l, i < l → T i l = 0) ∨ (∀ i l, l < i → T i l = 0))
    (hd : ∀ i, 0 ≤ i → i < km → T i i ≠ 0)
    (Ex : left_eqs T alpha dB Bi Bj km kn mem x)
    (Ey : left_eqs T alpha dB Bi Bj km kn mem y) :
    ∀ i j, 0 ≤ i → i < km → 0 ≤ j → j < kn →
      x dB (Bi + i) (Bj + j) = y dB (Bi + i) (Bj + j) := by
  intro i j hi0 hi hj0 hj
  have h := vec_unique T
    (fun l => x dB (Bi + l) (Bj + j) - y dB (Bi + l) (Bj + j)) km hT hd ?_ i hi0 hi
  · exact sub_eq_zero.mp h
  · intro r hr0 hr
    have e1 := Ex r j hr0 hr hj0 hj
    have e2 := Ey r j hr0 hr hj0 hj
    simp only [mul_sub, Finset.sum_sub_distrib]
    rw [e1, e2]
    ring

/-- A triangular system from the right with invertible diagonal has one solution. -/
theorem right_eqs_unique (T : Int → Int → K) (alpha : K) (dB : Nat) (Bi Bj km kn : Int)
    (mem x y : Mem K)
    (hT : (∀ i l, i < l → T i l = 0) ∨ (∀ i l, l < i → T i l = 0))
    (hd : ∀ i, 0 ≤ i → i < kn → T i i ≠ 0)
    (Ex : right_eqs T alpha dB Bi Bj km kn mem x)
    (Ey : right_eqs T alpha dB Bi Bj km kn mem y) :
    ∀ i j, 0 ≤ i → i < km → 0 ≤ j → j < kn →
      x dB (Bi + i) (Bj + j) = y dB (Bi + i) (Bj + j) := by
  intro i j hi0 hi hj0 hj
  have h := vec_unique (fun a b => T b a)
    (fun l => x dB (Bi + i) (Bj + l) - y dB (Bi + i) (Bj + l)) kn
    (hT.symm.imp (fun h a b hab => h b a hab) (fun h a b hab => h b a hab)) hd ?_
    j hj0 hj
  · exact sub_eq_zero.mp h
  · intro c hc0 hc
    have e1 := Ex i c hi0 hi hc0 hc
    have e2 := Ey i c hi0 hi hc0 hc
    simp only [mul_sub, Finset.sum_sub_distrib]
    have e0 : ∀ z : Mem K, ∑ l in Finset.Ico (0 : Int) kn, T l c * z dB (Bi + i) (Bj + l)
        = ∑ l in Finset.Ico (0 : Int) kn, z dB (Bi + i) (Bj + l) * T l c :=
      fun z => Finset.sum_congr rfl (fun l _ => mul_comm _ _)
    rw [e0 x, e0 y, e1, e2]
    ring

theorem level_aligned [DecidableEq K] (stop_nb : magma_side_t → Int → Int → Int)
    (a a1 a2 : TrsmArgs K) (g : GemmArgs K)
    (hs : a.side = MagmaLeft ∨ a.side = MagmaRight)
    (hu : a.uplo = MagmaLower ∨ a.uplo = MagmaUpper)
    (hlev : trsm_level stop_nb a = Step.split a1 g a2) (hal : aligned a) :
    aligned a1 ∧ aligned a2 := by
  obtain ⟨side, uplo, transA, diag, m, n, alpha, dA, Ai, Aj, ldda, dB, Bi, Bj, lddb,
    max_m, max_n, spec_m, spec_n, batchCount, queue⟩ := a
  simp only at hs hu
  rcases hs with rfl | rfl <;> rcases hu with rfl | rfl <;> cases transA <;>
    (simp [trsm_level, trsm_shape] at hlev
     split_ifs at hlev
     cases hlev
     simp [aligned] at hal ⊢
     omega)

theorem level_diag_var [DecidableEq K] (stop_nb : magma_side_t → Int → Int → Int) (q : Nat)
    (a a1 a2 : TrsmArgs K) (g : GemmArgs K)
    (hs : a.side = MagmaLeft ∨ a.side = MagmaRight)
    (hu : a.uplo = MagmaLower ∨ a.uplo = MagmaUpper)
    (hlev : trsm_level stop_nb a = Step.split a1 g a2)
    (hd1 : 0 ≤ max_nrowA a1) (hd2 : 0 ≤ max_nrowA a2)
    (mem : Mem K) (hdiag : diag_invertible (restrict_trsm q a) mem) :
    diag_invertible (restrict_trsm q a1) mem ∧ diag_invertible (restrict_trsm q a2) mem := by
  obtain ⟨side, uplo, transA, diag, m, n, alpha, dA, Ai, Aj, ldda, dB, Bi, Bj, lddb,
    max_m, max_n, spec_m, spec_n, batchCount, queue⟩ := a
  simp only at hs hu
  rcases hs with rfl | rfl <;> rcases hu with rfl | rfl <;> cases transA <;>
    (simp [trsm_level, trsm_shape] at hlev
     split_ifs at hlev
     cases hlev
     simp only [max_nrowA, if_true, if_false, reduceCtorEq] at hd1 hd2
     simp only [diag_invertible, max_nrowA, restrict_trsm, clip, if_true, if_false,
       reduceCtorEq] at hdiag ⊢
     constructor <;>
       (intro hd i hi0 hi
        first
        | exact hdiag hd i hi0 (by omega)
        | (simp only [add_assoc]
           exact hdiag hd _ (by omega) (by omega))))

variable [StarRing K]

/-- A GEMM update on an empty block, or with an empty inner dimension and `beta = 1`,
changes nothing. -/
theorem gemm_empty (g : GemmArgs K) (al : K) (mem mem2 : Mem K)
    (Hg : magmablas_zgemm_vbatched_core g mem = some mem2) (hal : g.alpha = some al)
    (h : g.max_m ≤ 0 ∨ g.max_n ≤ 0 ∨ (g.max_k ≤ 0 ∧ g.beta = 1)) : mem2 = mem := by
  simp only [magmablas_zgemm_vbatched_core, hal, Option.some.injEq] at Hg
  subst Hg
  funext p r c
  unfold gemm_update
  split_ifs with hc
  · rcases h with h | h | ⟨h, hb⟩
    · omega
    · omega
    · rw [Ico_empty_of_le _ h, Finset.sum_empty, hb]
      ring
  · rfl

/-- The solve relation only reads the mode flags, the scalar, the buffers, the offsets
and the two dimensions. -/
theorem trsm_solved_congr (a b : TrsmArgs K) (mem mem1 : Mem K)
    (h1 : a.side = b.side) (h2 : a.uplo = b.uplo) (h3 : a.transA = b.transA)
    (h4 : a.diag = b.diag) (h5 : a.alpha = b.alpha) (h6 : a.dA_array = b.dA_array)
    (h7 : a.Ai = b.Ai) (h8 : a.Aj = b.Aj) (h9 : a.dB_array = b.dB_array)
    (h10 : a.Bi = b.Bi) (h11 : a.Bj = b.Bj) (h12 : a.max_m = b.max_m)
    (h13 : a.max_n = b.max_n) (H : trsm_solved a mem mem1) : trsm_solved b mem mem1 := by
  unfold trsm_solved at H ⊢
  rw [h1, h2, h3, h4, h5, h6, h7, h8, h9, h10, h11, h12, h13] at H
  exact H

/-- Two memories that both stand in the solve relation to the same memory are equal. -/
theorem solved_unique (a : TrsmArgs K) (mem x y : Mem K)
    (hs : a.side = MagmaLeft ∨ a.side = MagmaRight)
    (hu : a.uplo = MagmaLower ∨ a.uplo = MagmaUpper)
    (hdiag : diag_invertible a mem)
    (Hx : trsm_solved a mem x) (Hy : trsm_solved a mem y) : x = y := by
  have hT := op_tri_triangular a.transA a.uplo a.diag (blk (mem a.dA_array) a.Ai a.Aj) hu
  funext p r c
  by_cases hin : p = a.dB_array ∧ a.Bi ≤ r ∧ r < a.Bi + a.max_m ∧ a.Bj ≤ c ∧ c < a.Bj + a.max_n
  · obtain ⟨rfl, h1, h2, h3, h4⟩ := hin
    obtain ⟨i, rfl⟩ : ∃ i, r = a.Bi + i := ⟨r - a.Bi, by omega⟩
    obtain ⟨j, rfl⟩ : ∃ j, c = a.Bj + j := ⟨c - a.Bj, by omega⟩
    rcases hs with hside | hside
    · refine left_eqs_unique _ a.alpha a.dB_array a.Bi a.Bj a.max_m a.max_n mem x y hT
        (fun i hi0 hi => diag_invertible_op a mem hdiag i hi0 ?_) (Hx.2.1 hside) (Hy.2.1 hside)
        i j (by omega) (by omega) (by omega) (by omega)
      simp only [max_nrowA, hside, if_true]
      exact hi
    · refine right_eqs_unique _ a.alpha a.dB_array a.Bi a.Bj a.max_m a.max_n mem x y hT
        (fun i hi0 hi => diag_invertible_op a mem hdiag i hi0 ?_) (Hx.2.2 hside) (Hy.2.2 hside)
        i j (by omega) (by omega) (by omega) (by omega)
      simp only [max_nrowA, hside, if_false, reduceCtorEq]
      exact hi
  · rw [Hx.1 p r c hin, Hy.1 p r c hin]

/-- One level of the recursion on problem `q`, when the leading sub-block lies within
the problem. -/
theorem level_sound_fit [DecidableEq K] (stop_nb : magma_side_t → Int → Int → Int) (q : Nat)
    (a a1 a2 : TrsmArgs K) (g : GemmArgs K)
    (hs : a.side = MagmaLeft ∨ a.side = MagmaRight)
    (hu : a.uplo = MagmaLower ∨ a.uplo = MagmaUpper)
    (halpha : alpha_defined a) (hAB : a.dA_array ≠ a.dB_array) (hal : aligned a)
    (hlev : trsm_level stop_nb a = Step.split a1 g a2)
    (hd1 : 0 ≤ max_nrowA a1) (hd2 : 0 ≤ max_nrowA a2)
    (hfit : max (rec_offset a1) (rec_offset a2)
      ≤ (if a.side = MagmaLeft then size_at a.m q else size_at a.n q))
    (mem mem1 mem2 mem3 : Mem K)
    (H1 : trsm_solved (restrict_trsm q a1) mem mem1)
    (Hg : magmablas_zgemm_vbatched_core (restrict_gemm q g) mem1 = some mem2)
    (H3 : trsm_solved (restrict_trsm q a2) mem2 mem3) :
    trsm_solved (restrict_trsm q a) mem mem3 := by
  obtain ⟨side, uplo, transA, diag, m, n, alpha, dA, Ai, Aj, ldda, dB, Bi, Bj, lddb,
    max_m, max_n, spec_m, spec_n, batchCount, queue⟩ := a
  obtain ⟨hA, hL, hR⟩ := hal
  simp only at hs hu hAB hA hL hR
  subst hA
  rcases hs with rfl | rfl <;> rcases hu with rfl | rfl <;> cases transA <;>
    (simp [trsm_level, trsm_shape] at hlev
     split_ifs at hlev
     cases hlev
     simp only [max_nrowA, if_true, if_false, reduceCtorEq] at hd1 hd2
     simp only [rec_offset, if_true, if_false, reduceCtorEq] at hfit
     simp [alpha_defined, trsm_shape] at halpha
     first
     | (have hB := hL rfl
        subst hB)
     | (have hB := hR rfl
        subst hB)
     obtain ⟨F1, E1l, E1r⟩ := H1
     obtain ⟨F2, E2⟩ := gemm_spec _ _ _ _ Hg (by first | rfl | exact div_some _ halpha)
     obtain ⟨F3, E3l, E3r⟩ := H3
     simp only [restrict_trsm, restrict_gemm, if_true, if_false, reduceCtorEq, max_self]
       at F1 E1l E1r F2 E2 F3 E3l E3r
     simp (disch := omega) only [clip_eq_left] at F1 E1l E1r F2 E2 F3 E3l E3r
     have hA1 : mem1 dA = mem dA :=
       funext fun r => funext fun c => F1 dA r c (fun h => hAB h.1)
     have hA2 : mem2 dA = mem dA :=
       funext fun r => funext fun c =>
         (F2 dA r c (fun h => hAB h.1)).trans (congrFun (congrFun hA1 r) c)
     rw [hA2] at E3l E3r
     rw [hA1] at E2
     first
     | refine solved_of_blocks_left _ _ _ mem mem3 (by simp only [restrict_trsm, clip]; omega)
         rfl
         (left_leading_first _ _ _ _ _ _ _ _ _ _ _ hd1 (clip_nonneg _ _) mem mem1 mem2 mem3
           ?_ ?_ ?_ ?_ F1 (E1l trivial) F2 E2 F3 (E3l trivial))
     | refine solved_of_blocks_left _ _ _ mem mem3 (by simp only [restrict_trsm, clip]; omega)
         rfl
         (left_trailing_first _ _ _ _ _ halpha _ _ _ _ _ _ hd2 (clip_nonneg _ _)
           mem mem1 mem2 mem3 ?_ ?_ ?_ ?_ F1 (E1l trivial) F2 E2 F3 (E3l trivial))
     | refine solved_of_blocks_right _ _ _ mem mem3 (by simp only [restrict_trsm, clip]; omega)
         rfl
         (right_leading_first _ _ _ _ _ _ _ _ _ _ _ hd1 (clip_nonneg _ _) mem mem1 mem2 mem3
           ?_ ?_ ?_ ?_ F1 (E1r trivial) F2 E2 F3 (E3r trivial))
     | refine solved_of_blocks_right _ _ _ mem mem3 (by simp only [restrict_trsm, clip]; omega)
         rfl
         (right_trailing_first _ _ _ _ _ halpha _ _ _ _ _ _ hd2 (clip_nonneg _ _)
           mem mem1 mem2 mem3 ?_ ?_ ?_ ?_ F1 (E1r trivial) F2 E2 F3 (E3r trivial))
     all_goals
       intro i l hi0 hi hl0 hl
       first
       | exact op_tri_blk_shift _ _ _ _ _ _ _ _ _
       | rfl
       | (dsimp only [restrict_trsm]
          simp (disch := omega) only [op, tri_lower_of_lt, tri_lower_of_gt, tri_upper_of_lt,
            tri_upper_of_gt, blk, add_assoc, star_zero]))

/-- One level of the recursion on problem `q`, when the problem ends within the leading
sub-block: the trailing sub-block is empty, and the level does what the solve of the
leading sub-block does. -/
theorem level_sound_cut [DecidableEq K] (stop_nb : magma_side_t → Int → Int → Int) (q : Nat)
    (a a1 a2 : TrsmArgs K) (g : GemmArgs K)
    (hs : a.side = MagmaLeft ∨ a.side = MagmaRight)
    (hu : a.uplo = MagmaLower ∨ a.uplo = MagmaUpper)
    (halpha : alpha_defined a) (hal : aligned a)
    (hlev : trsm_level stop_nb a = Step.split a1 g a2)
    (hd1 : 0 ≤ max_nrowA a1) (hd2 : 0 ≤ max_nrowA a2)
    (hcut : ¬ max (rec_offset a1) (rec_offset a2)
      ≤ (if a.side = MagmaLeft then size_at a.m q else size_at a.n q))
    (mem mem1 mem2 mem3 : Mem K)
    (H1 : trsm_solved (restrict_trsm q a1) mem mem1)
    (Hg : magmablas_zgemm_vbatched_core (restrict_gemm q g) mem1 = some mem2)
    (H3 : trsm_solved (restrict_trsm q a2) mem2 mem3) :
    trsm_solved (restrict_trsm q a) mem mem3 := by
  obtain ⟨side, uplo, transA, diag, m, n, alpha, dA, Ai, Aj, ldda, dB, Bi, Bj, lddb,
    max_m, max_n, spec_m, spec_n, batchCount, queue⟩ := a
  obtain ⟨hA, hL, hR⟩ := hal
  simp only at hs hu hA hL hR
  subst hA
  rcases hs with rfl | rfl <;> rcases hu with rfl | rfl <;> cases transA <;>
    (simp [trsm_level, trsm_shape] at hlev
     split_ifs at hlev
     cases hlev
     simp only [max_nrowA, if_true, if_false, reduceCtorEq] at hd1 hd2
     simp only [rec_offset, if_true, if_false, reduceCtorEq] at hcut
     simp [alpha_defined, trsm_shape] at halpha
     first
     | (have hB := hL rfl
        subst hB)
     | (have hB := hR rfl
        subst hB)
     have h21 : mem2 = mem1 :=
       gemm_empty _ _ _ _ Hg (by first | rfl | exact div_some _ halpha)
         (by
           first
           | (left
              simp only [restrict_gemm, clip]
              omega)
           | (right
              left
              simp only [restrict_gemm, clip]
              omega)
           | (right
              right
              refine ⟨?_, rfl⟩
              simp only [restrict_gemm, clip, if_true, if_false, reduceCtorEq, max_self]
              omega))
     subst h21
     first
     | (have h32 : mem3 = mem2 :=
          frame_ok_empty _ _ _ _ _ _ _
            (by
              first
              | (left
                 simp only [restrict_trsm, clip]
                 omega)
              | (right
                 simp only [restrict_trsm, clip]
                 omega)) H3.1
        subst h32
        refine trsm_solved_congr _ _ mem _ ?_ ?_ ?_ ?_ ?_ ?_ ?_ ?_ ?_ ?_ ?_ ?_ ?_ H1
        all_goals
          first
          | rfl
          | (simp only [restrict_trsm, clip]
             omega))
     | (have h10 : mem2 = mem :=
          frame_ok_empty _ _ _ _ _ _ _
            (by
              first
              | (left
                 simp only [restrict_trsm, clip]
                 omega)
              | (right
                 simp only [restrict_trsm, clip]
                 omega)) H1.1
        subst h10
        refine trsm_solved_congr _ _ mem2 _ ?_ ?_ ?_ ?_ ?_ ?_ ?_ ?_ ?_ ?_ ?_ ?_ ?_ H3
        all_goals
          first
          | rfl
          | (simp only [restrict_trsm, clip]
             omega)))

/-- One level of the recursion is sound on every problem of the batch: if the first
recursive call solves its block of problem `q`, the GEMM update is applied to the
blocks of problem `q` and the second recursive call solves its block of problem `q`,
then the block of problem `q` is solved. -/
theorem level_sound_var [DecidableEq K] (stop_nb : magma_side_t → Int → Int → Int) (q : Nat)
    (a a1 a2 : TrsmArgs K) (g : GemmArgs K)
    (hs : a.side = MagmaLeft ∨ a.side = MagmaRight)
    (hu : a.uplo = MagmaLower ∨ a.uplo = MagmaUpper)
    (halpha : alpha_defined a) (hAB : a.dA_array ≠ a.dB_array) (hal : aligned a)
    (hlev : trsm_level stop_nb a = Step.split a1 g a2)
    (hd1 : 0 ≤ max_nrowA a1) (hd2 : 0 ≤ max_nrowA a2)
    (mem mem1 mem2 mem3 : Mem K)
    (H1 : trsm_solved (restrict_trsm q a1) mem mem1)
    (Hg : magmablas_zgemm_vbatched_core (restrict_gemm q g) mem1 = some mem2)
    (H3 : trsm_solved (restrict_trsm q a2) mem2 mem3) :
    trsm_solved (restrict_trsm q a) mem mem3 := by
  by_cases hfit : max (rec_offset a1) (rec_offset a2)
      ≤ (if a.side = MagmaLeft then size_at a.m q else size_at a.n q)
  · exact level_sound_fit stop_nb q a a1 a2 g hs hu halpha hAB hal hlev hd1 hd2 hfit
      mem mem1 mem2 mem3 H1 Hg H3
  · exact level_sound_cut stop_nb q a a1 a2 g hs hu halpha hal hlev hd1 hd2 hfit
      mem mem1 mem2 mem3 H1 Hg H3

theorem run_problem_append (small : Nat → TrsmArgs K → Mem K → Mem K) (q : Nat)
    (t1 t2 : List (Launch K)) (mem mem1 : Mem K)
    (h : run_problem small q t1 mem = some mem1) :
    run_problem small q (t1 ++ t2) mem = run_problem small q t2 mem1 := by
  induction t1 generalizing mem with
  | nil =>
    simp only [run_problem, Option.some.injEq] at h
    subst h
    rfl
  | cons l t ih =>
    cases l with
    | small s =>
      simp only [run_problem, List.cons_append] at h ⊢
      exact ih _ h
    | gemm g =>
      simp only [run_problem, List.cons_append] at h ⊢
      cases hg : magmablas_zgemm_vbatched_core (restrict_gemm q g) mem with
      | none => rw [hg] at h; cases h
      | some m2 =>
        rw [hg] at h
        exact ih _ h

/-- The recursion returns and solves problem `q` of the batch, by induction on the
fuel. -/
theorem trsm_correct_var [DecidableEq K] (stop_nb : magma_side_t → Int → Int → Int)
    (small : Nat → TrsmArgs K → Mem K → Mem K)
    (hstop : ∀ s m n, 1 ≤ stop_nb s m n) (hsmall : small_contract_var stop_nb small)
    (q : Nat) (a : TrsmArgs K) (mem : Mem K)
    (hs : a.side = MagmaLeft ∨ a.side = MagmaRight)
    (hu : a.uplo = MagmaLower ∨ a.uplo = MagmaUpper)
    (halpha : alpha_defined a) (hAB : a.dA_array ≠ a.dB_array) (hal : aligned a)
    (hdiag : diag_invertible (restrict_trsm q a) mem)
    (fuel : Nat) (hf : (max_nrowA a).toNat < fuel) :
    ∃ t mem1, magmablas_ztrsm_vbatched_max_nocheck stop_nb fuel a = some t ∧
      run_problem small q t mem = some mem1 ∧ trsm_solved (restrict_trsm q a) mem mem1 := by
  induction fuel generalizing a mem with
  | zero => omega
  | succ f ih =>
    by_cases hb : max_nrowA a ≤ stop_nb a.side a.max_m a.max_n
    · exact ⟨_, _, trsm_succ_base stop_nb f a a (level_base stop_nb a hb), rfl,
        hsmall q a mem hs hu hb hAB hdiag⟩
    · obtain ⟨a1, g, a2, hlev⟩ := level_split_exists stop_nb a hs hu hb
      obtain ⟨hs1, hs2, hu1, hu2, -⟩ := level_split_props stop_nb a a1 a2 g hs hu hlev
      obtain ⟨d1, d1', d2, d2'⟩ := level_split_dims stop_nb hstop a a1 a2 g hs hu hlev
      obtain ⟨hA1, hB1, hA2, hB2, hC, hal'⟩ := level_split_static stop_nb a a1 a2 g hs hu hlev
      obtain ⟨hal1, hal2, al, hg⟩ := hal' halpha
      obtain ⟨hag1, hag2⟩ := level_aligned stop_nb a a1 a2 g hs hu hlev hal
      obtain ⟨hdg1, hdg2⟩ :=
        level_diag_var stop_nb q a a1 a2 g hs hu hlev (by omega) (by omega) mem hdiag
      obtain ⟨t1, mem1, ht1, hr1, H1⟩ :=
        ih a1 mem (hs1 ▸ hs) (hu1 ▸ hu) hal1 (by rw [hA1, hB1]; exact hAB) hag1 hdg1
          (by omega)
      have hg' : (restrict_gemm q g).alpha = some al := hg
      have Hg : magmablas_zgemm_vbatched_core (restrict_gemm q g) mem1
          = some (gemm_update al (restrict_gemm q g) mem1) := by
        simp only [magmablas_zgemm_vbatched_core, hg']
      have hm1 : mem1 a.dA_array = mem a.dA_array :=
        funext fun r => funext fun c => H1.1 a.dA_array r c (fun h => hAB (h.1.trans hB1))
      have hm2 : gemm_update al (restrict_gemm q g) mem1 a.dA_array = mem a.dA_array := by
        rw [← hm1]
        exact funext fun r => funext fun c =>
          (gemm_spec (restrict_gemm q g) al mem1 _ Hg hg').1 a.dA_array r c
            (fun h => hAB (h.1.trans hC))
      obtain ⟨t2, mem3, ht2, hr2, H3⟩ :=
        ih a2 (gemm_update al (restrict_gemm q g) mem1) (hs2 ▸ hs) (hu2 ▸ hu) hal2
          (by rw [hA2, hB2]; exact hAB) hag2
          (diag_invertible_congr (restrict_trsm q a2) mem _ (by
            show gemm_update al (restrict_gemm q g) mem1 a2.dA_array = mem a2.dA_array
            rw [hA2]; exact hm2) hdg2) (by omega)
      refine ⟨_, mem3, trsm_succ_split stop_nb f a a1 a2 g t1 t2 hlev ht1 ht2, ?_,
        level_sound_var stop_nb q a a1 a2 g hs hu halpha hAB hal hlev (by omega) (by omega)
          mem mem1 _ mem3 H1 Hg H3⟩
      rw [run_problem_append small q t1 _ mem mem1 hr1]
      simp only [run_problem, Hg]
      exact hr2

/-- The solver `small_one_var` meets the contract of the small solver on batches of
problems of different sizes, for the threshold policy `stop_one`. -/
theorem small_one_var_contract [DecidableEq K] :
    small_contract_var stop_one (small_one_var : Nat → TrsmArgs K → Mem K → Mem K) := by
  intro q a mem hs hu hb hAB hdiag
  refine small_one_contract (restrict_trsm q a) mem hs hu ?_ hAB hdiag
  have h0 := clip_nonneg a.max_m (size_at a.m q - a.Bi)
  have h1 := clip_nonneg a.max_n (size_at a.n q - a.Bj)
  simp only [max_nrowA, restrict_trsm, stop_one, clip] at hb h0 h1 ⊢
  split_ifs at hb ⊢ <;> omega

/-- C22: a batch of problems of different sizes, solved together. Let the primitives
restrict each problem to its own `m[q]`, `n[q]`: the small solver meets its contract on
the restricted blocks and the GEMM update works on the restricted blocks. Then for every
problem `q` of a batch called with aligned, non-negative offsets and batch-wide maxima
`max_m ≥ m[q]`, `max_n ≥ n[q]` (valid side and uplo, defined scalars, invertible
diagonal, threshold at least one), the batch call and the call that solves problem `q`
alone with `batchCount = 1`, `max_m = m[q]`, `max_n = n[q]` both return, and, applied to
the matrices of problem `q`, they leave the same memory behind: the solution of the
`m[q] × n[q]` system in the block of `B`, and nothing else changed. -/
theorem batch_matches_single [DecidableEq K] (stop_nb : magma_side_t → Int → Int → Int)
    (small : Nat → TrsmArgs K → Mem K → Mem K)
    (hstop : ∀ s m n, 1 ≤ stop_nb s m n) (hsmall : small_contract_var stop_nb small)
    (q : Nat) (a : TrsmArgs K) (mem : Mem K)
    (hs : a.side = MagmaLeft ∨ a.side = MagmaRight)
    (hu : a.uplo = MagmaLower ∨ a.uplo = MagmaUpper)
    (halpha : alpha_defined a) (hAB : a.dA_array ≠ a.dB_array) (hal : aligned a)
    (hBi : 0 ≤ a.Bi) (hBj : 0 ≤ a.Bj)
    (hm : size_at a.m q ≤ a.max_m) (hn : size_at a.n q ≤ a.max_n)
    (hdiag : diag_invertible (restrict_trsm q a) mem)
    (fuel : Nat) (hf : (max_nrowA a).toNat < fuel) :
    ∃ t memb t1 mems,
      magmablas_ztrsm_vbatched_max_nocheck stop_nb fuel a = some t ∧
      run_problem small q t mem = some memb ∧
      magmablas_ztrsm_vbatched_max_nocheck stop_nb fuel (single_problem q a) = some t1 ∧
      run_problem small 0 t1 mem = some mems ∧
      memb = mems ∧ trsm_solved (restrict_trsm q a) mem memb := by
  obtain ⟨e1, e2⟩ := restrict_single q a hBi hBj hm hn
  have hdiag1 : diag_invertible (restrict_trsm 0 (single_problem q a)) mem := by
    intro hd i hi0 hi
    refine hdiag hd i hi0 ?_
    simp only [max_nrowA] at hi ⊢
    rw [e1, e2] at hi
    exact hi
  have hf1 : (max_nrowA (single_problem q a)).toNat < fuel := by
    simp only [max_nrowA, single_problem] at hf ⊢
    split_ifs at hf ⊢ <;> omega
  obtain ⟨t, memb, ht, hr, Hb⟩ :=
    trsm_correct_var stop_nb small hstop hsmall q a mem hs hu halpha hAB hal hdiag fuel hf
  obtain ⟨t1, mems, ht1, hr1, Hs⟩ :=
    trsm_correct_var stop_nb small hstop hsmall 0 (single_problem q a) mem hs hu halpha hAB
      hal hdiag1 fuel hf1
  refine ⟨t, memb, t1, mems, ht, hr, ht1, hr1, ?_, Hb⟩
  exact solved_unique (restrict_trsm q a) mem memb mems hs hu hdiag Hb
    (trsm_solved_congr (restrict_trsm 0 (single_problem q a)) _ mem mems rfl rfl rfl rfl rfl rfl
      rfl rfl rfl rfl rfl e1 e2 Hs)

/-- The third problem of `sample_batch`, of size `2 × 1`, solved within the batch of
batch-wide size `3 × 2` and alone. -/
theorem batch_matches_single_witness :
    ∃ t memb t1 mems,
      magmablas_ztrsm_vbatched_max_nocheck stop_one 4 sample_batch = some t ∧
      run_problem small_one_var 2 t sample_mem = some memb ∧
      magmablas_ztrsm_vbatched_max_nocheck stop_one 4 (single_problem 2 sample_batch)
        = some t1 ∧
      run_problem small_one_var 0 t1 sample_mem = some mems ∧
      memb = mems ∧ trsm_solved (restrict_trsm 2 sample_batch) sample_mem memb :=
  batch_matches_single stop_one small_one_var (fun _ _ _ => le_refl 1) small_one_var_contract
    2 sample_batch sample_mem (Or.inl rfl) (Or.inl rfl) (Or.inl (by decide)) (by decide)
    ⟨rfl, fun _ => rfl, fun _ => rfl⟩ (by decide) (by decide) (by decide) (by decide)
    (by
      intro _ i _ _
      simp [sample_mem, sample_batch, restrict_trsm, sample_conj, sample_args])
    4 (by decide)

end Batch

/-! ## Matrix Market type codes -/

section Mmio

theorem mm_writes_update (pos : Fin 4) (ch : Char) :
    mm_writes (fun t => Function.update t pos ch) pos ch := by
  intro t
  refine ⟨Function.update_same pos ch t, fun i hi => Function.update_noteq hi ch t⟩

/-- C32: the Matrix Market type code macros. Every setter writes the character of the
documented table at the documented position (position 0 `M`; position 1 `C` or `A`;
position 2 `R`, `C`, `P` or `I`; position 3 `G`, `H`, `S` or `K`) and leaves the three
other positions unchanged; afterwards the matching query (for position 1 both names of
it, sparse and coordinate, dense and array) answers true and the other queries on the
same position answer false. -/
theorem mm_set_then_query (t : MM_typecode) :
    (mm_writes mm_set_matrix 0 'M' ∧ mm_is_matrix (mm_set_matrix t) = true) ∧
    (mm_writes mm_set_coordinate 1 'C' ∧
      mm_queries_1 (mm_set_coordinate t) = [true, true, false, false]) ∧
    (mm_writes mm_set_sparse 1 'C' ∧
      mm_queries_1 (mm_set_sparse t) = [true, true, false, false]) ∧
    (mm_writes mm_set_array 1 'A' ∧
      mm_queries_1 (mm_set_array t) = [false, false, true, true]) ∧
    (mm_writes mm_set_dense 1 'A' ∧
      mm_queries_1 (mm_set_dense t) = [false, false, true, true]) ∧
    (mm_writes mm_set_complex 2 'C' ∧
      mm_queries_2 (mm_set_complex t) = [true, false, false, false]) ∧
    (mm_writes mm_set_real 2 'R' ∧
      mm_queries_2 (mm_set_real t) = [false, true, false, false]) ∧
    (mm_writes mm_set_pattern 2 'P' ∧
      mm_queries_2 (mm_set_pattern t) = [false, false, true, false]) ∧
    (mm_writes mm_set_integer 2 'I' ∧
      mm_queries_2 (mm_set_integer t) = [false, false, false, true]) ∧
    (mm_writes mm_set_symmetric 3 'S' ∧
      mm_queries_3 (mm_set_symmetric t) = [true, false, false, false]) ∧
    (mm_writes mm_set_general 3 'G' ∧
      mm_queries_3 (mm_set_general t) = [false, true, false, false]) ∧
    (mm_writes mm_set_skew 3 'K' ∧
      mm_queries_3 (mm_set_skew t) = [false, false, true, false]) ∧
    (mm_writes mm_set_hermitian 3 'H' ∧
      mm_queries_3 (mm_set_hermitian t) = [false, false, false, true]) := by
  refine ⟨⟨mm_writes_update 0 'M', ?_⟩, ⟨mm_writes_update 1 'C', ?_⟩,
    ⟨mm_writes_update 1 'C', ?_⟩, ⟨mm_writes_update 1 'A', ?_⟩, ⟨mm_writes_update 1 'A', ?_⟩,
    ⟨mm_writes_update 2 'C', ?_⟩, ⟨mm_writes_update 2 'R', ?_⟩, ⟨mm_writes_update 2 'P', ?_⟩,
    ⟨mm_writes_update 2 'I', ?_⟩, ⟨mm_writes_update 3 'S', ?_⟩, ⟨mm_writes_update 3 'G', ?_⟩,
    ⟨mm_writes_update 3 'K', ?_⟩, ⟨mm_writes_update 3 'H', ?_⟩⟩ <;>
  simp [mm_queries_1, mm_queries_2, mm_queries_3, mm_is_matrix, mm_is_sparse,
    mm_is_coordinate, mm_is_dense, mm_is_array, mm_is_complex, mm_is_real, mm_is_pattern,
    mm_is_integer, mm_is_symmetric, mm_is_general, mm_is_skew, mm_is_hermitian,
    mm_set_matrix, mm_set_coordinate, mm_set_sparse, mm_set_array, mm_set_dense,
    mm_set_complex, mm_set_real, mm_set_pattern, mm_set_integer, mm_set_symmetric,
    mm_set_general, mm_set_skew, mm_set_hermitian]

end Mmio

/-! ## The split size as a power of two, the scalars of the recursive calls -/

section Ladder
variable {K : Type} [Field K] [DecidableEq K]

theorem nb_values (d : Int) :
    magma_get_ztrsm_vbatched_nb d = 2 ^ 0 ∨ magma_get_ztrsm_vbatched_nb d = 2 ^ 1 ∨
    magma_get_ztrsm_vbatched_nb d = 2 ^ 2 ∨ magma_get_ztrsm_vbatched_nb d = 2 ^ 3 ∨
    magma_get_ztrsm_vbatched_nb d = 2 ^ 4 ∨ magma_get_ztrsm_vbatched_nb d = 2 ^ 5 ∨
    magma_get_ztrsm_vbatched_nb d = 2 ^ 6 ∨ magma_get_ztrsm_vbatched_nb d = 2 ^ 7 ∨
    magma_get_ztrsm_vbatched_nb d = 2 ^ 8 ∨ magma_get_ztrsm_vbatched_nb d = 2 ^ 9 ∨
    magma_get_ztrsm_vbatched_nb d = 2 ^ 10 ∨ magma_get_ztrsm_vbatched_nb d = 2 ^ 11 := by
  unfold magma_get_ztrsm_vbatched_nb
  norm_num
  omega

/-- C37: the split size as a power of two. For every `max_dim` from 2 to 4096 the split
size `nb` is a power of two with `max_dim / 2 ≤ nb < max_dim`, so the remainder
`max_dim - nb` is at most `nb`; for every `max_dim` above 4096 it is 2048 and the
remainder `max_dim - 2048` exceeds it. At a recursion level whose governing dimension is
above 4096 one recursive call therefore gets 2048 and the other one the governing
dimension less 2048. -/
theorem nb_power_of_two (stop_nb : magma_side_t → Int → Int → Int)
    (a a1 a2 : TrsmArgs K) (g : GemmArgs K)
    (hs : a.side = MagmaLeft ∨ a.side = MagmaRight)
    (hu : a.uplo = MagmaLower ∨ a.uplo = MagmaUpper)
    (hlev : trsm_level stop_nb a = Step.split a1 g a2) :
    (∀ max_dim : Int, 2 ≤ max_dim → max_dim ≤ 4096 →
      (∃ e : Nat, magma_get_ztrsm_vbatched_nb max_dim = 2 ^ e) ∧
      max_dim ≤ 2 * magma_get_ztrsm_vbatched_nb max_dim ∧
      magma_get_ztrsm_vbatched_nb max_dim < max_dim ∧
      max_dim - magma_get_ztrsm_vbatched_nb max_dim ≤ magma_get_ztrsm_vbatched_nb max_dim) ∧
    (∀ max_dim : Int, 4096 < max_dim →
      magma_get_ztrsm_vbatched_nb max_dim = 2048 ∧
      magma_get_ztrsm_vbatched_nb max_dim < max_dim - 2048) ∧
    (4096 < max_nrowA a →
      (max_nrowA a1 = 2048 ∧ max_nrowA a2 = max_nrowA a - 2048) ∨
      (max_nrowA a2 = 2048 ∧ max_nrowA a1 = max_nrowA a - 2048)) := by
  refine ⟨fun d h2 h4 => ⟨?_, ?_⟩, fun d h4 => ?_, fun h4 => ?_⟩
  · rcases nb_values d with h | h | h | h | h | h | h | h | h | h | h | h
    exacts [⟨0, h⟩, ⟨1, h⟩, ⟨2, h⟩, ⟨3, h⟩, ⟨4, h⟩, ⟨5, h⟩, ⟨6, h⟩, ⟨7, h⟩, ⟨8, h⟩, ⟨9, h⟩,
      ⟨10, h⟩, ⟨11, h⟩]
  · unfold magma_get_ztrsm_vbatched_nb
    omega
  · unfold magma_get_ztrsm_vbatched_nb
    omega
  · obtain ⟨-, -, -, -, -, -, -, -, hsum, hor, -⟩ :=
      level_split_props stop_nb a a1 a2 g hs hu hlev
    have hnb : magma_get_ztrsm_vbatched_nb (max_nrowA a) = 2048 := by
      unfold magma_get_ztrsm_vbatched_nb
      omega
    rw [hnb] at hor
    omega

/-- The split of a call of governing dimension 5000 under the threshold policy
`stop_one`: 2952 and 2048. -/
theorem nb_power_of_two_witness :
    ∃ a1 g a2, trsm_level stop_one (sample_size 5000) = Step.split a1 g a2 ∧
      ((∀ max_dim : Int, 2 ≤ max_dim → max_dim ≤ 4096 →
        (∃ e : Nat, magma_get_ztrsm_vbatched_nb max_dim = 2 ^ e) ∧
        max_dim ≤ 2 * magma_get_ztrsm_vbatched_nb max_dim ∧
        magma_get_ztrsm_vbatched_nb max_dim < max_dim ∧
        max_dim - magma_get_ztrsm_vbatched_nb max_dim
          ≤ magma_get_ztrsm_vbatched_nb max_dim) ∧
      (∀ max_dim : Int, 4096 < max_dim →
        magma_get_ztrsm_vbatched_nb max_dim = 2048 ∧
        magma_get_ztrsm_vbatched_nb max_dim < max_dim - 2048) ∧
      (4096 < max_nrowA (sample_size 5000) →
        (max_nrowA a1 = 2048 ∧ max_nrowA a2 = max_nrowA (sample_size 5000) - 2048) ∨
        (max_nrowA a2 = 2048 ∧ max_nrowA a1 = max_nrowA (sample_size 5000) - 2048))) :=
  ⟨_, _, _, rfl, nb_power_of_two stop_one (sample_size 5000) _ _ _ (Or.inl rfl) (Or.inl rfl)
    rfl⟩

/-- C35: the scalars of the two recursive calls. At every non-base level the shape is one
of the eight and the three calls are made; the first recursive call is invoked with the
caller's `alpha` whatever the shape, and the second one with `c_one` in the shapes 0, 3,
5 and 6 and with the caller's `alpha` again in the shapes 1, 2, 4 and 7. -/
theorem recursive_call_scalars (stop_nb : magma_side_t → Int → Int → Int) (a : TrsmArgs K)
    (hs : a.side = MagmaLeft ∨ a.side = MagmaRight)
    (hu : a.uplo = MagmaLower ∨ a.uplo = MagmaUpper)
    (hb : ¬ max_nrowA a ≤ stop_nb a.side a.max_m a.max_n) :
    ∃ a1 g a2, trsm_level stop_nb a = Step.split a1 g a2 ∧
      a1.alpha = a.alpha ∧
      (((trsm_shape a.side a.uplo a.transA = 0 ∨ trsm_shape a.side a.uplo a.transA = 3 ∨
          trsm_shape a.side a.uplo a.transA = 5 ∨ trsm_shape a.side a.uplo a.transA = 6) ∧
        a2.alpha = 1) ∨
       ((trsm_shape a.side a.uplo a.transA = 1 ∨ trsm_shape a.side a.uplo a.transA = 2 ∨
          trsm_shape a.side a.uplo a.transA = 4 ∨ trsm_shape a.side a.uplo a.transA = 7) ∧
        a2.alpha = a.alpha)) := by
  obtain ⟨a1, g, a2, hlev⟩ := level_split_exists stop_nb a hs hu hb
  refine ⟨a1, g, a2, hlev, ?_⟩
  obtain ⟨side, uplo, transA, diag, m, n, alpha, dA, Ai, Aj, ldda, dB, Bi, Bj, lddb,
    max_m, max_n, spec_m, spec_n, batchCount, queue⟩ := a
  simp only at hs hu
  rcases hs with rfl | rfl <;> rcases hu with rfl | rfl <;> cases transA <;>
    (simp [trsm_level, trsm_shape] at hlev
     split_ifs at hlev
     cases hlev
     simp [trsm_shape])

/-- The scalars of the two recursive calls of `sample_rnu` (shape 5, `alpha = 2`). -/
theorem recursive_call_scalars_witness :
    ∃ a1 g a2, trsm_level stop_one sample_rnu = Step.split a1 g a2 ∧
      a1.alpha = sample_rnu.alpha ∧
      (((trsm_shape sample_rnu.side sample_rnu.uplo sample_rnu.transA = 0 ∨
          trsm_shape sample_rnu.side sample_rnu.uplo sample_rnu.transA = 3 ∨
          trsm_shape sample_rnu.side sample_rnu.uplo sample_rnu.transA = 5 ∨
          trsm_shape sample_rnu.side sample_rnu.uplo sample_rnu.transA = 6) ∧
        a2.alpha = 1) ∨
       ((trsm_shape sample_rnu.side sample_rnu.uplo sample_rnu.transA = 1 ∨
          trsm_shape sample_rnu.side sample_rnu.uplo sample_rnu.transA = 2 ∨
          trsm_shape sample_rnu.side sample_rnu.uplo sample_rnu.transA = 4 ∨
          trsm_shape sample_rnu.side sample_rnu.uplo sample_rnu.transA = 7) ∧
        a2.alpha = sample_rnu.alpha)) :=
  recursive_call_scalars stop_one sample_rnu (Or.inr rfl) (Or.inr rfl) (by decide)

end Ladder

section Work

/-- C31: the quick return does not leave the optimal `LWORK` in `work[0]`. For the
`4 × 0` system `sample_quick`, whose workspace is large enough, the routine returns with
`info = 0`, without any call, and with `work[0] = 1`, while the optimal `LWORK` is
`(4 - 0 + nb + 2) * nb`, which is not 1 for any block size; nor is the `int` that
line 105 computes for it, which is the product whenever the product is in range. -/
theorem sgeqrs_quick_return_work (get_nb : Int → Int) (sormqr_info : Int) (fuel : Nat)
    (hlw : sgeqrs_lwkopt (get_nb 4) sample_quick ≤ 2000) :
    magma_sgeqrs_gpu get_nb sormqr_info fuel sample_quick = some ⟨0, some 1, []⟩ ∧
    sgeqrs_lwkopt (get_nb 4) sample_quick = int32 ((4 - 0 + get_nb 4 + 2 * 1) * get_nb 4) ∧
    (-2147483648 ≤ (4 - 0 + get_nb 4 + 2 * 1) * get_nb 4 →
      (4 - 0 + get_nb 4 + 2 * 1) * get_nb 4 < 2147483648 →
      sgeqrs_lwkopt (get_nb 4) sample_quick = (4 - 0 + get_nb 4 + 2 * 1) * get_nb 4) ∧
    (4 - 0 + get_nb 4 + 2 * 1) * get_nb 4 ≠ 1 ∧
    sgeqrs_lwkopt (get_nb 4) sample_quick ≠ 1 := by
  have hi : sgeqrs_info (get_nb 4) sample_quick = 0 := by
    simp only [sgeqrs_info]
    rw [if_neg (by decide), if_neg (by decide), if_neg (by decide), if_neg (by decide),
      if_neg (by decide), if_neg (fun h => absurd h.1 (not_lt.mpr hlw))]
  have hmod : (4 - 0 + get_nb 4 + 2 * 1) * get_nb 4 % 4 ≠ 1 := by
    obtain ⟨q, r, h, hr⟩ : ∃ q r : Int, get_nb 4 = 4 * q + r ∧
        (r = 0 ∨ r = 1 ∨ r = 2 ∨ r = 3) := ⟨get_nb 4 / 4, get_nb 4 % 4, by omega, by omega⟩
    have e : (4 - 0 + (4 * q + r) + 2 * 1) * (4 * q + r)
        = 4 * (4 * q * q + 2 * q * r + 6 * q) + (r + 6) * r := by ring
    rw [h, e]
    rcases hr with rfl | rfl | rfl | rfl <;> omega
  refine ⟨?_, rfl, fun h1 h2 => int32_of_range _ h1 h2, ?_, ?_⟩
  · simp [magma_sgeqrs_gpu, show sample_quick.m = 4 from rfl, hi,
      show sample_quick.n = 0 from rfl, show sample_quick.lwork = 2000 from rfl]
  · intro h
    rw [h] at hmod
    exact hmod (by decide)
  · intro h
    have h1 : int32 ((4 - 0 + get_nb 4 + 2 * 1) * get_nb 4) = 1 := h
    unfold int32 at h1
    omega

/-- The quick return with block size 32: `work[0] = 1`, optimal `LWORK = 1216`. -/
theorem sgeqrs_quick_return_work_witness :
    magma_sgeqrs_gpu nb_32 0 0 sample_quick = some ⟨0, some 1, []⟩ ∧
    sgeqrs_lwkopt (nb_32 4) sample_quick = int32 ((4 - 0 + nb_32 4 + 2 * 1) * nb_32 4) ∧
    (-2147483648 ≤ (4 - 0 + nb_32 4 + 2 * 1) * nb_32 4 →
      (4 - 0 + nb_32 4 + 2 * 1) * nb_32 4 < 2147483648 →
      sgeqrs_lwkopt (nb_32 4) sample_quick = (4 - 0 + nb_32 4 + 2 * 1) * nb_32 4) ∧
    (4 - 0 + nb_32 4 + 2 * 1) * nb_32 4 ≠ 1 ∧
    sgeqrs_lwkopt (nb_32 4) sample_quick ≠ 1 :=
  sgeqrs_quick_return_work nb_32 0 0 (by decide)

end Work

/-! ## Offsets of the recursive calls and of the update -/

section Offsets
variable {K : Type}

theorem diag_block_refl (a : TrsmArgs K) : diag_block a a := by
  simp [diag_block]

theorem diag_block_trans (a b c : TrsmArgs K) (hside : b.side = a.side)
    (h1 : diag_block a b) (h2 : diag_block b c) : diag_block a c := by
  obtain ⟨e1, e2, e3, e4, e5⟩ := h1
  obtain ⟨f1, f2, f3, f4, f5⟩ := h2
  rw [hside] at f2 f3
  refine ⟨by omega, fun h => ?_, fun h => ?_, by omega, by omega⟩
  · have := e2 h
    have := f2 h
    omega
  · have := e3 h
    have := f3 h
    omega

variable [Field K] [DecidableEq K]

theorem level_diag_block (stop_nb : magma_side_t → Int → Int → Int)
    (hstop : ∀ s m n, 1 ≤ stop_nb s m n)
    (a a1 a2 : TrsmArgs K) (g : GemmArgs K)
    (hs : a.side = MagmaLeft ∨ a.side = MagmaRight)
    (hu : a.uplo = MagmaLower ∨ a.uplo = MagmaUpper)
    (hlev : trsm_level stop_nb a = Step.split a1 g a2) :
    diag_block a a1 ∧ diag_block a a2 := by
  have hnb := level_split_not_base stop_nb a a1 a2 g hlev
  have h1 := hstop a.side a.max_m a.max_n
  have hp := nb_pos (max_nrowA a)
  have hl := nb_lt (max_nrowA a) (by omega)
  obtain ⟨side, uplo, transA, diag, m, n, alpha, dA, Ai, Aj, ldda, dB, Bi, Bj, lddb,
    max_m, max_n, spec_m, spec_n, batchCount, queue⟩ := a
  simp only at hs hu
  rcases hs with rfl | rfl <;> rcases hu with rfl | rfl <;> cases transA <;>
    (simp [trsm_level, trsm_shape] at hlev
     split_ifs at hlev
     cases hlev
     simp [diag_block, max_nrowA] at hp hl ⊢
     omega)

/-- Every small-solver launch of the whole recursion addresses a diagonal block of the
top-level call. -/
theorem trace_diag_block_aux (stop_nb : magma_side_t → Int → Int → Int)
    (hstop : ∀ s m n, 1 ≤ stop_nb s m n) (fuel : Nat)
    (a : TrsmArgs K) (hs : a.side = MagmaLeft ∨ a.side = MagmaRight)
    (hu : a.uplo = MagmaLower ∨ a.uplo = MagmaUpper) (t : List (Launch K))
    (h : magmablas_ztrsm_vbatched_max_nocheck stop_nb fuel a = some t) :
    ∀ l ∈ t, launch_diag_block a l := by
  induction fuel generalizing a t with
  | zero => simp [magmablas_ztrsm_vbatched_max_nocheck] at h
  | succ f ih =>
    cases hlev : trsm_level stop_nb a with
    | base s =>
      simp only [magmablas_ztrsm_vbatched_max_nocheck, hlev, Option.some.injEq] at h
      subst h
      intro l hl
      simp only [List.mem_singleton] at hl
      subst hl
      rw [level_base_eq stop_nb a s hlev]
      exact diag_block_refl a
    | split a1 g a2 =>
      obtain ⟨hs1, hs2, hu1, hu2, -⟩ := level_split_props stop_nb a a1 a2 g hs hu hlev
      obtain ⟨b1, b2⟩ := level_diag_block stop_nb hstop a a1 a2 g hs hu hlev
      simp only [magmablas_ztrsm_vbatched_max_nocheck, hlev] at h
      cases h1 : magmablas_ztrsm_vbatched_max_nocheck stop_nb f a1 with
      | none => simp [h1] at h
      | some t1 =>
        cases h2 : magmablas_ztrsm_vbatched_max_nocheck stop_nb f a2 with
        | none => simp [h1, h2] at h
        | some t2 =>
          simp only [h1, h2, Option.some.injEq] at h
          subst h
          intro l hl
          simp only [List.mem_append, List.mem_cons] at hl
          rcases hl with hl | rfl | hl
          · have := ih a1 (hs1 ▸ hs) (hu1 ▸ hu) t1 h1 l hl
            cases l with
            | small s => exact diag_block_trans a a1 s hs1 b1 this
            | gemm g => trivial
          · trivial
          · have := ih a2 (hs2 ▸ hs) (hu2 ▸ hu) t2 h2 l hl
            cases l with
            | small s => exact diag_block_trans a a2 s hs2 b2 this
            | gemm g => trivial
    | noop => exact absurd hlev (level_ne_noop stop_nb a)

/-- C33: every recursive call and every base-case invocation addresses a diagonal block
of `A` and the matching block of `B`. The top-level call does (with `k = 0`); any call
`b` of the recursion that does hands the property on to its two recursive calls: their
row and column offsets into `A` are advanced by the same amount `k`, their offsets into
`B` are `(Bi + k, Bj)` for side left and `(Bi, Bj + k)` for side right, with `0 ≤ k` and
`k` plus the sub-block size at most the top-level governing dimension; and the recursion
returns a list of launches whose small-solver launches all have the property. -/
theorem diagonal_blocks (stop_nb : magma_side_t → Int → Int → Int)
    (hstop : ∀ s m n, 1 ≤ stop_nb s m n) (a : TrsmArgs K)
    (hs : a.side = MagmaLeft ∨ a.side = MagmaRight)
    (hu : a.uplo = MagmaLower ∨ a.uplo = MagmaUpper) :
    diag_block a a ∧
    (∀ b b1 g b2, b.side = a.side → b.uplo = a.uplo → diag_block a b →
      trsm_level stop_nb b = Step.split b1 g b2 → diag_block a b1 ∧ diag_block a b2) ∧
    (∀ fuel, (max_nrowA a).toNat < fuel →
      ∃ t, magmablas_ztrsm_vbatched_max_nocheck stop_nb fuel a = some t ∧
        ∀ l ∈ t, launch_diag_block a l) := by
  refine ⟨diag_block_refl a, fun b b1 g b2 hsb hub hb hlev => ?_, fun fuel hf => ?_⟩
  · obtain ⟨hs1, hs2, -⟩ :=
      level_split_props stop_nb b b1 b2 g (hsb ▸ hs) (hub ▸ hu) hlev
    obtain ⟨c1, c2⟩ := level_diag_block stop_nb hstop b b1 b2 g (hsb ▸ hs) (hub ▸ hu) hlev
    exact ⟨diag_block_trans a b b1 hsb hb c1, diag_block_trans a b b2 hsb hb c2⟩
  · obtain ⟨t, ht⟩ := trsm_returns_aux stop_nb hstop a hs hu fuel hf
    exact ⟨t, ht, trace_diag_block_aux stop_nb hstop fuel a hs hu t ht⟩

/-- The diagonal blocks of the sample call `sample_conj`. -/
theorem diagonal_blocks_witness :
    diag_block sample_conj sample_conj ∧
    (∀ b b1 g b2, b.side = sample_conj.side → b.uplo = sample_conj.uplo →
      diag_block sample_conj b →
      trsm_level stop_one b = Step.split b1 g b2 →
      diag_block sample_conj b1 ∧ diag_block sample_conj b2) ∧
    (∀ fuel, (max_nrowA sample_conj).toNat < fuel →
      ∃ t, magmablas_ztrsm_vbatched_max_nocheck stop_one fuel sample_conj = some t ∧
        ∀ l ∈ t, launch_diag_block sample_conj l) :=
  diagonal_blocks stop_one (fun _ _ _ => le_refl 1) sample_conj (Or.inl rfl) (Or.inl rfl)

end Offsets

section Operand
variable {K : Type} [Field K] [DecidableEq K]

/-- C34: the block of `A` read by the GEMM update. In every shape the update reads the
array of `A` (as operand `A` for side left, as operand `B` for side right) in the
off-diagonal block between the two diagonal sub-blocks: with `k` the size of the
leading sub-block, the block starts at `(Ai + k, Aj)` and has `max_dim - k` rows and `k`
columns whenever uplo is lower (shapes 0, 2, 4, 6), and starts at `(Ai, Aj + k)` with
`k` rows and `max_dim - k` columns whenever uplo is upper (shapes 1, 3, 5, 7). Every
entry of it lies strictly inside the stored triangle, where the triangular matrix of the
solve is the stored matrix, so the update never reads the other triangle. -/
theorem update_reads_stored_triangle (stop_nb : magma_side_t → Int → Int → Int)
    (hstop : ∀ s m n, 1 ≤ stop_nb s m n)
    (a a1 a2 : TrsmArgs K) (g : GemmArgs K)
    (hs : a.side = MagmaLeft ∨ a.side = MagmaRight)
    (hu : a.uplo = MagmaLower ∨ a.uplo = MagmaUpper)
    (hlev : trsm_level stop_nb a = Step.split a1 g a2) :
    (a.side = MagmaLeft → g.dA_array = a.dA_array) ∧
    (a.side = MagmaRight → g.dB_array = a.dA_array) ∧
    (a.uplo = MagmaLower →
      gemm_A_block a g = ⟨a.Ai + leading_size a a1 a2, a.Aj,
        max_nrowA a - leading_size a a1 a2, leading_size a a1 a2⟩) ∧
    (a.uplo = MagmaUpper →
      gemm_A_block a g = ⟨a.Ai, a.Aj + leading_size a a1 a2,
        leading_size a a1 a2, max_nrowA a - leading_size a a1 a2⟩) ∧
    (1 ≤ leading_size a a1 a2 ∧ leading_size a a1 a2 < max_nrowA a) ∧
    (∀ r c : Int,
      (gemm_A_block a g).row ≤ r → r < (gemm_A_block a g).row + (gemm_A_block a g).rows →
      (gemm_A_block a g).col ≤ c → c < (gemm_A_block a g).col + (gemm_A_block a g).cols →
      (a.uplo = MagmaLower → c - a.Aj < r - a.Ai) ∧
      (a.uplo = MagmaUpper → r - a.Ai < c - a.Aj) ∧
      ∀ X : Int → Int → K,
        tri a.uplo a.diag (blk X a.Ai a.Aj) (r - a.Ai) (c - a.Aj) = X r c) := by
  have hnb := level_split_not_base stop_nb a a1 a2 g hlev
  have h1 := hstop a.side a.max_m a.max_n
  have hp := nb_pos (max_nrowA a)
  have hl := nb_lt (max_nrowA a) (by omega)
  obtain ⟨side, uplo, transA, diag, m, n, alpha, dA, Ai, Aj, ldda, dB, Bi, Bj, lddb,
    max_m, max_n, spec_m, spec_n, batchCount, queue⟩ := a
  simp only at hs hu
  rcases hs with rfl | rfl <;> rcases hu with rfl | rfl <;> cases transA <;>
    (simp [trsm_level, trsm_shape] at hlev
     split_ifs at hlev
     cases hlev
     simp [max_nrowA] at hp hl
     clear hnb h1
     refine ⟨by simp, by simp, ?_, ?_, ?_, ?_⟩
     · simp [gemm_A_block, leading_size, rec_offset, max_nrowA]
       try omega
     · simp [gemm_A_block, leading_size, rec_offset, max_nrowA]
       try omega
     · simp [leading_size, rec_offset, max_nrowA]
       omega
     · intro r c hr0 hr hc0 hc
       simp only [gemm_A_block, if_true, if_false, reduceCtorEq] at hr0 hr hc0 hc
       have e : ∀ X : Int → Int → K, blk X Ai Aj (r - Ai) (c - Aj) = X r c := by
         intro X
         simp [blk]
       refine ⟨by simp; try omega, by simp; try omega, fun X => ?_⟩
       dsimp only
       first
       | rw [tri_lower_of_lt _ _ _ _ (by omega), e]
       | rw [tri_upper_of_lt _ _ _ _ (by omega), e])

/-- The block of `A` read by the update of `sample_conj` (lower, leading size 1): it
starts at `(1, 0)` and has two rows and one column. -/
theorem update_reads_stored_triangle_witness :
    gemm_A_block sample_conj sample_conj_update = ⟨1, 0, 2, 1⟩ ∧
    gemm_A_block sample_conj sample_conj_update
      = ⟨sample_conj.Ai + leading_size sample_conj sample_conj_first sample_conj_second,
        sample_conj.Aj,
        max_nrowA sample_conj - leading_size sample_conj sample_conj_first sample_conj_second,
        leading_size sample_conj sample_conj_first sample_conj_second⟩ :=
  ⟨by decide,
    (update_reads_stored_triangle stop_one (fun _ _ _ => le_refl 1) sample_conj
      sample_conj_first sample_conj_second sample_conj_update (Or.inl rfl) (Or.inl rfl)
      rfl).2.2.1 rfl⟩

end Operand

/-! ## The quotient `-1/alpha` -/

section Quotient
variable {K : Type} [Field K]

theorem scalars_plain_one (alpha : K) (l : Launch K) (h : launch_scalars_plain 1 l) :
    launch_scalars_plain alpha l := by
  cases l with
  | small s =>
    simp only [launch_scalars_plain] at h ⊢
    rcases h with h | h <;> exact Or.inr h
  | gemm g =>
    simp only [launch_scalars_plain] at h ⊢
    refine ⟨h.1, ?_⟩
    rcases h.2 with h | h <;> exact Or.inr h

/-- A list of launches whose updates all have a defined scalar runs to the end. -/
theorem run_defined [StarRing K] (small : TrsmArgs K → Mem K → Mem K) (t : List (Launch K))
    (ht : ∀ g, Launch.gemm g ∈ t → ∃ al, g.alpha = some al) (mem : Mem K) :
    ∃ mem1, run small t mem = some mem1 := by
  induction t generalizing mem with
  | nil => exact ⟨mem, rfl⟩
  | cons l t ih =>
    have ht' : ∀ g, Launch.gemm g ∈ t → ∃ al, g.alpha = some al :=
      fun g hg => ht g (List.mem_cons_of_mem _ hg)
    cases l with
    | small s =>
      simp only [run]
      exact ih ht' _
    | gemm g =>
      obtain ⟨al, hal⟩ := ht g (List.mem_cons_self _ _)
      simp only [run, magmablas_zgemm_vbatched_core, hal]
      exact ih ht' _

/-- A list of launches with an update in it, whose updates all have an undefined scalar,
has no defined result. -/
theorem run_undefined [StarRing K] (small : TrsmArgs K → Mem K → Mem K) (t : List (Launch K))
    (ht : ∀ g, Launch.gemm g ∈ t → g.alpha = none) (hex : ∃ g, Launch.gemm g ∈ t)
    (mem : Mem K) : run small t mem = none := by
  induction t generalizing mem with
  | nil =>
    obtain ⟨g, hg⟩ := hex
    simp at hg
  | cons l t ih =>
    cases l with
    | small s =>
      simp only [run]
      refine ih (fun g hg => ht g (List.mem_cons_of_mem _ hg)) ?_ _
      obtain ⟨g, hg⟩ := hex
      simp only [List.mem_cons, reduceCtorEq, false_or] at hg
      exact ⟨g, hg⟩
    | gemm g =>
      have hal := ht g (List.mem_cons_self _ _)
      simp only [run, magmablas_zgemm_vbatched_core, hal]

variable [DecidableEq K]

/-- The scalars one level passes on, for every input: the sub-calls keep the shape, the
first one gets `alpha`; in the shapes 0, 3, 5, 6 the second one gets `1` and the update
`(-1, alpha)`, in the other shapes the second one gets `alpha` and the update the
quotient and `1`. -/
theorem level_scalars (stop_nb : magma_side_t → Int → Int → Int) (a a1 a2 : TrsmArgs K)
    (g : GemmArgs K) (hlev : trsm_level stop_nb a = Step.split a1 g a2) :
    trsm_shape a1.side a1.uplo a1.transA = trsm_shape a.side a.uplo a.transA ∧
    trsm_shape a2.side a2.uplo a2.transA = trsm_shape a.side a.uplo a.transA ∧
    a1.alpha = a.alpha ∧
    ((trsm_shape a.side a.uplo a.transA = 0 ∨ trsm_shape a.side a.uplo a.transA = 3 ∨
        trsm_shape a.side a.uplo a.transA = 5 ∨ trsm_shape a.side a.uplo a.transA = 6) →
      a2.alpha = 1 ∧ g.alpha = some (-1) ∧ g.beta = a.alpha) ∧
    ((trsm_shape a.side a.uplo a.transA = 1 ∨ trsm_shape a.side a.uplo a.transA = 2 ∨
        trsm_shape a.side a.uplo a.transA = 4 ∨ trsm_shape a.side a.uplo a.transA = 7) →
      a2.alpha = a.alpha ∧ g.alpha = MAGMA_Z_DIV (-1) a.alpha ∧ g.beta = 1) := by
  by_cases hb : max_nrowA a ≤ stop_nb a.side a.max_m a.max_n
  · rw [level_base stop_nb a hb] at hlev
    cases hlev
  · have hsh := shape_eight a.side a.uplo a.transA
    unfold max_nrowA at hb
    rcases hsh with h | h | h | h | h | h | h | h <;>
      (simp [trsm_level, hb, h] at hlev
       obtain ⟨rfl, rfl, rfl⟩ := hlev
       simp [h])

/-- In the shapes 0, 3, 5 and 6 every launch of the whole recursion carries only `alpha`,
`1` and `-1`. -/
theorem trace_plain_aux (stop_nb : magma_side_t → Int → Int → Int) (fuel : Nat)
    (a : TrsmArgs K)
    (hsh : trsm_shape a.side a.uplo a.transA = 0 ∨ trsm_shape a.side a.uplo a.transA = 3 ∨
      trsm_shape a.side a.uplo a.transA = 5 ∨ trsm_shape a.side a.uplo a.transA = 6)
    (t : List (Launch K))
    (h : magmablas_ztrsm_vbatched_max_nocheck stop_nb fuel a = some t) :
    ∀ l ∈ t, launch_scalars_plain a.alpha l := by
  induction fuel generalizing a t with
  | zero => simp [magmablas_ztrsm_vbatched_max_nocheck] at h
  | succ f ih =>
    cases hlev : trsm_level stop_nb a with
    | base s =>
      simp only [magmablas_ztrsm_vbatched_max_nocheck, hlev, Option.some.injEq] at h
      subst h
      intro l hl
      simp only [List.mem_singleton] at hl
      subst hl
      rw [level_base_eq stop_nb a s hlev]
      exact Or.inl rfl
    | split a1 g a2 =>
      obtain ⟨s1, s2, e1, hp, -⟩ := level_scalars stop_nb a a1 a2 g hlev
      obtain ⟨e2, eg, eb⟩ := hp hsh
      simp only [magmablas_ztrsm_vbatched_max_nocheck, hlev] at h
      cases h1 : magmablas_ztrsm_vbatched_max_nocheck stop_nb f a1 with
      | none => simp [h1] at h
      | some t1 =>
        cases h2 : magmablas_ztrsm_vbatched_max_nocheck stop_nb f a2 with
        | none => simp [h1, h2] at h
        | some t2 =>
          simp only [h1, h2, Option.some.injEq] at h
          subst h
          intro l hl
          simp only [List.mem_append, List.mem_cons] at hl
          rcases hl with hl | rfl | hl
          · have := ih a1 (by rw [s1]; exact hsh) t1 h1 l hl
            rw [e1] at this
            exact this
          · exact ⟨eg, Or.inl eb⟩
          · have := ih a2 (by rw [s2]; exact hsh) t2 h2 l hl
            rw [e2] at this
            exact scalars_plain_one a.alpha l this
    | noop => exact absurd hlev (level_ne_noop stop_nb a)

/-- In the shapes 1, 2, 4 and 7 every update of the whole recursion is launched with the
quotient `MAGMA_Z_DIV(c_negone, alpha)` and every solve with `alpha`. -/
theorem trace_quotient_aux (stop_nb : magma_side_t → Int → Int → Int) (fuel : Nat)
    (a : TrsmArgs K)
    (hsh : trsm_shape a.side a.uplo a.transA = 1 ∨ trsm_shape a.side a.uplo a.transA = 2 ∨
      trsm_shape a.side a.uplo a.transA = 4 ∨ trsm_shape a.side a.uplo a.transA = 7)
    (t : List (Launch K))
    (h : magmablas_ztrsm_vbatched_max_nocheck stop_nb fuel a = some t) :
    ∀ l ∈ t, launch_scalars_quotient a.alpha l := by
  induction fuel generalizing a t with
  | zero => simp [magmablas_ztrsm_vbatched_max_nocheck] at h
  | succ f ih =>
    cases hlev : trsm_level stop_nb a with
    | base s =>
      simp only [magmablas_ztrsm_vbatched_max_nocheck, hlev, Option.some.injEq] at h
      subst h
      intro l hl
      simp only [List.mem_singleton] at hl
      subst hl
      rw [level_base_eq stop_nb a s hlev]
      rfl
    | split a1 g a2 =>
      obtain ⟨s1, s2, e1, -, hq⟩ := level_scalars stop_nb a a1 a2 g hlev
      obtain ⟨e2, eg, eb⟩ := hq hsh
      simp only [magmablas_ztrsm_vbatched_max_nocheck, hlev] at h
      cases h1 : magmablas_ztrsm_vbatched_max_nocheck stop_nb f a1 with
      | none => simp [h1] at h
      | some t1 =>
        cases h2 : magmablas_ztrsm_vbatched_max_nocheck stop_nb f a2 with
        | none => simp [h1, h2] at h
        | some t2 =>
          simp only [h1, h2, Option.some.injEq] at h
          subst h
          intro l hl
          simp only [List.mem_append, List.mem_cons] at hl
          rcases hl with hl | rfl | hl
          · have := ih a1 (by rw [s1]; exact hsh) t1 h1 l hl
            rw [e1] at this
            exact this
          · exact ⟨eg, eb⟩
          · have := ih a2 (by rw [s2]; exact hsh) t2 h2 l hl
            rw [e2] at this
            exact this
    | noop => exact absurd hlev (level_ne_noop stop_nb a)

/-- C36: where the quotient `-1/alpha` goes. The recursion returns a list of launches.
In the shapes 0, 3, 5 and 6 every launch of it carries only `alpha`, `1` and `-1` (the
update always `-1`), so the list runs to a defined result whatever `alpha` is, zero
included. In the shapes 1, 2, 4 and 7 every level that is not a base case passes the
quotient `MAGMA_Z_DIV(c_negone, alpha)` to its GEMM update, every update of the list
carries it, and a call that is not a base case has an update in its list; the quotient
is undefined for `alpha = 0`, and then the list has no defined result. -/
theorem quotient_usage [StarRing K] (stop_nb : magma_side_t → Int → Int → Int)
    (hstop : ∀ s m n, 1 ≤ stop_nb s m n) (a : TrsmArgs K)
    (hs : a.side = MagmaLeft ∨ a.side = MagmaRight)
    (hu : a.uplo = MagmaLower ∨ a.uplo = MagmaUpper)
    (fuel : Nat) (hf : (max_nrowA a).toNat < fuel) :
    ∃ t, magmablas_ztrsm_vbatched_max_nocheck stop_nb fuel a = some t ∧
      ((trsm_shape a.side a.uplo a.transA = 0 ∨ trsm_shape a.side a.uplo a.transA = 3 ∨
          trsm_shape a.side a.uplo a.transA = 5 ∨ trsm_shape a.side a.uplo a.transA = 6) →
        (∀ l ∈ t, launch_scalars_plain a.alpha l) ∧
        ∀ (small : TrsmArgs K → Mem K → Mem K) (mem : Mem K),
          ∃ mem1, run small t mem = some mem1) ∧
      ((trsm_shape a.side a.uplo a.transA = 1 ∨ trsm_shape a.side a.uplo a.transA = 2 ∨
          trsm_shape a.side a.uplo a.transA = 4 ∨ trsm_shape a.side a.uplo a.transA = 7) →
        (∀ b b1 g b2, trsm_shape b.side b.uplo b.transA = trsm_shape a.side a.uplo a.transA →
          trsm_level stop_nb b = Step.split b1 g b2 → g.alpha = MAGMA_Z_DIV (-1 : K) b.alpha) ∧
        (∀ l ∈ t, launch_scalars_quotient a.alpha l) ∧
        (¬ max_nrowA a ≤ stop_nb a.side a.max_m a.max_n →
          (∃ g, Launch.gemm g ∈ t) ∧
          (a.alpha = 0 → ∀ (small : TrsmArgs K → Mem K → Mem K) (mem : Mem K),
            run small t mem = none))) ∧
      MAGMA_Z_DIV (-1) (0 : K) = none := by
  obtain ⟨t, ht⟩ := trsm_returns_aux stop_nb hstop a hs hu fuel hf
  refine ⟨t, ht, fun hsh => ?_, fun hsh => ?_, by simp [MAGMA_Z_DIV]⟩
  · have hp := trace_plain_aux stop_nb fuel a hsh t ht
    refine ⟨hp, fun small mem => run_defined small t (fun g hg => ?_) mem⟩
    exact ⟨-1, (hp _ hg).1⟩
  · have hq := trace_quotient_aux stop_nb fuel a hsh t ht
    refine ⟨fun b b1 g b2 hb hlev => ?_, hq, fun hnb => ?_⟩
    · exact ((level_scalars stop_nb b b1 b2 g hlev).2.2.2.2 (by rw [hb]; exact hsh)).2.1
    · have hex : ∃ g, Launch.gemm g ∈ t := by
        obtain ⟨a1, g, a2, hlev⟩ := level_split_exists stop_nb a hs hu hnb
        cases fuel with
        | zero => omega
        | succ f =>
          simp only [magmablas_ztrsm_vbatched_max_nocheck, hlev] at ht
          cases h1 : magmablas_ztrsm_vbatched_max_nocheck stop_nb f a1 with
          | none => simp [h1] at ht
          | some t1 =>
            cases h2 : magmablas_ztrsm_vbatched_max_nocheck stop_nb f a2 with
            | none => simp [h1, h2] at ht
            | some t2 =>
              simp only [h1, h2, Option.some.injEq] at ht
              subst ht
              exact ⟨g, by simp⟩
      refine ⟨hex, fun h0 small mem => run_undefined small t (fun g hg => ?_) hex mem⟩
      have := (hq _ hg).1
      rw [h0] at this
      rw [this]
      simp [MAGMA_Z_DIV]

/-- The scalars of the launches of the sample call `sample_conj` (shape 2, `alpha = 2`). -/
theorem quotient_usage_witness :
    ∃ t, magmablas_ztrsm_vbatched_max_nocheck stop_one 4 sample_conj = some t ∧
      ((trsm_shape sample_conj.side sample_conj.uplo sample_conj.transA = 0 ∨
          trsm_shape sample_conj.side sample_conj.uplo sample_conj.transA = 3 ∨
          trsm_shape sample_conj.side sample_conj.uplo sample_conj.transA = 5 ∨
          trsm_shape sample_conj.side sample_conj.uplo sample_conj.transA = 6) →
        (∀ l ∈ t, launch_scalars_plain sample_conj.alpha l) ∧
        ∀ (small : TrsmArgs Rat → Mem Rat → Mem Rat) (mem : Mem Rat),
          ∃ mem1, run small t mem = some mem1) ∧
      ((trsm_shape sample_conj.side sample_conj.uplo sample_conj.transA = 1 ∨
          trsm_shape sample_conj.side sample_conj.uplo sample_conj.transA = 2 ∨
          trsm_shape sample_conj.side sample_conj.uplo sample_conj.transA = 4 ∨
          trsm_shape sample_conj.side sample_conj.uplo sample_conj.transA = 7) →
        (∀ b b1 g b2,
          trsm_shape b.side b.uplo b.transA
            = trsm_shape sample_conj.side sample_conj.uplo sample_conj.transA →
          trsm_level stop_one b = Step.split b1 g b2 → g.alpha = MAGMA_Z_DIV (-1 : Rat) b.alpha) ∧
        (∀ l ∈ t, launch_scalars_quotient sample_conj.alpha l) ∧
        (¬ max_nrowA sample_conj
            ≤ stop_one sample_conj.side sample_conj.max_m sample_conj.max_n →
          (∃ g, Launch.gemm g ∈ t) ∧
          (sample_conj.alpha = 0 → ∀ (small : TrsmArgs Rat → Mem Rat → Mem Rat)
            (mem : Mem Rat), run small t mem = none))) ∧
      MAGMA_Z_DIV (-1) (0 : Rat) = none :=
  quotient_usage stop_one (fun _ _ _ => le_refl 1) sample_conj (Or.inl rfl) (Or.inl rfl) 4
    (by decide)

end Quotient

/-! ## The block loop of `magma_sgeqrs_gpu` -/

section Loop

/-- The block loop started at `nb * j - nb` with a block size of at least one makes `j`
iterations, at the block starts `nb * j - nb`, `nb * j - 2 * nb`, ..., `0`. -/
theorem sgeqrs_loop_blocks (x : SgeqrsArgs) (nb k lddwork : Int) (hnb : 1 ≤ nb) (j : Nat) :
    ∀ (fuel : Nat) (s : Int), s = nb * j - nb → j < fuel →
      ∃ its, sgeqrs_loop x nb k lddwork fuel s = some its ∧
        its.map SgeqrsIter.i = (List.range j).map (fun r : Nat => nb * j - nb * ((r : Int) + 1)) ∧
        ∀ it ∈ its, it.ib = min (k - it.i) nb ∧
          (it.i + it.ib < x.n → it.calls.length = 2) ∧
          (¬ it.i + it.ib < x.n → it.calls = []) := by
  induction j with
  | zero =>
    intro fuel s hs hf
    obtain ⟨f, rfl⟩ : ∃ f, fuel = f + 1 := ⟨fuel - 1, by omega⟩
    have hneg : ¬ 0 ≤ s := by
      simp only [Nat.cast_zero, mul_zero, zero_sub] at hs
      omega
    exact ⟨[], by simp [sgeqrs_loop, hneg], by simp, by simp⟩
  | succ j ih =>
    intro fuel s hs hf
    obtain ⟨f, rfl⟩ : ∃ f, fuel = f + 1 := ⟨fuel - 1, by omega⟩
    have hs' : s = nb * j := by
      rw [hs]
      push_cast
      ring
    have hpos : 0 ≤ s := by
      rw [hs']
      positivity
    obtain ⟨its, hl, hm, hp⟩ := ih f (s - nb) (by rw [hs']) (by omega)
    have hstep : ∃ it : SgeqrsIter, sgeqrs_loop x nb k lddwork (f + 1) s = some (it :: its) ∧
        it.i = s ∧ it.ib = min (k - s) nb ∧
        (s + min (k - s) nb < x.n → it.calls.length = 2) ∧
        (¬ s + min (k - s) nb < x.n → it.calls = []) := by
      refine ⟨_, by simp only [sgeqrs_loop, if_pos hpos, hl]; rfl, rfl, rfl, fun h => ?_,
        fun h => ?_⟩
      · simp only [if_pos h]
        split_ifs <;> rfl
      · simp only [if_neg h]
    obtain ⟨it0, h0, hi0, hib0, hc1, hc2⟩ := hstep
    refine ⟨it0 :: its, h0, ?_, ?_⟩
    · rw [List.range_succ_eq_map]
      simp only [List.map_cons, List.map_map, hm, hi0]
      refine congrArg₂ _ ?_ (List.map_congr_left fun r _ => ?_)
      · rw [hs']
        push_cast
        ring
      · simp only [Function.comp]
        push_cast
        ring
    · intro it hit
      simp only [List.mem_cons] at hit
      rcases hit with rfl | hit
      · rw [hi0, hib0]
        exact ⟨rfl, hc1, hc2⟩
      · exact hp it hit

end Loop

section Blocks38

theorem sgeqrs_calls_length (its : List SgeqrsIter) (h : ∀ it ∈ its, it.calls.length = 2) :
    ((its.map SgeqrsIter.calls).flatten).length = 2 * its.length := by
  induction its with
  | nil => rfl
  | cons it its ih =>
    simp only [List.map_cons, List.flatten_cons, List.length_append, List.length_cons]
    rw [ih (fun it' h' => h it' (List.mem_cons_of_mem _ h')), h it (List.mem_cons_self _ _)]
    omega

/-- C38: the blocks of the back-substitution of `magma_sgeqrs_gpu`. For `m ≥ n ≥ 1`, a
block size `nb ≥ 1` and arguments that pass the checks, with a product
`(m-n+nb+2*nrhs)*nb` in the range of an `int`, the routine returns once the
fuel exceeds `(n-1)/nb`: so the loop terminates. The last block starts at
`i0 = ((n-1)/nb)*nb` and its width `ib = n - i0` is between 1 and `nb`; it is the block
handed to `strsm_`. The loop then visits the block starts `i0 - nb`, `i0 - 2*nb`, ...,
`0` in this order, each with width exactly `nb`, each within `[0, i0)`, and in each
iteration the guard `i + ib < n` holds and the two calls are issued. The blocks
`[i, i + ib)` are pairwise disjoint and every index of `[0, n)` lies in one of them.
The offset `rows * ib` handed to `strsm_` is in the range of an `int` and within the
`lwork` entries of the workspace. -/
theorem sgeqrs_block_structure (get_nb : Int → Int) (sormqr_info : Int) (x : SgeqrsArgs)
    (fuel : Nat) (hn : 1 ≤ x.n) (hmn : x.n ≤ x.m) (hnb : 1 ≤ get_nb x.m)
    (hinfo : sgeqrs_info (get_nb x.m) x = 0) (hq : x.lwork ≠ -1)
    (hov : (x.m - x.n + get_nb x.m + 2 * x.nrhs) * get_nb x.m < 2147483648)
    (hf : ((x.n - 1) / get_nb x.m).toNat < fuel) :
    ∃ its out,
      (min x.m x.n - 1).tdiv (get_nb x.m) * get_nb x.m = (x.n - 1) / get_nb x.m * get_nb x.m ∧
      0 ≤ (x.n - 1) / get_nb x.m * get_nb x.m ∧
      1 ≤ x.n - (x.n - 1) / get_nb x.m * get_nb x.m ∧
      x.n - (x.n - 1) / get_nb x.m * get_nb x.m ≤ get_nb x.m ∧
      (if get_nb x.m < min x.m x.n then
          sgeqrs_loop x (get_nb x.m) (min x.m x.n) (min x.m x.n) fuel
            ((x.n - 1) / get_nb x.m * get_nb x.m - get_nb x.m)
        else some []) = some its ∧
      magma_sgeqrs_gpu get_nb sormqr_info fuel x = some out ∧
      out.calls.get? 1 = some (SgeqrsCall.strsm_ (x.n - (x.n - 1) / get_nb x.m * get_nb x.m)
        x.nrhs 1 ⟨SgeqrsBuf.work, 0⟩ (x.m - (x.n - 1) / get_nb x.m * get_nb x.m)
        ⟨SgeqrsBuf.work, (x.m - (x.n - 1) / get_nb x.m * get_nb x.m)
          * (x.n - (x.n - 1) / get_nb x.m * get_nb x.m)⟩
        (x.m - (x.n - 1) / get_nb x.m * get_nb x.m)) ∧
      out.calls.length = 5 + 2 * its.length ∧
      its.map SgeqrsIter.i = (List.range ((x.n - 1) / get_nb x.m).toNat).map
        (fun r : Nat => (x.n - 1) / get_nb x.m * get_nb x.m - get_nb x.m * ((r : Int) + 1)) ∧
      (∀ it ∈ its, it.ib = get_nb x.m ∧ it.i + it.ib < x.n ∧ it.calls.length = 2 ∧
        0 ≤ it.i ∧ it.i + it.ib ≤ (x.n - 1) / get_nb x.m * get_nb x.m) ∧
      (its.map SgeqrsIter.i).Pairwise (fun i1 i2 => i2 + get_nb x.m ≤ i1) ∧
      (∀ y : Int, 0 ≤ y → y < x.n →
        ((x.n - 1) / get_nb x.m * get_nb x.m ≤ y ∧
          y < (x.n - 1) / get_nb x.m * get_nb x.m
            + (x.n - (x.n - 1) / get_nb x.m * get_nb x.m)) ∨
        ∃ it ∈ its, it.i ≤ y ∧ y < it.i + it.ib) ∧
      (0 ≤ (x.m - (x.n - 1) / get_nb x.m * get_nb x.m)
          * (x.n - (x.n - 1) / get_nb x.m * get_nb x.m) ∧
        (x.m - (x.n - 1) / get_nb x.m * get_nb x.m)
          * (x.n - (x.n - 1) / get_nb x.m * get_nb x.m) < 2147483648 ∧
        (x.m - (x.n - 1) / get_nb x.m * get_nb x.m)
          * (x.n - (x.n - 1) / get_nb x.m * get_nb x.m) ≤ x.lwork) := by
  obtain ⟨nb, hnbdef⟩ : ∃ nb, nb = get_nb x.m := ⟨_, rfl⟩
  rw [← hnbdef] at hnb hinfo hf hov ⊢
  have hk : min x.m x.n = x.n := min_eq_right hmn
  have hdiv : (x.n - 1).tdiv nb = (x.n - 1) / nb := Int.tdiv_eq_ediv (by omega) (by omega)
  have h1 := Int.ediv_add_emod (x.n - 1) nb
  have h2 := Int.emod_nonneg (x.n - 1) (show nb ≠ 0 by omega)
  have h3 := Int.emod_lt_of_pos (x.n - 1) (show 0 < nb by omega)
  have h4 : 0 ≤ (x.n - 1) / nb := Int.ediv_nonneg (by omega) (by omega)
  obtain ⟨Q, hQ⟩ : ∃ Q, Q = (x.n - 1) / nb := ⟨_, rfl⟩
  rw [← hQ] at hdiv h1 h4 hf ⊢
  obtain ⟨q, hqQ⟩ : ∃ q : Nat, (q : Int) = Q := ⟨Q.toNat, Int.toNat_of_nonneg h4⟩
  have hqf : q < fuel := by omega
  have hcomm : Q * nb = nb * Q := mul_comm _ _
  have htn : Q.toNat = q := by omega
  rw [hk, hdiv, htn, hcomm]
  obtain ⟨its, hl, hm, hp⟩ := sgeqrs_loop_blocks x nb x.n x.n hnb q fuel (nb * Q - nb)
    (by rw [hqQ]) hqf
  rw [hqQ] at hm
  have hmem : ∀ it ∈ its, ∃ r : Nat, r < q ∧ it.i = nb * Q - nb * ((r : Int) + 1) := by
    intro it hit
    have : it.i ∈ its.map SgeqrsIter.i := List.mem_map_of_mem _ hit
    rw [hm, List.mem_map] at this
    obtain ⟨r, hr, he⟩ := this
    exact ⟨r, List.mem_range.mp hr, he.symm⟩
  have hprops : ∀ it ∈ its, it.ib = nb ∧ it.i + it.ib < x.n ∧ it.calls.length = 2 ∧
      0 ≤ it.i ∧ it.i + it.ib ≤ nb * Q := by
    intro it hit
    obtain ⟨r, hr, he⟩ := hmem it hit
    obtain ⟨hib, hc, -⟩ := hp it hit
    have e1 : nb * ((r : Int) + 1) ≤ nb * Q :=
      mul_le_mul_of_nonneg_left (by omega) (by omega)
    have e2 : nb * 1 ≤ nb * ((r : Int) + 1) :=
      mul_le_mul_of_nonneg_left (by omega) (by omega)
    rw [mul_one] at e2
    have hib' : it.ib = nb := by
      rw [hib]
      omega
    have hg : it.i + it.ib < x.n := by omega
    exact ⟨hib', hg, hc hg, by omega, by omega⟩
  have hloop : (if nb < x.n then sgeqrs_loop x nb x.n x.n fuel (nb * Q - nb) else some [])
      = some its := by
    by_cases hlt : nb < x.n
    · rw [if_pos hlt, hl]
    · rw [if_neg hlt]
      have hQ0 : Q = 0 := by
        by_contra hne
        have : nb * 1 ≤ nb * Q := mul_le_mul_of_nonneg_left (by omega) (by omega)
        omega
      have hq0 : q = 0 := by omega
      subst hq0
      simp only [List.range_zero, List.map_nil, List.map_eq_nil_iff] at hm
      rw [hm]
  have hpos : 0 ≤ nb * Q := mul_nonneg (by omega) h4
  have hlen := sgeqrs_calls_length its (fun it hit => (hprops it hit).2.2.1)
  have hn0 : x.n ≠ 0 := by omega
  have hnb0 : nb ≠ 0 := by omega
  have hout : ∃ out, magma_sgeqrs_gpu get_nb sormqr_info fuel x = some out ∧
      out.calls.get? 1 = some (SgeqrsCall.strsm_ (x.n - nb * Q) x.nrhs 1 ⟨SgeqrsBuf.work, 0⟩
        (x.m - nb * Q) ⟨SgeqrsBuf.work, (x.m - nb * Q) * (x.n - nb * Q)⟩ (x.m - nb * Q)) ∧
      out.calls.length = 5 + 2 * its.length := by
    simp only [magma_sgeqrs_gpu, ← hnbdef, hinfo, hk, hdiv, hcomm, hloop, hq, hn0, hnb0,
      ne_eq, not_true_eq_false, if_false]
    refine ⟨_, rfl, ?_, ?_⟩
    · simp
    · simp only [List.length_append, List.length_cons, List.length_nil, hlen]
      omega
  obtain ⟨out, ho1, ho2, ho3⟩ := hout
  refine ⟨its, out, rfl, hpos, by omega, by omega, hloop, ho1, ho2, ho3, hm, hprops, ?_, ?_,
    ?_⟩
  · rw [hm, List.pairwise_map]
    refine (List.pairwise_lt_range q).imp ?_
    intro r r' hrr
    have : nb * ((r : Int) + 1 + 1) ≤ nb * ((r' : Int) + 1) :=
      mul_le_mul_of_nonneg_left (by omega) (by omega)
    have e : nb * ((r : Int) + 1 + 1) = nb * ((r : Int) + 1) + nb := by ring
    omega
  · intro y hy0 hy
    by_cases hlast : nb * Q ≤ y
    · exact Or.inl ⟨hlast, by omega⟩
    · right
      have g1 := Int.ediv_add_emod y nb
      have g2 := Int.emod_nonneg y (show nb ≠ 0 by omega)
      have g3 := Int.emod_lt_of_pos y (show 0 < nb by omega)
      have g4 : 0 ≤ y / nb := Int.ediv_nonneg hy0 (by omega)
      have g5 : y / nb < Q := by
        by_contra hge
        have : nb * Q ≤ nb * (y / nb) := mul_le_mul_of_nonneg_left (by omega) (by omega)
        omega
      obtain ⟨r, hr⟩ : ∃ r : Nat, (r : Int) + 1 + y / nb = Q :=
        ⟨(Q - 1 - y / nb).toNat, by omega⟩
      have hrq : r < q := by omega
      have hin : nb * Q - nb * ((r : Int) + 1) ∈ its.map SgeqrsIter.i := by
        rw [hm]
        exact List.mem_map.mpr ⟨r, List.mem_range.mpr hrq, rfl⟩
      obtain ⟨it, hit, he⟩ := List.mem_map.mp hin
      obtain ⟨hib, -⟩ := hprops it hit
      have e : nb * Q - nb * ((r : Int) + 1) = nb * (y / nb) := by
        rw [← hr]
        ring
      exact ⟨it, hit, by omega, by omega⟩
  · have hfacts : 0 ≤ x.nrhs ∧ sgeqrs_lwkopt nb x ≤ x.lwork := by
      simp only [sgeqrs_info] at hinfo
      split_ifs at hinfo with c1 c2 c3 c4 c5 c6
      omega
    have hsum : 0 ≤ x.m - x.n + nb + 2 * x.nrhs := by omega
    have hex : sgeqrs_lwkopt nb x = (x.m - x.n + nb + 2 * x.nrhs) * nb :=
      int32_of_range _ (le_trans (by decide) (mul_nonneg hsum (by omega))) hov
    have hle : (x.m - nb * Q) * (x.n - nb * Q) ≤ (x.m - x.n + nb + 2 * x.nrhs) * nb :=
      mul_le_mul (by omega) (by omega) (by omega) hsum
    have h0 : 0 ≤ (x.m - nb * Q) * (x.n - nb * Q) := mul_nonneg (by omega) (by omega)
    have hlw := hfacts.2
    rw [hex] at hlw
    exact ⟨h0, lt_of_le_of_lt hle hov, le_trans hle hlw⟩

/-- The blocks of the `5 × 5` solve `sample_solve` with block size 2: the last block is
`[4, 5)` and the loop visits the blocks `[2, 4)` and `[0, 2)`. -/
theorem sgeqrs_block_structure_witness :
    ∃ its out,
      (min sample_solve.m sample_solve.n - 1).tdiv (nb_2 sample_solve.m) * nb_2 sample_solve.m = (sample_solve.n - 1) / nb_2 sample_solve.m * nb_2 sample_solve.m ∧
      0 ≤ (sample_solve.n - 1) / nb_2 sample_solve.m * nb_2 sample_solve.m ∧
      1 ≤ sample_solve.n - (sample_solve.n - 1) / nb_2 sample_solve.m * nb_2 sample_solve.m ∧
      sample_solve.n - (sample_solve.n - 1) / nb_2 sample_solve.m * nb_2 sample_solve.m ≤ nb_2 sample_solve.m ∧
      (if nb_2 sample_solve.m < min sample_solve.m sample_solve.n then
          sgeqrs_loop sample_solve (nb_2 sample_solve.m) (min sample_solve.m sample_solve.n) (min sample_solve.m sample_solve.n) 3
            ((sample_solve.n - 1) / nb_2 sample_solve.m * nb_2 sample_solve.m - nb_2 sample_solve.m)
        else some []) = some its ∧
      magma_sgeqrs_gpu nb_2 0 3 sample_solve = some out ∧
      out.calls.get? 1 = some (SgeqrsCall.strsm_ (sample_solve.n - (sample_solve.n - 1) / nb_2 sample_solve.m * nb_2 sample_solve.m)
        sample_solve.nrhs 1 ⟨SgeqrsBuf.work, 0⟩ (sample_solve.m - (sample_solve.n - 1) / nb_2 sample_solve.m * nb_2 sample_solve.m)
        ⟨SgeqrsBuf.work, (sample_solve.m - (sample_solve.n - 1) / nb_2 sample_solve.m * nb_2 sample_solve.m)
          * (sample_solve.n - (sample_solve.n - 1) / nb_2 sample_solve.m * nb_2 sample_solve.m)⟩
        (sample_solve.m - (sample_solve.n - 1) / nb_2 sample_solve.m * nb_2 sample_solve.m)) ∧
      out.calls.length = 5 + 2 * its.length ∧
      its.map SgeqrsIter.i = (List.range ((sample_solve.n - 1) / nb_2 sample_solve.m).toNat).map
        (fun r : Nat => (sample_solve.n - 1) / nb_2 sample_solve.m * nb_2 sample_solve.m - nb_2 sample_solve.m * ((r : Int) + 1)) ∧
      (∀ it ∈ its, it.ib = nb_2 sample_solve.m ∧ it.i + it.ib < sample_solve.n ∧ it.calls.length = 2 ∧
        0 ≤ it.i ∧ it.i + it.ib ≤ (sample_solve.n - 1) / nb_2 sample_solve.m * nb_2 sample_solve.m) ∧
      (its.map SgeqrsIter.i).Pairwise (fun i1 i2 => i2 + nb_2 sample_solve.m ≤ i1) ∧
      (∀ y : Int, 0 ≤ y → y < sample_solve.n →
        ((sample_solve.n - 1) / nb_2 sample_solve.m * nb_2 sample_solve.m ≤ y ∧
          y < (sample_solve.n - 1) / nb_2 sample_solve.m * nb_2 sample_solve.m
            + (sample_solve.n - (sample_solve.n - 1) / nb_2 sample_solve.m * nb_2 sample_solve.m)) ∨
        ∃ it ∈ its, it.i ≤ y ∧ y < it.i + it.ib) ∧
      (0 ≤ (sample_solve.m - (sample_solve.n - 1) / nb_2 sample_solve.m * nb_2 sample_solve.m)
          * (sample_solve.n - (sample_solve.n - 1) / nb_2 sample_solve.m * nb_2 sample_solve.m) ∧
        (sample_solve.m - (sample_solve.n - 1) / nb_2 sample_solve.m * nb_2 sample_solve.m)
          * (sample_solve.n - (sample_solve.n - 1) / nb_2 sample_solve.m * nb_2 sample_solve.m)
          < 2147483648 ∧
        (sample_solve.m - (sample_solve.n - 1) / nb_2 sample_solve.m * nb_2 sample_solve.m)
          * (sample_solve.n - (sample_solve.n - 1) / nb_2 sample_solve.m * nb_2 sample_solve.m)
          ≤ sample_solve.lwork) :=
  sgeqrs_block_structure nb_2 0 sample_solve 3 (by decide) (by decide) (by decide) (by decide)
    (by decide) (by decide) (by decide)

end Blocks38

end Magma
